import Mathlib

/-!
# A shallow embedding of `segment_tree.cpp`

The file follows the source top to bottom: first the aggregate policies of
`namespace segment_tree_variant`, then the engine `class segment_tree`
(constructor, `get_transition`, `update`, `get`).

Conventions of the embedding.

* `std::vector<X>` is `List X`.  `operator[]` of the engine's level arrays is
  a checked access returning `Option`: `none` stands for an access outside the
  vector, which C++ leaves undefined.  The source contains no `throw`, so an
  engine operation either returns (`some`) or runs into such an access (`none`).
* `int` indices are `Int`; C++ `/ 2` is `Int.tdiv _ 2` (truncation) and the
  test `x & 1` is `x % 2 = 1` (two's complement parity).
* `int` is 32 bits wide.  The one `int` computation of the source that can leave
  the range of `int` on a sequence that fits the `int` member `size` is
  `mask + 1` in the constructor (`resize((mask + 1) / 2)` and `++mask`), at
  `mask = INT_MAX`; it is modelled by `int_succ`, which has no value there.
  Every other `int` expression stays below `size`: `j * 2 + 1 < mask`,
  `li + 1 <= ri` and `i + 1 < size` where they are evaluated.
* The element type `Tp` has two instances.  `sum_tp w` and `max_subarray_sum_tp w`
  take for `Tp` a signed integer type of `w` bits (`int` is `w = 32`,
  `long long` is `w = 64`) whose additions wrap around (`wrap`), as the compiled
  code does; `fits` and `no_overflow` say that a sum is representable.  `sum`,
  `max_subarray_sum` and `in_range_count` take the mathematical integers for
  `Tp`.
-/

namespace SegmentTree

/-! ## Vector access -/

/-- Checked write `v[i] = x` at a natural index. -/
def vec_set {α : Type} (v : List α) (i : Nat) (x : α) : Option (List α) :=
  if i < v.length then some (v.set i x) else none

/-- Read `v[i]` with an `int` index: outside `[0, v.size())` there is no value. -/
def vec_at {α : Type} (v : List α) (i : Int) : Option α :=
  if i < 0 then none else v[i.toNat]?

/-- Write `v[i] = x` with an `int` index. -/
def vec_put {α : Type} (v : List α) (i : Int) (x : α) : Option (List α) :=
  if i < 0 then none else vec_set v i.toNat x

/-- Read `v.back()`, the element at index `size() - 1`. -/
def back {α : Type} (v : List α) : Option α :=
  vec_at v ((v.length : Int) - 1)

/-- Write `v.back() = x`. -/
def back_put {α : Type} (v : List α) (x : α) : Option (List α) :=
  vec_put v ((v.length : Int) - 1) x

/-- Read `data[h][i]`. -/
def mat_at {α : Type} (data : List (List α)) (h i : Int) : Option α := do
  let row ← vec_at data h
  vec_at row i

/-- Write `data[h][i] = x`. -/
def mat_put {α : Type} (data : List (List α)) (h i : Int) (x : α) :
    Option (List (List α)) := do
  let row ← vec_at data h
  let row ← vec_put row i x
  vec_put data h row

/-- Conversion of an `int` to the 64-bit unsigned `size_t`. -/
def size_t_of (i : Int) : Nat := (i % 2 ^ 64).toNat

/-- The `size_t` value `n - 1`, which wraps around at `n = 0`. -/
def size_t_pred (n : Nat) : Nat := (n + 2 ^ 64 - 1) % 2 ^ 64

/-- The `int` value `x + 1` for an `int` `0 <= x`.  At `x = INT_MAX = 2^31 - 1` the
addition overflows, which C++ leaves undefined: there is no value. -/
def int_succ (x : Nat) : Option Nat := if x + 1 < 2 ^ 31 then some (x + 1) else none

/-- The value that a two's complement integer type of `w` bits holds for the integer `x`:
the one number of `[-2^(w-1), 2^(w-1))` congruent to `x` modulo `2^w`. -/
def wrap (w : Nat) (x : Int) : Int := (x + 2 ^ w / 2) % 2 ^ w - 2 ^ w / 2

/-- The integer `x` is a value of the two's complement integer type of `w` bits. -/
def fits (w : Nat) (x : Int) : Prop := -(2 ^ w / 2) ≤ x ∧ x < 2 ^ w / 2

/-- Number of zero bits of `x` above its highest set bit, among the lowest `k` bits. -/
def clz_bits : Nat → Nat → Nat
  | 0, _ => 0
  | k + 1, x => if x / 2 ^ k % 2 = 1 then 0 else clz_bits k x + 1

/-- The compiler builtin `__builtin_clz` on a 32-bit `unsigned int`
(count of leading zero bits; the builtin is undefined at `0`). -/
def builtin_clz (x : Nat) : Nat := clz_bits 32 (x % 2 ^ 32)

/-! ## Aggregate policies (`namespace segment_tree_variant`) -/

/-- The static interface the engine uses of its template parameter `Var`.
The overloaded names of the source are told apart by the call shapes the
engine has: `Var::update(val)`, `Var::update(lval, rval)`,
`Var::get_transition(datum, args...)`,
`Var::get_transition(trn, datum, args...)`,
`Var::get_transition(datum, trn, args...)`,
`Var::get_transition(trn, trn, args...)` and `Var::get(trn)`. -/
structure Variant (DatTp TrnTp RetTp Args : Type) where
  update_val : RetTp → DatTp
  update : DatTp → DatTp → DatTp
  get_transition_dat : DatTp → Args → TrnTp
  get_transition_trn_dat : TrnTp → DatTp → Args → TrnTp
  get_transition_dat_trn : DatTp → TrnTp → Args → TrnTp
  get_transition_trn_trn : TrnTp → TrnTp → Args → TrnTp
  get : TrnTp → RetTp

/-- Policy `sum<Tp>` at a signed integer type `Tp` of `w` bits: `update(lval, rval = 0)`
and `get_transition(lval, rval = 0)` both return `lval + rval`, an addition of `Tp`;
`get` is the identity. -/
def sum_tp (w : Nat) : Variant Int Int Int Unit where
  update_val := fun lval => wrap w (lval + 0)
  update := fun lval rval => wrap w (lval + rval)
  get_transition_dat := fun lval _ => wrap w (lval + 0)
  get_transition_trn_dat := fun lval rval _ => wrap w (lval + rval)
  get_transition_dat_trn := fun lval rval _ => wrap w (lval + rval)
  get_transition_trn_trn := fun lval rval _ => wrap w (lval + rval)
  get := fun val => val

/-- Policy `sum<Tp>` with the mathematical integers for `Tp`: `update(lval, rval = 0)` and
`get_transition(lval, rval = 0)` both return `lval + rval`; `get` is the identity. -/
def sum : Variant Int Int Int Unit where
  update_val := fun lval => lval + 0
  update := fun lval rval => lval + rval
  get_transition_dat := fun lval _ => lval + 0
  get_transition_trn_dat := fun lval rval _ => lval + rval
  get_transition_dat_trn := fun lval rval _ => lval + rval
  get_transition_trn_trn := fun lval rval _ => lval + rval
  get := fun val => val

/-- What overload resolution finds in a policy for each of the seven call shapes of the
engine: `none` where the policy declares no overload accepting the call, so that the
engine member containing the call cannot be instantiated with this policy. -/
structure Overloads (DatTp TrnTp RetTp Args : Type) where
  update_val : Option (RetTp → DatTp)
  update : Option (DatTp → DatTp → DatTp)
  get_transition_dat : Option (DatTp → Args → TrnTp)
  get_transition_trn_dat : Option (TrnTp → DatTp → Args → TrnTp)
  get_transition_dat_trn : Option (DatTp → TrnTp → Args → TrnTp)
  get_transition_trn_trn : Option (TrnTp → TrnTp → Args → TrnTp)
  get : Option (TrnTp → RetTp)

/-- The members a policy offers to the constructor, which calls `Var::update(*it)` and
`Var::update(left, right)`. -/
def Overloads.for_constructor {DatTp TrnTp RetTp Args : Type}
    (o : Overloads DatTp TrnTp RetTp Args) :
    Option ((RetTp → DatTp) × (DatTp → DatTp → DatTp)) := do
  let u1 ← o.update_val
  let u2 ← o.update
  some (u1, u2)

/-- The members a policy offers to `get`, which calls `Var::get_transition` in its four
shapes and `Var::get`. -/
def Overloads.for_get {DatTp TrnTp RetTp Args : Type}
    (o : Overloads DatTp TrnTp RetTp Args) :
    Option ((DatTp → Args → TrnTp) × (TrnTp → DatTp → Args → TrnTp) ×
      (DatTp → TrnTp → Args → TrnTp) × (TrnTp → TrnTp → Args → TrnTp) × (TrnTp → RetTp)) := do
  let g1 ← o.get_transition_dat
  let g2 ← o.get_transition_trn_dat
  let g3 ← o.get_transition_dat_trn
  let g4 ← o.get_transition_trn_trn
  let g ← o.get
  some (g1, g2, g3, g4, g)

/-- The policy with which the engine can be instantiated, when every call resolves. -/
def Overloads.resolve {DatTp TrnTp RetTp Args : Type}
    (o : Overloads DatTp TrnTp RetTp Args) : Option (Variant DatTp TrnTp RetTp Args) := do
  let c ← o.for_constructor
  let g ← o.for_get
  some ⟨c.1, c.2, g.1, g.2.1, g.2.2.1, g.2.2.2.1, g.2.2.2.2⟩

/-- Overloads of `sum<Tp>`: the default argument `rval = 0` lets `update` and
`get_transition` accept one and two arguments (`DatTp = TrnTp = RetTp = Tp`). -/
def sum_overloads : Overloads Int Int Int Unit where
  update_val := some (fun lval => lval + 0)
  update := some (fun lval rval => lval + rval)
  get_transition_dat := some (fun lval _ => lval + 0)
  get_transition_trn_dat := some (fun lval rval _ => lval + rval)
  get_transition_dat_trn := some (fun lval rval _ => lval + rval)
  get_transition_trn_trn := some (fun lval rval _ => lval + rval)
  get := some (fun val => val)

/-- Overloads of `bitwise_xor<Tp>`: it declares `update(lval, rval)` with two mandatory
parameters, `get_transition(val)` with one parameter, and `get(val)`. -/
def bitwise_xor : Overloads Int Int Int Unit where
  update_val := none
  update := some (fun lval rval => Int.xor lval rval)
  get_transition_dat := some (fun val _ => val)
  get_transition_trn_dat := none
  get_transition_dat_trn := none
  get_transition_trn_trn := none
  get := some (fun val => val)

/-- Overloads of `bitwise_and<Tp>`, of the same shape as `bitwise_xor<Tp>`. -/
def bitwise_and : Overloads Int Int Int Unit where
  update_val := none
  update := some (fun lval rval => Int.land lval rval)
  get_transition_dat := some (fun val _ => val)
  get_transition_trn_dat := none
  get_transition_dat_trn := none
  get_transition_trn_trn := none
  get := some (fun val => val)

/-- Overloads of `bitwise_or<Tp>`, of the same shape as `bitwise_xor<Tp>`. -/
def bitwise_or : Overloads Int Int Int Unit where
  update_val := none
  update := some (fun lval rval => Int.lor lval rval)
  get_transition_dat := some (fun val _ => val)
  get_transition_trn_dat := none
  get_transition_dat_trn := none
  get_transition_trn_trn := none
  get := some (fun val => val)

/-- The call `max_subarray_sum::update(val)`: `DatTp(4, val)`. -/
def max_subarray_sum_update_val (val : Int) : List Int := List.replicate 4 val

/-- The call `max_subarray_sum::update(lval, rval)` at a signed integer type `Tp` of `w`
bits: the four additions are additions of `Tp`.  The source reads the components `0..3` of
both vectors without a check; every datum built by `update` has them. -/
def max_subarray_sum_tp_update (w : Nat) (lval rval : List Int) : List Int :=
  [ max (max (lval.getD 0 0) (rval.getD 0 0)) (wrap w (lval.getD 1 0 + rval.getD 2 0)),
    max (rval.getD 1 0) (wrap w (lval.getD 1 0 + rval.getD 3 0)),
    max (lval.getD 2 0) (wrap w (lval.getD 3 0 + rval.getD 2 0)),
    wrap w (lval.getD 3 0 + rval.getD 3 0) ]

/-- The call `max_subarray_sum::update(lval, rval)` with the mathematical integers for
`Tp`.  The source reads the components `0..3` of both vectors without a check; every datum
built by `update` has them. -/
def max_subarray_sum_update (lval rval : List Int) : List Int :=
  [ max (max (lval.getD 0 0) (rval.getD 0 0)) (lval.getD 1 0 + rval.getD 2 0),
    max (rval.getD 1 0) (lval.getD 1 0 + rval.getD 3 0),
    max (lval.getD 2 0) (lval.getD 3 0 + rval.getD 2 0),
    lval.getD 3 0 + rval.getD 3 0 ]

/-- The value `*max_element(val.begin(), val.end())`; no value on an empty vector. -/
def max_element : List Int → Option Int
  | [] => none
  | x :: xs => some (xs.foldl max x)

/-- The call `max_subarray_sum::get(val)`. -/
def max_subarray_sum_get (val : List Int) : Int := (max_element val).getD 0

/-- Policy `max_subarray_sum<Tp>` at a signed integer type `Tp` of `w` bits. -/
def max_subarray_sum_tp (w : Nat) : Variant (List Int) (List Int) Int Unit where
  update_val := max_subarray_sum_update_val
  update := max_subarray_sum_tp_update w
  get_transition_dat := fun val _ => val
  get_transition_trn_dat := fun lval rval _ => max_subarray_sum_tp_update w lval rval
  get_transition_dat_trn := fun lval rval _ => max_subarray_sum_tp_update w lval rval
  get_transition_trn_trn := fun lval rval _ => max_subarray_sum_tp_update w lval rval
  get := max_subarray_sum_get

/-- Policy `max_subarray_sum<Tp>` with the mathematical integers for `Tp`. -/
def max_subarray_sum : Variant (List Int) (List Int) Int Unit where
  update_val := max_subarray_sum_update_val
  update := max_subarray_sum_update
  get_transition_dat := fun val _ => val
  get_transition_trn_dat := fun lval rval _ => max_subarray_sum_update lval rval
  get_transition_dat_trn := fun lval rval _ => max_subarray_sum_update lval rval
  get_transition_trn_trn := fun lval rval _ => max_subarray_sum_update lval rval
  get := max_subarray_sum_get

/-- The `while (i < n && j < m)` loop of `in_range_count::update(lval, rval)`,
returning `(i, j, result)` at its exit.  The first argument bounds the number
of iterations; `n + m` is never exhausted. -/
def in_range_count_update_loop (lval rval : List Int) :
    Nat → Nat → Nat → List Int → Nat × Nat × List Int
  | 0, i, j, result => (i, j, result)
  | fuel + 1, i, j, result =>
    if i < lval.length ∧ j < rval.length then
      if lval.getD i 0 < rval.getD j 0 then
        in_range_count_update_loop lval rval fuel (i + 1) j (result ++ [lval.getD i 0])
      else
        in_range_count_update_loop lval rval fuel i (j + 1) (result ++ [rval.getD j 0])
    else (i, j, result)

/-- The call `in_range_count::update(lval, rval)`: the merging loop, then the two
`for` loops that push what is left of `lval` and of `rval`. -/
def in_range_count_update (lval rval : List Int) : List Int :=
  let s := in_range_count_update_loop lval rval (lval.length + rval.length) 0 0 []
  s.2.2 ++ lval.drop s.1 ++ rval.drop s.2.1

/-- Index returned by `std::lower_bound(v.begin(), v.end(), x)`: the first element
for which `element < x` is false. -/
def lower_bound (v : List Int) (x : Int) : Nat :=
  (v.takeWhile (fun e => decide (e < x))).length

/-- Index returned by `std::upper_bound(v.begin(), v.end(), x)`: the first element
for which `x < element` is true. -/
def upper_bound (v : List Int) (x : Int) : Nat :=
  (v.takeWhile (fun e => !decide (x < e))).length

/-- The call `in_range_count::get_transition(val, l, r)` on a datum:
`l <= val[0] && val[0] <= r`, converted to `Tp`. -/
def in_range_count_get_transition_dat (val : List Int) (l r : Int) : Int :=
  if l ≤ val.getD 0 0 ∧ val.getD 0 0 ≤ r then 1 else 0

/-- The call `in_range_count::get_transition(lval, rval, l, r)` with a count on the
left and a datum on the right. -/
def in_range_count_get_transition_trn_dat (lval : Int) (rval : List Int) (l r : Int) : Int :=
  if l > r then lval
  else lval + (upper_bound rval r : Int) - (lower_bound rval l : Int)

/-- Policy `in_range_count<Tp>`; the extra query arguments are the bounds `(l, r)`.
With two counts the variadic overload `get_transition(lval, rval, ...)` is the
only viable one and adds them. -/
def in_range_count : Variant (List Int) Int Int (Int × Int) where
  update_val := fun val => [val]
  update := in_range_count_update
  get_transition_dat := fun val lr => in_range_count_get_transition_dat val lr.1 lr.2
  get_transition_trn_dat := fun lval rval lr =>
    in_range_count_get_transition_trn_dat lval rval lr.1 lr.2
  get_transition_dat_trn := fun lval rval lr =>
    in_range_count_get_transition_trn_dat rval lval lr.1 lr.2
  get_transition_trn_trn := fun lval rval _ => lval + rval
  get := fun val => val

/-! ## The engine (`class segment_tree`) -/

/-- The members `size`, `height` and `data` of `segment_tree<Var>`. -/
structure segment_tree (DatTp : Type) where
  size : Int
  height : Int
  data : List (List DatTp)
  deriving DecidableEq

section engine

variable {DatTp TrnTp RetTp Args : Type}

/-- The loop `for (it = begin; it != end; it++) data.back()[i++] = Var::update(*it)`. -/
def fill_leaves (Var : Variant DatTp TrnTp RetTp Args) :
    List RetTp → Int → List (List DatTp) → Option (List (List DatTp))
  | [], _, data => some data
  | x :: rest, i, data => do
    let row ← back data
    let row ← vec_put row i (Var.update_val x)
    let data ← back_put data row
    fill_leaves Var rest (i + 1) data

/-- The loop `for (int j = mask / 2 - 1; j >= 0; j--)` of the constructor at level `i`;
the first argument is `j + 1`. -/
def build_row (Var : Variant DatTp TrnTp RetTp Args) (i : Int) :
    Nat → List (List DatTp) → Option (List (List DatTp))
  | 0, data => some data
  | j + 1, data => do
    let l ← mat_at data (i + 1) ((j : Int) * 2)
    let r ← mat_at data (i + 1) ((j : Int) * 2 + 1)
    let data ← mat_put data i j (Var.update l r)
    build_row Var i j data

/-- The loop `for (int i = height - 2; i >= 0; i--)` of the constructor; the first
argument is `i + 1`, the second is the `int` variable `mask`.  Both `mask + 1` in
`resize((mask + 1) / 2)` and `++mask` are `int` additions. -/
def build_levels (Var : Variant DatTp TrnTp RetTp Args) [Inhabited DatTp] :
    Nat → Nat → List (List DatTp) → Option (List (List DatTp))
  | 0, _, data => some data
  | i + 1, mask, data => do
    let m ← int_succ mask
    let row ← vec_at data i
    let row := row.take (m / 2) ++ List.replicate (m / 2 - row.length) default
    let data ← vec_put data i row
    let data ← build_row Var i (mask / 2) data
    let data ←
      if mask % 2 = 1 then do
        let below ← vec_at data ((i : Int) + 1)
        let b ← back below
        let row ← vec_at data i
        let row ← back_put row b
        vec_put data i row
      else some data
    let mask ← int_succ mask
    build_levels Var i (mask / 2) data

/-- The constructor `segment_tree(begin, end)` on the sequence `[begin, end)`.  The member
`size` is `end - begin` converted to `int`, which keeps the value for a sequence of fewer
than `2^31` elements; the theorems are about such sequences. -/
def construct (Var : Variant DatTp TrnTp RetTp Args) [Inhabited DatTp]
    (a : List RetTp) : Option (segment_tree DatTp) := do
  let size : Int := a.length
  let height : Int :=
    if size > 1 then 33 - (builtin_clz (size_t_of (size - 1)) : Int) else 1
  let data : List (List DatTp) := List.replicate height.toNat []
  let data ← back_put data (List.replicate size.toNat default)
  let data ← fill_leaves Var a 0 data
  let data ← build_levels Var (height - 1).toNat size.toNat data
  some ⟨size, height, data⟩

/-- The `for` loop of `segment_tree::get_transition`, returning `(lval, rval)` at its
exit.  The first argument bounds the number of iterations: the loop is entered
with `0 <= ri` (the leaf reads succeeded) and `ri` is halved each time, so
`ri + 1` is never exhausted. -/
def get_transition_loop (Var : Variant DatTp TrnTp RetTp Args)
    (data : List (List DatTp)) (args : Args) :
    Nat → Int → Int → Int → TrnTp → TrnTp → Option (TrnTp × TrnTp)
  | 0, _, _, _, _, _ => none
  | fuel + 1, h, li, ri, lval, rval =>
    if Int.tdiv li 2 < Int.tdiv ri 2 then do
      let lval ←
        if li % 2 = 0 then do
          let d ← mat_at data h (li + 1)
          some (Var.get_transition_trn_dat lval d args)
        else some lval
      let rval ←
        if ri % 2 = 1 then do
          let d ← mat_at data h (ri - 1)
          some (Var.get_transition_dat_trn d rval args)
        else some rval
      get_transition_loop Var data args fuel (h - 1) (Int.tdiv li 2) (Int.tdiv ri 2) lval rval
    else some (lval, rval)

/-- The `for` loop of `segment_tree::get_transition` once more, with a record of its
runs: next to `(lval, rval)` it returns the values of the level index `h` with which the
loop body ran, in order.  Its first component is `get_transition_loop`
(`get_transition_loop_traced_fst`). -/
def get_transition_loop_traced (Var : Variant DatTp TrnTp RetTp Args)
    (data : List (List DatTp)) (args : Args) :
    Nat → Int → Int → Int → TrnTp → TrnTp → Option ((TrnTp × TrnTp) × List Int)
  | 0, _, _, _, _, _ => none
  | fuel + 1, h, li, ri, lval, rval =>
    if Int.tdiv li 2 < Int.tdiv ri 2 then do
      let lval ←
        if li % 2 = 0 then do
          let d ← mat_at data h (li + 1)
          some (Var.get_transition_trn_dat lval d args)
        else some lval
      let rval ←
        if ri % 2 = 1 then do
          let d ← mat_at data h (ri - 1)
          some (Var.get_transition_dat_trn d rval args)
        else some rval
      let res ← get_transition_loop_traced Var data args fuel (h - 1) (Int.tdiv li 2)
        (Int.tdiv ri 2) lval rval
      some (res.1, h :: res.2)
    else some ((lval, rval), [])

/-- The private member `segment_tree::get_transition(li, ri, args...)`. -/
def get_transition (Var : Variant DatTp TrnTp RetTp Args) (t : segment_tree DatTp)
    (li ri : Int) (args : Args) : Option TrnTp := do
  let leaves ← back t.data
  if li = ri then do
    let d ← vec_at leaves li
    some (Var.get_transition_dat d args)
  else do
    let dl ← vec_at leaves li
    let dr ← vec_at leaves ri
    let lr ← get_transition_loop Var t.data args (ri.toNat + 1) (t.height - 1) li ri
      (Var.get_transition_dat dl args) (Var.get_transition_dat dr args)
    some (Var.get_transition_trn_trn lr.1 lr.2 args)

/-- The `for (h = height - 1; h > 0; h--, i /= 2)` loop of `segment_tree::update`; the
first argument is `h`. -/
def update_loop (Var : Variant DatTp TrnTp RetTp Args) :
    Nat → Int → DatTp → List (List DatTp) → Option (List (List DatTp))
  | 0, _, _, data => some data
  | h + 1, i, cval, data =>
    if i % 2 = 0 then do
      let row ← vec_at data ((h : Int) + 1)
      let v ←
        if size_t_of i < size_t_pred row.length then do
          let d ← vec_at row (i + 1)
          some (Var.update cval d)
        else some cval
      let data ← mat_put data h (Int.tdiv i 2) v
      let cval ← mat_at data h (Int.tdiv i 2)
      update_loop Var h (Int.tdiv i 2) cval data
    else do
      let d ← mat_at data ((h : Int) + 1) (i - 1)
      let data ← mat_put data h (Int.tdiv i 2) (Var.update d cval)
      let cval ← mat_at data h (Int.tdiv i 2)
      update_loop Var h (Int.tdiv i 2) cval data

/-- The member `segment_tree::update(i, val)`. -/
def update (Var : Variant DatTp TrnTp RetTp Args) (t : segment_tree DatTp)
    (i : Int) (val : RetTp) : Option (segment_tree DatTp) := do
  let cval := Var.update_val val
  let leaves ← back t.data
  let leaves ← vec_put leaves i cval
  let data ← back_put t.data leaves
  let data ← update_loop Var (t.height - 1).toNat i cval data
  some { t with data := data }

/-- The member `segment_tree::get(li, ri, args...)`. -/
def get (Var : Variant DatTp TrnTp RetTp Args) (t : segment_tree DatTp)
    (li ri : Int) (args : Args) : Option RetTp :=
  (get_transition Var t li ri args).map Var.get

end engine

/-! ## Reference model of the level arrays

The definitions below are not taken from the source: they describe the level
arrays in closed form, and the theorems relate the engine to them. -/

/-- One level up: neighbours `2j`, `2j + 1` combined by `f`, a lone last entry kept. -/
def pair_up {α : Type} (f : α → α → α) : List α → List α
  | a :: b :: rest => f a b :: pair_up f rest
  | [a] => [a]
  | [] => []

/-- The `k + 1` level arrays above and including `row`, root-most first. -/
def levels {α : Type} (f : α → α → α) : Nat → List α → List (List α)
  | 0, row => [row]
  | k + 1, row => levels f k (pair_up f row) ++ [row]

/-- The height of a tree over `n` elements: one more than the bit length of `n - 1`. -/
def height_of (n : Nat) : Nat := if 1 < n then (n - 1).size + 1 else 1

/-- The tree over the sequence `a` in closed form. -/
def tree_of {DatTp TrnTp RetTp Args : Type} (Var : Variant DatTp TrnTp RetTp Args)
    (a : List RetTp) : segment_tree DatTp :=
  ⟨a.length, height_of a.length,
    levels Var.update (height_of a.length - 1) (a.map Var.update_val)⟩

/-- The elements of `a` at the indices `s, ..., e - 1`. -/
def slice {α : Type} (a : List α) (s e : Nat) : List α := (a.drop s).take (e - s)

/-- The trees the engine can produce: built by the constructor from a sequence whose
length fits the `int` member `size`, then changed by calls of `update` that return. -/
inductive Reachable {DatTp TrnTp RetTp Args : Type} (Var : Variant DatTp TrnTp RetTp Args)
    [Inhabited DatTp] : segment_tree DatTp → Prop
  | built (a : List RetTp) (t : segment_tree DatTp) :
      a.length < 2 ^ 31 → construct Var a = some t → Reachable Var t
  | updated (t t2 : segment_tree DatTp) (i : Int) (v : RetTp) :
      Reachable Var t → update Var t i v = some t2 → Reachable Var t2

/-- `Spans R a w X`: the row `X` covers `a` in blocks of width `w`, entry `i`
standing (in the sense of `R`) for the elements `a[i * w], ..., a[(i + 1) * w - 1]`. -/
def Spans {α β : Type} (R : α → List β → Prop) (a : List β) (w : Nat) (X : List α) : Prop :=
  a.length ≤ X.length * w ∧
    ∀ i (hi : i < X.length), i * w < a.length ∧ R X[i] (slice a (i * w) ((i + 1) * w))

/-- What the engine needs of a policy to answer queries: `R d xs` says that the
datum `d` stands for the elements `xs`, and `sem xs` is the transitional value
of a non-empty run `xs` of elements.  `Ok xs` is what the policy asks of the queried
run `xs` (nothing, or that its sums are representable); it passes to the parts of a run. -/
structure Sound {DatTp TrnTp RetTp Args : Type} (Var : Variant DatTp TrnTp RetTp Args)
    (args : Args) (Ok : List RetTp → Prop) (R : DatTp → List RetTp → Prop)
    (sem : List RetTp → TrnTp) : Prop where
  ok_part : ∀ p m q, Ok (p ++ m ++ q) → Ok m
  leaf : ∀ v, R (Var.update_val v) [v]
  node : ∀ d1 d2 xs ys, R d1 xs → R d2 ys → R (Var.update d1 d2) (xs ++ ys)
  dat : ∀ v, Ok [v] → Var.get_transition_dat (Var.update_val v) args = sem [v]
  trn_dat : ∀ xs d ys, xs ≠ [] → R d ys → Ok (xs ++ ys) →
    Var.get_transition_trn_dat (sem xs) d args = sem (xs ++ ys)
  dat_trn : ∀ d ys xs, xs ≠ [] → R d ys → Ok (ys ++ xs) →
    Var.get_transition_dat_trn d (sem xs) args = sem (ys ++ xs)
  trn_trn : ∀ xs ys, xs ≠ [] → ys ≠ [] → Ok (xs ++ ys) →
    Var.get_transition_trn_trn (sem xs) (sem ys) args = sem (xs ++ ys)

/-- The policy contract of the spec, for the query arguments `args`: combine
(`Var::update(lval, rval)`) is associative, extract (`get_transition` of a datum) turns
combine into merge (`get_transition` of two transitional values), and the two mixed call
shapes of the engine merge the extract of their datum. -/
structure Contract {DatTp TrnTp RetTp Args : Type} (Var : Variant DatTp TrnTp RetTp Args)
    (args : Args) : Prop where
  update_assoc : ∀ x y z, Var.update (Var.update x y) z = Var.update x (Var.update y z)
  dat_update : ∀ x y, Var.get_transition_dat (Var.update x y) args =
    Var.get_transition_trn_trn (Var.get_transition_dat x args) (Var.get_transition_dat y args)
      args
  trn_dat : ∀ t d, Var.get_transition_trn_dat t d args =
    Var.get_transition_trn_trn t (Var.get_transition_dat d args) args
  dat_trn : ∀ d t, Var.get_transition_dat_trn d t args =
    Var.get_transition_trn_trn (Var.get_transition_dat d args) t args

/-- The brute-force fold of the spec: `extract(leaf(x))` merged left to right, in index
order, with `extract(leaf(v))` for every `v` of `xs`. -/
def fold_merge {DatTp TrnTp RetTp Args : Type} (Var : Variant DatTp TrnTp RetTp Args)
    (args : Args) (x : RetTp) (xs : List RetTp) : TrnTp :=
  xs.foldl (fun acc v =>
      Var.get_transition_trn_trn acc (Var.get_transition_dat (Var.update_val v) args) args)
    (Var.get_transition_dat (Var.update_val x) args)

/-- The datum of the run `x :: xs`: the leaves combined left to right. -/
def fold_update {DatTp TrnTp RetTp Args : Type} (Var : Variant DatTp TrnTp RetTp Args)
    (x : RetTp) (xs : List RetTp) : DatTp :=
  xs.foldl (fun acc v => Var.update acc (Var.update_val v)) (Var.update_val x)

/-- The datum of a non-empty run of elements over the integers: its leaves combined left to
right. -/
def max_subarray_sum_run : List Int → List Int
  | [] => []
  | x :: r => fold_update max_subarray_sum x r

/-- `Summary xs d`: the datum `d` is the vector `[best, suffix-max, prefix-max, total]` of
the run `xs`: the largest sum of a non-empty contiguous subarray, the largest sum of a
non-empty suffix, the largest sum of a non-empty initial segment, and the sum of all of
`xs`. -/
def Summary (xs d : List Int) : Prop :=
  ∃ b s p : Int, d = [b, s, p, xs.sum] ∧
    IsGreatest {x | ∃ m, m ≠ [] ∧ m <:+: xs ∧ x = m.sum} b ∧
    IsGreatest {x | ∃ m, m ≠ [] ∧ m <:+ xs ∧ x = m.sum} s ∧
    IsGreatest {x | ∃ m, m ≠ [] ∧ m <+: xs ∧ x = m.sum} p

/-- The reading of the spec's data-model table: the datum `d` is the vector
`[best, prefix-max, suffix-max, total]` of the run `xs`, with the maximum over the
initial segments in second position and the maximum over the suffixes in third. -/
def Summary_as_claimed (xs d : List Int) : Prop :=
  ∃ b p s : Int, d = [b, p, s, xs.sum] ∧
    IsGreatest {x | ∃ m, m ≠ [] ∧ m <:+: xs ∧ x = m.sum} b ∧
    IsGreatest {x | ∃ m, m ≠ [] ∧ m <+: xs ∧ x = m.sum} p ∧
    IsGreatest {x | ∃ m, m ≠ [] ∧ m <:+ xs ∧ x = m.sum} s

/-- No sum of a non-empty contiguous part of `xs` leaves the signed integer type of `w`
bits. -/
def no_overflow (w : Nat) (xs : List Int) : Prop :=
  ∀ m : List Int, m ≠ [] → m <:+: xs → fits w m.sum

/-- The data of the max-subarray-sum policy, at a signed integer type `Tp` of `w` bits, that
leaf construction and combine produce without a signed overflow (which C++ leaves
undefined): the four sums that a combine adds up are values of `Tp`. -/
inductive max_subarray_sum_tp_datum (w : Nat) : List Int → Prop
  | leaf (val : Int) : max_subarray_sum_tp_datum w (max_subarray_sum_update_val val)
  | node (lval rval : List Int) : max_subarray_sum_tp_datum w lval →
      max_subarray_sum_tp_datum w rval →
      fits w (lval.getD 1 0 + rval.getD 2 0) → fits w (lval.getD 1 0 + rval.getD 3 0) →
      fits w (lval.getD 3 0 + rval.getD 2 0) → fits w (lval.getD 3 0 + rval.getD 3 0) →
      max_subarray_sum_tp_datum w (max_subarray_sum_tp_update w lval rval)

/-! ## Vector access lemmas -/

theorem vec_at_natCast {α : Type} (v : List α) (n : Nat) : vec_at v (n : Int) = v[n]? := by
  simp [vec_at]

theorem vec_put_natCast {α : Type} (v : List α) (n : Nat) (x : α) :
    vec_put v (n : Int) x = vec_set v n x := by
  simp [vec_put]

theorem vec_at_neg {α : Type} (v : List α) (i : Int) (h : i < 0) : vec_at v i = none := by
  simp [vec_at, h]

theorem vec_at_ge {α : Type} (v : List α) (i : Int) (h : (v.length : Int) ≤ i) :
    vec_at v i = none := by
  unfold vec_at
  split
  · rfl
  · apply List.getElem?_eq_none
    omega

theorem vec_put_neg {α : Type} (v : List α) (i : Int) (x : α) (h : i < 0) :
    vec_put v i x = none := by
  simp [vec_put, h]

theorem vec_put_ge {α : Type} (v : List α) (i : Int) (x : α) (h : (v.length : Int) ≤ i) :
    vec_put v i x = none := by
  unfold vec_put vec_set
  split
  · rfl
  · rw [if_neg]
    omega

theorem vec_set_lt {α : Type} (v : List α) (i : Nat) (x : α) (h : i < v.length) :
    vec_set v i x = some (v.set i x) := by
  simp [vec_set, h]

theorem back_append_singleton {α : Type} (init : List α) (x : α) :
    back (init ++ [x]) = some x := by
  have h : ((init ++ [x]).length : Int) - 1 = (init.length : Nat) := by
    simp
  rw [back, h, vec_at_natCast]
  simp

theorem back_put_append_singleton {α : Type} (init : List α) (x y : α) :
    back_put (init ++ [x]) y = some (init ++ [y]) := by
  have h : ((init ++ [x]).length : Int) - 1 = (init.length : Nat) := by
    simp
  rw [back_put, h, vec_put_natCast, vec_set_lt _ _ _ (by simp)]
  simp

theorem back_eq_getElem? {α : Type} (v : List α) (h : 0 < v.length) :
    back v = v[v.length - 1]? := by
  have e : ((v.length : Int) - 1) = ((v.length - 1 : Nat) : Int) := by omega
  rw [back, e, vec_at_natCast]

theorem mat_at_natCast {α : Type} (data : List (List α)) (h i : Nat) :
    mat_at data (h : Int) (i : Int) = (data[h]?).bind (fun row => row[i]?) := by
  simp [mat_at, vec_at_natCast, bind, Option.bind]

/-! ## The reference model -/

theorem length_pair_up {α : Type} (f : α → α → α) (X : List α) :
    (pair_up f X).length = (X.length + 1) / 2 := by
  induction X using pair_up.induct f with
  | case1 a b rest ih => simp [pair_up, ih]; omega
  | case2 a => simp [pair_up]
  | case3 => simp [pair_up]

theorem getElem?_pair_up {α : Type} (f : α → α → α) (X : List α) (j : Nat) :
    (pair_up f X)[j]? =
      match X[2 * j]?, X[2 * j + 1]? with
      | some a, some b => some (f a b)
      | some a, none => some a
      | none, _ => none := by
  induction X using pair_up.induct f generalizing j with
  | case1 a b rest ih =>
    cases j with
    | zero => simp [pair_up]
    | succ j =>
      have e1 : 2 * (j + 1) = (2 * j) + 1 + 1 := by ring
      have e2 : 2 * (j + 1) + 1 = (2 * j + 1) + 1 + 1 := by ring
      rw [pair_up, List.getElem?_cons_succ, ih j, e2, e1]
      simp only [List.getElem?_cons_succ]
  | case2 a =>
    cases j with
    | zero => simp [pair_up]
    | succ j =>
      have e1 : 2 * (j + 1) = (2 * j) + 1 + 1 := by ring
      simp [pair_up, e1]
  | case3 => simp [pair_up]

theorem length_levels {α : Type} (f : α → α → α) (k : Nat) (X : List α) :
    (levels f k X).length = k + 1 := by
  induction k generalizing X with
  | zero => simp [levels]
  | succ k ih => simp [levels, ih]

theorem getElem?_levels_append {α : Type} (f : α → α → α) (k : Nat) (X : List α)
    (rest : List (List α)) : (levels f k X ++ rest)[k]? = some X := by
  rw [List.getElem?_append_left (by rw [length_levels]; omega)]
  cases k with
  | zero => simp [levels]
  | succ k =>
    rw [levels, List.getElem?_append_right (by rw [length_levels])]
    simp [length_levels]

theorem getElem?_levels_append_right {α : Type} (f : α → α → α) (k : Nat) (X : List α)
    (rest : List (List α)) (m : Nat) : (levels f k X ++ rest)[k + 1 + m]? = rest[m]? := by
  rw [List.getElem?_append_right (by rw [length_levels]; omega)]
  simp [length_levels]

theorem levels_succ_append {α : Type} (f : α → α → α) (k : Nat) (X : List α)
    (rest : List (List α)) :
    levels f (k + 1) X ++ rest = levels f k (pair_up f X) ++ X :: rest := by
  simp [levels]

theorem vec_at_mid {α : Type} (pre rest : List α) (x : α) (i : Int)
    (h : i = (pre.length : Int)) : vec_at (pre ++ x :: rest) i = some x := by
  subst h
  rw [vec_at_natCast, List.getElem?_append_right (le_refl _)]
  simp

theorem vec_put_mid {α : Type} (pre rest : List α) (x y : α) (i : Int)
    (h : i = (pre.length : Int)) : vec_put (pre ++ x :: rest) i y = some (pre ++ y :: rest) := by
  subst h
  rw [vec_put_natCast, vec_set_lt _ _ _ (by simp)]
  simp

theorem mat_at_mid {α : Type} (pre rest : List (List α)) (row : List α) (h i : Int)
    (hh : h = (pre.length : Int)) : mat_at (pre ++ row :: rest) h i = vec_at row i := by
  simp [mat_at, vec_at_mid pre rest row h hh]

theorem mat_put_mid {α : Type} (pre rest : List (List α)) (row : List α) (h i : Int) (x : α)
    (hh : h = (pre.length : Int)) :
    mat_put (pre ++ row :: rest) h i x =
      (vec_put row i x).bind (fun r => some (pre ++ r :: rest)) := by
  simp only [mat_put, vec_at_mid pre rest row h hh, Option.bind_eq_bind, Option.some_bind]
  cases hput : vec_put row i x with
  | none => simp
  | some r => simp [vec_put_mid pre rest row r h hh]

theorem drop_set_self {α : Type} (cur : List α) (j : Nat) (v : α) (h : j < cur.length) :
    (cur.set j v).drop j = v :: cur.drop (j + 1) := by
  rw [List.drop_eq_getElem_cons (by simpa using h)]
  simp [List.drop_set_of_lt]

theorem levels_eq_dropLast_append {α : Type} (f : α → α → α) (k : Nat) (X : List α) :
    levels f k X = (levels f k X).dropLast ++ [X] := by
  cases k with
  | zero => simp [levels]
  | succ k => simp [levels]

theorem dropLast_levels_succ {α : Type} (f : α → α → α) (k : Nat) (X : List α) :
    (levels f (k + 1) X).dropLast = levels f k (pair_up f X) := by
  simp [levels]

theorem length_dropLast_levels {α : Type} (f : α → α → α) (k : Nat) (X : List α) :
    (levels f k X).dropLast.length = k := by
  simp [length_levels]

theorem pair_up_set {α : Type} (f : α → α → α) (X : List α) (i : Nat) (c v : α)
    (hv : (pair_up f (X.set i c))[i / 2]? = some v) :
    pair_up f (X.set i c) = (pair_up f X).set (i / 2) v := by
  apply List.ext_getElem?
  intro j
  by_cases hj : j = i / 2
  · subst hj
    rw [hv, List.getElem?_set_self]
    have h1 := (List.getElem?_eq_some.mp hv).1
    rw [length_pair_up] at h1 ⊢
    simpa using h1
  · rw [List.getElem?_set_ne (fun h => hj h.symm), getElem?_pair_up, getElem?_pair_up,
      List.getElem?_set_ne (by omega), List.getElem?_set_ne (by omega)]

theorem size_t_of_natCast (i : Nat) (h : i < 2 ^ 64) : size_t_of (i : Int) = i := by
  unfold size_t_of
  omega

theorem size_t_pred_eq (n : Nat) (h0 : 0 < n) (h : n < 2 ^ 64) : size_t_pred n = n - 1 := by
  unfold size_t_pred
  omega

/-! ## Slices -/

theorem slice_append {α : Type} (a : List α) (s m e : Nat) (h1 : s ≤ m) (h2 : m ≤ e) :
    slice a s m ++ slice a m e = slice a s e := by
  unfold slice
  have e1 : e - s = (m - s) + (e - m) := by omega
  rw [e1, List.take_add, List.drop_drop]
  have e2 : s + (m - s) = m := by omega
  rw [e2]

theorem slice_clip {α : Type} (a : List α) (s e e2 : Nat) (h1 : a.length ≤ e)
    (h2 : a.length ≤ e2) : slice a s e = slice a s e2 := by
  unfold slice
  rw [List.take_of_length_le (by simp; omega), List.take_of_length_le (by simp; omega)]

theorem length_slice {α : Type} (a : List α) (s e : Nat) :
    (slice a s e).length = min (e - s) (a.length - s) := by
  simp [slice]

theorem slice_ne_nil {α : Type} (a : List α) (s e : Nat) (h1 : s < e) (h2 : s < a.length) :
    slice a s e ≠ [] := by
  intro h
  have := length_slice a s e
  rw [h] at this
  simp at this
  omega

theorem slice_singleton {α : Type} (a : List α) (i : Nat) (h : i < a.length) :
    slice a i (i + 1) = [a[i]] := by
  unfold slice
  have e : i + 1 - i = 1 := by omega
  rw [List.drop_eq_getElem_cons h, e]
  rfl

theorem spans_leaves {α β : Type} (R : α → List β → Prop) (leaf : β → α) (a : List β)
    (hleaf : ∀ v, R (leaf v) [v]) : Spans R a 1 (a.map leaf) := by
  refine ⟨by simp, ?_⟩
  intro i hi
  have hi2 : i < a.length := by simpa using hi
  refine ⟨by omega, ?_⟩
  have := slice_singleton a i hi2
  simp only [Nat.mul_one, List.getElem_map, this]
  exact hleaf _

theorem spans_pair_up {α β : Type} (R : α → List β → Prop) (f : α → α → α) (a : List β)
    (w : Nat) (X : List α)
    (hnode : ∀ d1 d2 xs ys, R d1 xs → R d2 ys → R (f d1 d2) (xs ++ ys))
    (h : Spans R a w X) : Spans R a (2 * w) (pair_up f X) := by
  have hlen := length_pair_up f X
  obtain ⟨h1, h2⟩ := h
  constructor
  · rw [hlen]
    calc a.length ≤ X.length * w := h1
      _ ≤ (2 * ((X.length + 1) / 2)) * w := Nat.mul_le_mul_right _ (by omega)
      _ = (X.length + 1) / 2 * (2 * w) := by ring
  · intro j hj
    have hj2 : 2 * j < X.length := by omega
    obtain ⟨h3, h4⟩ := h2 (2 * j) hj2
    have e0 : j * (2 * w) = 2 * j * w := by ring
    refine ⟨by rw [e0]; exact h3, ?_⟩
    have hget := getElem?_pair_up f X j
    rw [List.getElem?_eq_getElem hj, List.getElem?_eq_getElem hj2] at hget
    by_cases hj3 : 2 * j + 1 < X.length
    · obtain ⟨_, h6⟩ := h2 (2 * j + 1) hj3
      rw [List.getElem?_eq_getElem hj3] at hget
      simp only [Option.some.injEq] at hget
      rw [hget, e0]
      have e1 : (j + 1) * (2 * w) = (2 * j + 1 + 1) * w := by ring
      rw [e1, ← slice_append a (2 * j * w) ((2 * j + 1) * w) ((2 * j + 1 + 1) * w)
        (Nat.mul_le_mul_right _ (by omega)) (Nat.mul_le_mul_right _ (by omega))]
      exact hnode _ _ _ _ h4 h6
    · rw [List.getElem?_eq_none (by omega)] at hget
      simp only [Option.some.injEq] at hget
      have e2 : X.length = 2 * j + 1 := by omega
      rw [hget, e0, slice_clip a (2 * j * w) ((j + 1) * (2 * w)) ((2 * j + 1) * w)
        (by rw [e2] at h1
            calc a.length ≤ (2 * j + 1) * w := h1
              _ ≤ (j + 1) * (2 * w) := by nlinarith)
        (by rw [e2] at h1; exact h1)]
      exact h4

theorem spans_levels {α β : Type} (R : α → List β → Prop) (f : α → α → α) (a : List β)
    (hnode : ∀ d1 d2 xs ys, R d1 xs → R d2 ys → R (f d1 d2) (xs ++ ys))
    (K : Nat) (L : List α) (w : Nat) (hsp : Spans R a w L) (h : Nat) (X : List α)
    (hX : (levels f K L)[h]? = some X) : Spans R a (w * 2 ^ (K - h)) X := by
  induction K generalizing L w with
  | zero =>
    have hh : h = 0 := by
      have := (List.getElem?_eq_some.mp hX).1
      simp [levels] at this
      exact this
    subst hh
    simp [levels] at hX
    subst hX
    simpa using hsp
  | succ K ih =>
    by_cases hK : h < K + 1
    · rw [levels, List.getElem?_append_left (by rw [length_levels]; omega)] at hX
      have key := ih (pair_up f L) (2 * w) (spans_pair_up R f a w L hnode hsp) hX
      have e : w * 2 ^ (K + 1 - h) = 2 * w * 2 ^ (K - h) := by
        have e1 : K + 1 - h = (K - h) + 1 := by omega
        rw [e1, pow_succ]
        ring
      rw [e]
      exact key
    · have hh : h = K + 1 := by
        have := (List.getElem?_eq_some.mp hX).1
        rw [length_levels] at this
        omega
      subst hh
      have := getElem?_levels_append_right f K (pair_up f L) [L] 0
      rw [levels] at hX
      simp only [Nat.add_zero] at this
      rw [this] at hX
      simp at hX
      subst hX
      simpa using hsp

theorem levels_set_getElem? {α : Type} (f : α → α → α) (K : Nat) (L : List α) (i : Nat)
    (c : α) (hi : i < L.length) (h : Nat) (row : List α)
    (hrow : (levels f K L)[h]? = some row) :
    ∃ row2, (levels f K (L.set i c))[h]? = some row2 ∧ row2.length = row.length ∧
      ∀ j, j ≠ i / 2 ^ (K - h) → row2[j]? = row[j]? := by
  induction K generalizing L i c with
  | zero =>
    have hh : h = 0 := by
      have := (List.getElem?_eq_some.mp hrow).1
      simp [levels] at this
      exact this
    subst hh
    simp [levels] at hrow
    subst hrow
    refine ⟨L.set i c, by simp [levels], by simp, ?_⟩
    intro j hj
    simp only [Nat.sub_zero, pow_zero, Nat.div_one] at hj
    exact List.getElem?_set_ne (fun e => hj e.symm)
  | succ K ih =>
    by_cases hK : h < K + 1
    · rw [levels, List.getElem?_append_left (by rw [length_levels]; omega)] at hrow
      have hlen : i / 2 < (pair_up f (L.set i c)).length := by
        rw [length_pair_up, List.length_set]
        omega
      have hset := pair_up_set f L i c _ (List.getElem?_eq_getElem hlen)
      obtain ⟨row2, h1, h2, h3⟩ := ih (pair_up f L) (i / 2) ((pair_up f (L.set i c))[i / 2])
        (by rw [length_pair_up]; omega) hrow
      refine ⟨row2, ?_, h2, ?_⟩
      · rw [levels, List.getElem?_append_left (by rw [length_levels]; omega), hset]
        exact h1
      · intro j hj
        apply h3
        have e1 : K + 1 - h = (K - h) + 1 := by omega
        rw [e1, pow_succ, Nat.mul_comm, ← Nat.div_div_eq_div_mul] at hj
        exact hj
    · have hh : h = K + 1 := by
        have := (List.getElem?_eq_some.mp hrow).1
        rw [length_levels] at this
        omega
      subst hh
      have e1 := getElem?_levels_append_right f K (pair_up f L) [L] 0
      have e2 := getElem?_levels_append_right f K (pair_up f (L.set i c)) [L.set i c] 0
      simp only [Nat.add_zero] at e1 e2
      rw [levels, e1] at hrow
      simp at hrow
      subst hrow
      refine ⟨L.set i c, by rw [levels, e2]; simp, by simp, ?_⟩
      intro j hj
      simp only [Nat.sub_self, pow_zero, Nat.div_one] at hj
      exact List.getElem?_set_ne (fun e => hj e.symm)

theorem getElem?_levels_succ {α : Type} (f : α → α → α) (K : Nat) (L : List α) (h : Nat)
    (hh : h < K) :
    ∃ Y, (levels f K L)[h + 1]? = some Y ∧ (levels f K L)[h]? = some (pair_up f Y) := by
  induction K generalizing L with
  | zero => omega
  | succ K ih =>
    by_cases hK : h = K
    · subst hK
      refine ⟨L, ?_, ?_⟩
      · have := getElem?_levels_append_right f h (pair_up f L) [L] 0
        simpa [levels] using this
      · simpa [levels] using getElem?_levels_append f h (pair_up f L) [L]
    · obtain ⟨Y, h1, h2⟩ := ih (pair_up f L) (by omega)
      refine ⟨Y, ?_, ?_⟩
      · rw [levels, List.getElem?_append_left (by rw [length_levels]; omega)]
        exact h1
      · rw [levels, List.getElem?_append_left (by rw [length_levels]; omega)]
        exact h2

theorem half_ceil (n d : Nat) :
    ((n + 1) / 2 + d - 1) / d = (n + 2 * d - 1) / (2 * d) := by
  rw [← Nat.div_div_eq_div_mul]
  congr 1
  omega

theorem length_getElem?_levels {α : Type} (f : α → α → α) (K : Nat) (L : List α) (h : Nat)
    (row : List α) (hrow : (levels f K L)[h]? = some row) :
    row.length = (L.length + 2 ^ (K - h) - 1) / 2 ^ (K - h) := by
  induction K generalizing L with
  | zero =>
    have hh : h = 0 := by
      have := (List.getElem?_eq_some.mp hrow).1
      simp [levels] at this
      exact this
    subst hh
    simp [levels] at hrow
    subst hrow
    simp
  | succ K ih =>
    by_cases hK : h < K + 1
    · rw [levels, List.getElem?_append_left (by rw [length_levels]; omega)] at hrow
      have e : K + 1 - h = (K - h) + 1 := by omega
      rw [ih (pair_up f L) hrow, length_pair_up, e, pow_succ, Nat.mul_comm (2 ^ (K - h)) 2]
      exact half_ceil _ _
    · have hh : h = K + 1 := by
        have := (List.getElem?_eq_some.mp hrow).1
        rw [length_levels] at this
        omega
      subst hh
      have := getElem?_levels_append_right f K (pair_up f L) [L] 0
      rw [levels] at hrow
      simp only [Nat.add_zero] at this
      rw [this] at hrow
      simp at hrow
      subst hrow
      simp

theorem ceil_div_eq (n d : Nat) (hd : 0 < d) : ⌈(n : ℚ) / (d : ℚ)⌉₊ = (n + d - 1) / d := by
  have hdq : (0 : ℚ) < d := by exact_mod_cast hd
  apply le_antisymm
  · rw [Nat.ceil_le, div_le_iff₀ hdq]
    have h1 : n ≤ (n + d - 1) / d * d := by
      have e1 := Nat.div_add_mod (n + d - 1) d
      have e2 := Nat.mod_lt (n + d - 1) hd
      rw [Nat.mul_comm]
      generalize (n + d - 1) / d = q at e1 ⊢
      generalize (n + d - 1) % d = r at e1 e2
      generalize d * q = p at e1 ⊢
      omega
    exact_mod_cast h1
  · rw [Nat.div_le_iff_le_mul_add_pred hd]
    have h2 : (n : ℚ) ≤ d * ⌈(n : ℚ) / (d : ℚ)⌉₊ := by
      have := Nat.le_ceil ((n : ℚ) / (d : ℚ))
      rw [div_le_iff₀ hdq] at this
      linarith
    have h3 : n ≤ d * ⌈(n : ℚ) / (d : ℚ)⌉₊ := by exact_mod_cast h2
    omega

/-! ## The height computation -/

theorem size_pred_eq_clog (n : Nat) (h : 1 < n) : (n - 1).size = Nat.clog 2 n := by
  apply le_antisymm
  · rw [Nat.size_le]
    have := Nat.le_pow_clog (by norm_num : 1 < 2) n
    omega
  · rw [← Nat.le_pow_iff_clog_le (by norm_num)]
    have : n - 1 < 2 ^ (n - 1).size := Nat.size_le.mp (le_refl _)
    omega

theorem clz_bits_add_size (k x : Nat) (h : x < 2 ^ k) : clz_bits k x + x.size = k := by
  induction k with
  | zero =>
    have : x = 0 := by simpa using h
    subst this
    simp [clz_bits]
  | succ k ih =>
    have hdiv : x / 2 ^ k < 2 := by
      rw [Nat.div_lt_iff_lt_mul (by positivity)]
      calc x < 2 ^ (k + 1) := h
        _ = 2 * 2 ^ k := by ring
    by_cases hb : x / 2 ^ k % 2 = 1
    · have h1 : x / 2 ^ k = 1 := by
        generalize x / 2 ^ k = q at hdiv hb
        omega
      have h2 : 2 ^ k ≤ x := by
        by_contra hlt
        rw [Nat.div_eq_of_lt (by omega)] at h1
        omega
      have h3 : k < x.size := Nat.lt_size.mpr h2
      have h4 : x.size ≤ k + 1 := Nat.size_le.mpr h
      simp only [clz_bits, if_pos hb]
      omega
    · have h1 : x / 2 ^ k = 0 := by
        generalize x / 2 ^ k = q at hdiv hb
        omega
      have h2 : x < 2 ^ k := (Nat.div_eq_zero_iff (by positivity)).mp h1
      simp only [clz_bits, if_neg hb]
      have := ih h2
      omega

theorem builtin_clz_eq (x : Nat) (h : x < 2 ^ 32) : builtin_clz x + x.size = 32 := by
  rw [builtin_clz, Nat.mod_eq_of_lt h]
  exact clz_bits_add_size 32 x h

theorem height_eq (n : Nat) (hn : n < 2 ^ 31) :
    (if ((n : Int) > 1) then 33 - (builtin_clz (size_t_of ((n : Int) - 1)) : Int) else 1) =
      (height_of n : Int) := by
  unfold height_of
  by_cases h : 1 < n
  · have hs : size_t_of ((n : Int) - 1) = n - 1 := by
      unfold size_t_of
      omega
    have hc := builtin_clz_eq (n - 1) (by omega)
    rw [if_pos (by omega), if_pos h, hs]
    omega
  · rw [if_neg (by omega), if_neg h]
    rfl

theorem height_of_pos (n : Nat) : 1 ≤ height_of n := by
  unfold height_of
  split <;> omega

theorem le_two_pow_height_of (n : Nat) : n ≤ 2 ^ (height_of n - 1) := by
  unfold height_of
  by_cases h : 1 < n
  · rw [if_pos h]
    have : n - 1 < 2 ^ (n - 1).size := Nat.size_le.mp (le_refl _)
    simp only [Nat.add_sub_cancel]
    omega
  · rw [if_neg h]
    simp
    omega

/-! ## The constructor builds the reference model -/

section engine_lemmas

variable {DatTp TrnTp RetTp Args : Type}

theorem fill_leaves_eq (Var : Variant DatTp TrnTp RetTp Args) (a : List RetTp)
    (init : List (List DatTp)) (filled todo : List DatTp) (h : todo.length = a.length) :
    fill_leaves Var a (filled.length : Int) (init ++ [filled ++ todo]) =
      some (init ++ [filled ++ a.map Var.update_val]) := by
  induction a generalizing filled todo with
  | nil =>
    cases todo with
    | nil => simp [fill_leaves]
    | cons y todo => simp at h
  | cons x rest ih =>
    cases todo with
    | nil => simp at h
    | cons y todo =>
      have hset : (filled ++ y :: todo).set filled.length (Var.update_val x) =
          (filled ++ [Var.update_val x]) ++ todo := by
        simp
      have hlen : ((filled.length : Int) + 1) = ((filled ++ [Var.update_val x]).length : Int) := by
        simp
      simp only [fill_leaves]
      rw [back_append_singleton]
      simp only [Option.bind_eq_bind, Option.some_bind]
      rw [vec_put_natCast, vec_set_lt _ _ _ (by simp)]
      simp only [Option.some_bind]
      rw [back_put_append_singleton]
      simp only [Option.some_bind]
      rw [hset, hlen, ih (filled ++ [Var.update_val x]) todo (by simpa using h)]
      simp

theorem build_row_eq (Var : Variant DatTp TrnTp RetTp Args) (pre rest : List (List DatTp))
    (below : List DatTp) (c : Nat) (cur : List DatTp) (i : Int) (hi : i = (pre.length : Int))
    (hc : 2 * c ≤ below.length) (hcur : c ≤ cur.length) :
    build_row Var i c (pre ++ cur :: below :: rest) =
      some (pre ++ ((pair_up Var.update below).take c ++ cur.drop c) :: below :: rest) := by
  induction c generalizing cur with
  | zero => simp [build_row]
  | succ j ih =>
    have hb : mat_at (pre ++ cur :: below :: rest) (i + 1) ((j : Int) * 2) = below[2 * j]? := by
      have e : pre ++ cur :: below :: rest = (pre ++ [cur]) ++ below :: rest := by simp
      have e2 : (j : Int) * 2 = ((2 * j : Nat) : Int) := by push_cast; ring
      rw [e, mat_at_mid _ _ _ _ _ (by simp [hi]), e2, vec_at_natCast]
    have hb2 : mat_at (pre ++ cur :: below :: rest) (i + 1) ((j : Int) * 2 + 1) =
        below[2 * j + 1]? := by
      have e : pre ++ cur :: below :: rest = (pre ++ [cur]) ++ below :: rest := by simp
      have e2 : (j : Int) * 2 + 1 = ((2 * j + 1 : Nat) : Int) := by push_cast; ring
      rw [e, mat_at_mid _ _ _ _ _ (by simp [hi]), e2, vec_at_natCast]
    have h0 : 2 * j < below.length := by omega
    have h1 : 2 * j + 1 < below.length := by omega
    have hp : (pair_up Var.update below)[j]? =
        some (Var.update below[2 * j] below[2 * j + 1]) := by
      rw [getElem?_pair_up, List.getElem?_eq_getElem h0, List.getElem?_eq_getElem h1]
    simp only [build_row, hb, hb2, List.getElem?_eq_getElem h0, List.getElem?_eq_getElem h1,
      Option.bind_eq_bind, Option.some_bind]
    rw [mat_put_mid _ _ _ _ _ _ hi, vec_put_natCast, vec_set_lt _ _ _ (by omega)]
    simp only [Option.some_bind]
    rw [ih _ (by omega) (by simp; omega), drop_set_self _ _ _ (by omega), List.take_succ, hp]
    simp

theorem int_succ_of_lt (x : Nat) (h : x + 1 < 2 ^ 31) : int_succ x = some (x + 1) := by
  unfold int_succ
  rw [if_pos h]

theorem int_succ_of_ge (x : Nat) (h : 2 ^ 31 ≤ x + 1) : int_succ x = none := by
  unfold int_succ
  rw [if_neg (by omega)]

theorem build_levels_eq (Var : Variant DatTp TrnTp RetTp Args) [Inhabited DatTp] (k : Nat)
    (X : List DatTp) (rest : List (List DatTp)) (hX : X.length + 1 < 2 ^ 31) :
    build_levels Var k X.length (List.replicate k [] ++ X :: rest) =
      some (levels Var.update k X ++ rest) := by
  induction k generalizing X rest with
  | zero => simp [build_levels, levels]
  | succ k ih =>
    have hk : (k : Int) = ((List.replicate k ([] : List DatTp)).length : Int) := by simp
    have hP := length_pair_up Var.update X
    have hm := int_succ_of_lt X.length hX
    have e : List.replicate (k + 1) ([] : List DatTp) ++ X :: rest =
        List.replicate k [] ++ [] :: X :: rest := by
      rw [List.replicate_succ']
      simp
    rw [e]
    simp only [build_levels, hm, vec_at_mid _ _ _ _ hk, vec_put_mid _ _ _ _ _ hk,
      Option.bind_eq_bind, Option.some_bind, List.take_nil, List.nil_append, List.length_nil,
      Nat.sub_zero]
    rw [build_row_eq Var _ _ _ _ _ _ hk (by omega) (by simp; omega)]
    simp only [Option.some_bind, List.drop_replicate]
    by_cases hodd : X.length % 2 = 1
    · have e1 : (X.length + 1) / 2 - X.length / 2 = 1 := by omega
      have e2 : List.replicate k ([] : List DatTp) ++
          (List.take (X.length / 2) (pair_up Var.update X) ++ List.replicate 1 default) ::
            X :: rest =
          (List.replicate k [] ++
            [List.take (X.length / 2) (pair_up Var.update X) ++ List.replicate 1 default]) ++
            X :: rest := by simp
      have hX : back X = some X[X.length - 1] := by
        rw [back_eq_getElem? _ (by omega), List.getElem?_eq_getElem (by omega)]
      have hlast : (pair_up Var.update X)[X.length / 2]? = some X[X.length - 1] := by
        rw [getElem?_pair_up]
        have i1 : 2 * (X.length / 2) = X.length - 1 := by omega
        have i2 : X[2 * (X.length / 2) + 1]? = none :=
          List.getElem?_eq_none (by omega)
        have i3 : X[2 * (X.length / 2)]? = some X[X.length - 1] := by
          rw [List.getElem?_eq_getElem (by omega)]
          simp [i1]
        rw [i2, i3]
      have hfull : List.take (X.length / 2) (pair_up Var.update X) ++ [X[X.length - 1]] =
          pair_up Var.update X := by
        have := @List.take_succ _ (pair_up Var.update X) (X.length / 2)
        rw [hlast] at this
        rw [← Option.toList_some, ← this, List.take_of_length_le (by omega)]
      rw [if_pos hodd, e1]
      have hbelow : vec_at (List.replicate k ([] : List DatTp) ++
          (List.take (X.length / 2) (pair_up Var.update X) ++ List.replicate 1 default) ::
            X :: rest) ((k : Int) + 1) = some X := by
        rw [e2]
        exact vec_at_mid _ _ _ _ (by simp)
      rw [hbelow]
      simp only [Option.some_bind, hX, vec_at_mid _ _ _ _ hk, List.replicate_one,
        back_put_append_singleton, vec_put_mid _ _ _ _ _ hk, hfull]
      have hm2 : (X.length + 1) / 2 = (pair_up Var.update X).length := by omega
      rw [hm2, ih _ _ (by omega), levels_succ_append]
    · have e1 : (X.length + 1) / 2 - X.length / 2 = 0 := by omega
      have hfull : List.take (X.length / 2) (pair_up Var.update X) = pair_up Var.update X :=
        List.take_of_length_le (by omega)
      rw [if_neg hodd, e1]
      simp only [Option.some_bind, List.replicate_zero, List.append_nil, hfull]
      have hm2 : (X.length + 1) / 2 = (pair_up Var.update X).length := by omega
      rw [hm2, ih _ _ (by omega), levels_succ_append]

/-- The constructor returns, and its level arrays are those of the reference model. -/
theorem construct_eq (Var : Variant DatTp TrnTp RetTp Args) [Inhabited DatTp]
    (a : List RetTp) (hn : a.length < 2 ^ 31 - 1) :
    construct Var a = some (tree_of Var a) := by
  have hH := height_of_pos a.length
  obtain ⟨k, hk⟩ : ∃ k, height_of a.length = k + 1 := ⟨height_of a.length - 1, by omega⟩
  have e0 : List.replicate (k + 1) ([] : List DatTp) = List.replicate k [] ++ [[]] :=
    List.replicate_succ' k []
  have hfill := fill_leaves_eq Var a (List.replicate k []) [] (List.replicate a.length default)
    (by simp)
  simp only [List.nil_append, List.length_nil, Nat.cast_zero] at hfill
  have hb := build_levels_eq Var k (a.map Var.update_val) [] (by simp; omega)
  simp only [List.length_map, List.append_nil] at hb
  simp only [construct, height_eq a.length (by omega), hk, Int.toNat_natCast, e0,
    back_put_append_singleton, Option.bind_eq_bind, Option.some_bind, hfill]
  have e1 : (((k + 1 : Nat) : Int) - 1).toNat = k := by omega
  rw [e1, hb]
  simp [tree_of, hk]

/-- At `size = INT_MAX` the constructor has no defined outcome: its first `mask + 1`
overflows. -/
theorem construct_none_max (Var : Variant DatTp TrnTp RetTp Args) [Inhabited DatTp]
    (a : List RetTp) (hn : a.length = 2 ^ 31 - 1) : construct Var a = none := by
  have hH := le_two_pow_height_of a.length
  obtain ⟨k, hk⟩ : ∃ k, height_of a.length = k + 1 + 1 := by
    refine ⟨height_of a.length - 2, ?_⟩
    have h2 : 2 ≤ height_of a.length := by
      by_contra hlt
      have h1 : height_of a.length - 1 = 0 := by omega
      rw [h1, hn] at hH
      simp at hH
    omega
  have e0 : List.replicate (k + 1 + 1) ([] : List DatTp) = List.replicate (k + 1) [] ++ [[]] :=
    List.replicate_succ' (k + 1) []
  have hfill := fill_leaves_eq Var a (List.replicate (k + 1) []) []
    (List.replicate a.length default) (by simp)
  simp only [List.nil_append, List.length_nil, Nat.cast_zero] at hfill
  have hm := int_succ_of_ge a.length (by omega)
  simp only [construct, height_eq a.length (by omega), hk, Int.toNat_natCast, e0,
    back_put_append_singleton, Option.bind_eq_bind, Option.some_bind, hfill]
  have e1 : (((k + 1 + 1 : Nat) : Int) - 1).toNat = k + 1 := by omega
  rw [e1]
  simp only [build_levels, hm, Option.bind_eq_bind, Option.none_bind]

/-! ## `update` recomputes the reference model -/

theorem update_loop_eq (Var : Variant DatTp TrnTp RetTp Args) (h : Nat) (X : List DatTp)
    (i : Nat) (cval : DatTp) (rest : List (List DatTp)) (hi : i < X.length)
    (hX : X.length < 2 ^ 64) :
    update_loop Var h (i : Int) cval
        ((levels Var.update h X).dropLast ++ X.set i cval :: rest) =
      some ((levels Var.update h (X.set i cval)).dropLast ++ X.set i cval :: rest) := by
  induction h generalizing X i cval rest with
  | zero => simp [update_loop, levels]
  | succ h ih =>
    have hPlen := length_pair_up Var.update X
    have hpre := length_dropLast_levels Var.update h (pair_up Var.update X)
    have hdata : (levels Var.update (h + 1) X).dropLast ++ X.set i cval :: rest =
        (levels Var.update h (pair_up Var.update X)).dropLast ++
          pair_up Var.update X :: X.set i cval :: rest := by
      rw [dropLast_levels_succ]
      conv_lhs => rw [levels_eq_dropLast_append]
      simp
    have hrow : vec_at ((levels Var.update h (pair_up Var.update X)).dropLast ++
        pair_up Var.update X :: X.set i cval :: rest) ((h : Int) + 1) =
          some (X.set i cval) := by
      have e : (levels Var.update h (pair_up Var.update X)).dropLast ++
          pair_up Var.update X :: X.set i cval :: rest =
          ((levels Var.update h (pair_up Var.update X)).dropLast ++ [pair_up Var.update X]) ++
            X.set i cval :: rest := by simp
      rw [e]
      exact vec_at_mid _ _ _ _ (by simp [hpre])
    have hdiv : Int.tdiv (i : Int) 2 = ((i / 2 : Nat) : Int) := by norm_cast
    have hfin : ∀ v : DatTp, (pair_up Var.update (X.set i cval))[i / 2]? = some v →
        (do
          let data ← mat_put ((levels Var.update h (pair_up Var.update X)).dropLast ++
            pair_up Var.update X :: X.set i cval :: rest) (h : Int) (Int.tdiv (i : Int) 2) v
          let cval ← mat_at data (h : Int) (Int.tdiv (i : Int) 2)
          update_loop Var h (Int.tdiv (i : Int) 2) cval data) =
        some ((levels Var.update (h + 1) (X.set i cval)).dropLast ++ X.set i cval :: rest) := by
      intro v hv
      have hset := pair_up_set Var.update X i cval v hv
      rw [hdiv, mat_put_mid _ _ _ _ _ _ (by simp [hpre]), vec_put_natCast,
        vec_set_lt _ _ _ (by omega)]
      simp only [Option.bind_eq_bind, Option.some_bind]
      rw [mat_at_mid _ _ _ _ _ (by simp [hpre]), vec_at_natCast,
        List.getElem?_set_self (by omega)]
      simp only [Option.some_bind]
      rw [ih (pair_up Var.update X) (i / 2) v _ (by omega) (by omega), ← hset,
        dropLast_levels_succ]
      conv_rhs => rw [levels_eq_dropLast_append]
      simp
    rw [hdata]
    by_cases hpar : (i : Int) % 2 = 0
    · have hpar2 : 2 * (i / 2) = i := by omega
      simp only [update_loop, if_pos hpar, hrow, Option.bind_eq_bind]
      rw [Option.some_bind, List.length_set, size_t_of_natCast i (by omega),
        size_t_pred_eq X.length (by omega) hX]
      have hi1 : (i : Int) + 1 = ((i + 1 : Nat) : Int) := by push_cast; ring
      by_cases hlast : i < X.length - 1
      · have hv : (pair_up Var.update (X.set i cval))[i / 2]? =
            some (Var.update cval X[i + 1]) := by
          rw [getElem?_pair_up, hpar2, List.getElem?_set_self hi,
            List.getElem?_set_ne (by omega), List.getElem?_eq_getElem (by omega)]
        rw [if_pos hlast, hi1, vec_at_natCast, List.getElem?_set_ne (by omega),
          List.getElem?_eq_getElem (by omega)]
        simp only [Option.some_bind]
        exact hfin _ hv
      · have hv : (pair_up Var.update (X.set i cval))[i / 2]? = some cval := by
          rw [getElem?_pair_up, hpar2, List.getElem?_set_self hi,
            List.getElem?_eq_none (by simp; omega)]
        rw [if_neg hlast]
        simp only [Option.some_bind]
        exact hfin _ hv
    · obtain ⟨y, hy⟩ : ∃ y, X[i - 1]? = some y :=
        ⟨X[i - 1], List.getElem?_eq_getElem (by omega)⟩
      have hi1 : (i : Int) - 1 = ((i - 1 : Nat) : Int) := by omega
      have hv : (pair_up Var.update (X.set i cval))[i / 2]? = some (Var.update y cval) := by
        have e : 2 * (i / 2) = i - 1 := by omega
        have e2 : i - 1 + 1 = i := by omega
        rw [getElem?_pair_up, e, e2, List.getElem?_set_self hi,
          List.getElem?_set_ne (by omega), hy]
      have hd : mat_at ((levels Var.update h (pair_up Var.update X)).dropLast ++
          pair_up Var.update X :: X.set i cval :: rest) ((h : Int) + 1) ((i : Int) - 1) =
            some y := by
        simp only [mat_at, hrow, Option.bind_eq_bind, Option.some_bind]
        rw [hi1, vec_at_natCast, List.getElem?_set_ne (by omega), hy]
      simp only [update_loop, if_neg hpar, hd, Option.bind_eq_bind, Option.some_bind]
      exact hfin _ hv

theorem update_tree_of (Var : Variant DatTp TrnTp RetTp Args) (a : List RetTp) (i : Nat)
    (v : RetTp) (hi : i < a.length) (hn : a.length < 2 ^ 31) :
    update Var (tree_of Var a) (i : Int) v = some (tree_of Var (a.set i v)) := by
  have hH := height_of_pos a.length
  have hk : (((height_of a.length : Nat) : Int) - 1).toNat = height_of a.length - 1 := by omega
  have hL : (a.map Var.update_val).set i (Var.update_val v) =
      (a.set i v).map Var.update_val := by
    rw [List.map_set]
  have hloop := update_loop_eq Var (height_of a.length - 1) (a.map Var.update_val) i
    (Var.update_val v) [] (by simpa using hi) (by simp; omega)
  simp only [update, tree_of, Option.bind_eq_bind]
  rw [levels_eq_dropLast_append, back_append_singleton]
  simp only [Option.some_bind]
  rw [vec_put_natCast, vec_set_lt _ _ _ (by simpa using hi)]
  rw [hL] at hloop
  simp only [Option.some_bind, back_put_append_singleton, hk, hL, hloop, List.length_set]
  rw [← levels_eq_dropLast_append]

/-! ## `get_transition` walks the reference model -/

theorem ok_slice {α : Type} (Ok : List α → Prop) (hpart : ∀ p m q, Ok (p ++ m ++ q) → Ok m)
    (a : List α) (li ri s e : Nat) (hok : Ok (slice a li ri)) (h1 : li ≤ s) (h2 : e ≤ ri) :
    Ok (slice a s e) := by
  by_cases hse : s ≤ e
  · apply hpart (slice a li s) (slice a s e) (slice a e ri)
    rw [slice_append a li s e h1 hse, slice_append a li e ri (by omega) h2]
    exact hok
  · have e0 : slice a s e = [] := by
      unfold slice
      rw [Nat.sub_eq_zero_of_le (by omega), List.take_zero]
    rw [e0]
    apply hpart (slice a li ri) [] []
    simpa using hok

theorem get_transition_loop_eq (Var : Variant DatTp TrnTp RetTp Args) (args : Args)
    (Ok : List RetTp → Prop) (R : DatTp → List RetTp → Prop) (sem : List RetTp → TrnTp)
    (hs : Sound Var args Ok R sem)
    (a : List RetTp) (h : Nat) (w : Nat) (X : List DatTp) (rest : List (List DatTp))
    (hsp : Spans R a w X) (hXlen : X.length ≤ 2 ^ h) (li ri : Nat) (hlr : li < ri)
    (hri : ri < X.length) (li0 ri0 : Nat) (hl1 : li * w ≤ li0) (hl2 : li0 < (li + 1) * w)
    (hr1 : ri * w ≤ ri0) (hr2 : ri0 < (ri + 1) * w) (hr3 : ri0 < a.length)
    (hok : ∀ s e, li0 ≤ s → e ≤ ri0 + 1 → Ok (slice a s e))
    (fuel : Nat) (hfuel : ri < fuel) (lval rval : TrnTp)
    (hlval : lval = sem (slice a li0 ((li + 1) * w)))
    (hrval : rval = sem (slice a (ri * w) (ri0 + 1))) :
    ∃ m, li0 < m ∧ m ≤ ri0 ∧
      get_transition_loop Var (levels Var.update h X ++ rest) args fuel (h : Int) (li : Int)
          (ri : Int) lval rval =
        some (sem (slice a li0 m), sem (slice a m (ri0 + 1))) := by
  induction h generalizing w X rest li ri fuel lval rval with
  | zero =>
    simp at hXlen
    omega
  | succ h ih =>
    obtain ⟨fuel, rfl⟩ : ∃ k, fuel = k + 1 := ⟨fuel - 1, by omega⟩
    have hdl : Int.tdiv (li : Int) 2 = ((li / 2 : Nat) : Int) := by norm_cast
    have hdr : Int.tdiv (ri : Int) 2 = ((ri / 2 : Nat) : Int) := by norm_cast
    have hw : 0 < w := by
      rcases Nat.eq_zero_or_pos w with h0 | h0
      · subst h0; simp at hl2
      · exact h0
    by_cases hcond : li / 2 < ri / 2
    · have hrow : vec_at (levels Var.update (h + 1) X ++ rest) ((h + 1 : Nat) : Int) =
          some X := by
        rw [vec_at_natCast, getElem?_levels_append]
      have hleft : (li : Int) % 2 = 0 → ∃ d,
          mat_at (levels Var.update (h + 1) X ++ rest) ((h + 1 : Nat) : Int) ((li : Int) + 1) =
            some d ∧
          Var.get_transition_trn_dat lval d args =
            sem (slice a li0 ((li / 2 + 1) * (2 * w))) := by
        intro hp
        have e1 : (li : Int) + 1 = ((li + 1 : Nat) : Int) := by push_cast; ring
        have hli1 : li + 1 < X.length := by omega
        have e2 : (li / 2 + 1) * (2 * w) = (li + 1 + 1) * w := by
          have : li = 2 * (li / 2) := by omega
          conv_rhs => rw [this]
          ring
        obtain ⟨hne, hR⟩ := hsp.2 (li + 1) hli1
        have hok1 : Ok (slice a li0 ((li + 1) * w) ++
            slice a ((li + 1) * w) ((li + 1 + 1) * w)) := by
          rw [slice_append a li0 ((li + 1) * w) ((li + 1 + 1) * w) (by omega)
            (Nat.mul_le_mul_right _ (by omega))]
          have hb : (li + 1 + 1) * w ≤ ri * w := Nat.mul_le_mul_right _ (by omega)
          exact hok _ _ (le_refl _) (by omega)
        refine ⟨X[li + 1], ?_, ?_⟩
        · simp only [mat_at, hrow, Option.bind_eq_bind, Option.some_bind]
          rw [e1, vec_at_natCast, List.getElem?_eq_getElem hli1]
        · rw [hlval, hs.trn_dat _ _ _ (slice_ne_nil _ _ _ hl2 (by omega)) hR hok1, e2,
            slice_append a li0 ((li + 1) * w) ((li + 1 + 1) * w) (by omega)
              (Nat.mul_le_mul_right _ (by omega))]
      have hleft2 : ¬ (li : Int) % 2 = 0 →
          lval = sem (slice a li0 ((li / 2 + 1) * (2 * w))) := by
        intro hp
        have e2 : (li / 2 + 1) * (2 * w) = (li + 1) * w := by
          have : li = 2 * (li / 2) + 1 := by omega
          conv_rhs => rw [this]
          ring
        rw [hlval, e2]
      have hright : (ri : Int) % 2 = 1 → ∃ d,
          mat_at (levels Var.update (h + 1) X ++ rest) ((h + 1 : Nat) : Int) ((ri : Int) - 1) =
            some d ∧
          Var.get_transition_dat_trn d rval args =
            sem (slice a (ri / 2 * (2 * w)) (ri0 + 1)) := by
        intro hp
        have e1 : (ri : Int) - 1 = ((ri - 1 : Nat) : Int) := by omega
        have hri1 : ri - 1 < X.length := by omega
        have e2 : ri / 2 * (2 * w) = (ri - 1) * w := by
          have : ri - 1 = 2 * (ri / 2) := by omega
          rw [this]
          ring
        have e3 : (ri - 1 + 1) * w = ri * w := by
          have : ri - 1 + 1 = ri := by omega
          rw [this]
        obtain ⟨hne, hR⟩ := hsp.2 (ri - 1) hri1
        rw [e3] at hR
        have hok1 : Ok (slice a ((ri - 1) * w) (ri * w) ++ slice a (ri * w) (ri0 + 1)) := by
          rw [slice_append a ((ri - 1) * w) (ri * w) (ri0 + 1)
            (Nat.mul_le_mul_right _ (by omega)) (by omega)]
          have hb : (li + 1) * w ≤ (ri - 1) * w := Nat.mul_le_mul_right _ (by omega)
          exact hok _ _ (by omega) (le_refl _)
        refine ⟨X[ri - 1], ?_, ?_⟩
        · simp only [mat_at, hrow, Option.bind_eq_bind, Option.some_bind]
          rw [e1, vec_at_natCast, List.getElem?_eq_getElem hri1]
        · rw [hrval, hs.dat_trn _ _ _ (slice_ne_nil _ _ _ (by omega) (by omega)) hR hok1, e2,
            slice_append a ((ri - 1) * w) (ri * w) (ri0 + 1)
              (Nat.mul_le_mul_right _ (by omega)) (by omega)]
      have hright2 : ¬ (ri : Int) % 2 = 1 →
          rval = sem (slice a (ri / 2 * (2 * w)) (ri0 + 1)) := by
        intro hp
        have e2 : ri / 2 * (2 * w) = ri * w := by
          have : ri = 2 * (ri / 2) := by omega
          conv_rhs => rw [this]
          ring
        rw [hrval, e2]
      have hcondZ : ((li / 2 : Nat) : Int) < ((ri / 2 : Nat) : Int) := by
        exact_mod_cast hcond
      have hh : ((h + 1 : Nat) : Int) - 1 = (h : Int) := by push_cast; ring
      have key : ∀ lv rv, lv = sem (slice a li0 ((li / 2 + 1) * (2 * w))) →
          rv = sem (slice a (ri / 2 * (2 * w)) (ri0 + 1)) →
          ∃ m, li0 < m ∧ m ≤ ri0 ∧
            get_transition_loop Var (levels Var.update (h + 1) X ++ rest) args fuel (h : Int)
                ((li / 2 : Nat) : Int) ((ri / 2 : Nat) : Int) lv rv =
              some (sem (slice a li0 m), sem (slice a m (ri0 + 1))) := by
        intro lv rv h1 h2
        rw [levels_succ_append]
        exact ih (2 * w) (pair_up Var.update X) (X :: rest)
          (spans_pair_up R Var.update a w X hs.node hsp)
          (by rw [length_pair_up]; rw [pow_succ] at hXlen; omega)
          (li / 2) (ri / 2) hcond (by rw [length_pair_up]; omega)
          (by
            calc li / 2 * (2 * w) = (2 * (li / 2)) * w := by ring
              _ ≤ li * w := Nat.mul_le_mul_right _ (by omega)
              _ ≤ li0 := hl1)
          (by
            calc li0 < (li + 1) * w := hl2
              _ ≤ (2 * (li / 2 + 1)) * w := Nat.mul_le_mul_right _ (by omega)
              _ = (li / 2 + 1) * (2 * w) := by ring)
          (by
            calc ri / 2 * (2 * w) = (2 * (ri / 2)) * w := by ring
              _ ≤ ri * w := Nat.mul_le_mul_right _ (by omega)
              _ ≤ ri0 := hr1)
          (by
            calc ri0 < (ri + 1) * w := hr2
              _ ≤ (2 * (ri / 2 + 1)) * w := Nat.mul_le_mul_right _ (by omega)
              _ = (ri / 2 + 1) * (2 * w) := by ring)
          fuel (by omega) lv rv h1 h2
      by_cases hp : (li : Int) % 2 = 0
      · obtain ⟨dl, hdl1, hdl2⟩ := hleft hp
        by_cases hq : (ri : Int) % 2 = 1
        · obtain ⟨dr, hdr1, hdr2⟩ := hright hq
          obtain ⟨m, hm1, hm2, hm3⟩ := key _ _ hdl2 hdr2
          refine ⟨m, hm1, hm2, ?_⟩
          simp only [get_transition_loop, hdl, hdr, if_pos hcondZ, if_pos hp, if_pos hq, hdl1,
            hdr1, Option.bind_eq_bind, Option.some_bind, hh]
          exact hm3
        · obtain ⟨m, hm1, hm2, hm3⟩ := key _ _ hdl2 (hright2 hq)
          refine ⟨m, hm1, hm2, ?_⟩
          simp only [get_transition_loop, hdl, hdr, if_pos hcondZ, if_pos hp, if_neg hq, hdl1,
            Option.bind_eq_bind, Option.some_bind, hh]
          exact hm3
      · by_cases hq : (ri : Int) % 2 = 1
        · obtain ⟨dr, hdr1, hdr2⟩ := hright hq
          obtain ⟨m, hm1, hm2, hm3⟩ := key _ _ (hleft2 hp) hdr2
          refine ⟨m, hm1, hm2, ?_⟩
          simp only [get_transition_loop, hdl, hdr, if_pos hcondZ, if_neg hp, if_pos hq,
            hdr1, Option.bind_eq_bind, Option.some_bind, hh]
          exact hm3
        · obtain ⟨m, hm1, hm2, hm3⟩ := key _ _ (hleft2 hp) (hright2 hq)
          refine ⟨m, hm1, hm2, ?_⟩
          simp only [get_transition_loop, hdl, hdr, if_pos hcondZ, if_neg hp, if_neg hq,
            Option.bind_eq_bind, Option.some_bind, hh]
          exact hm3
    · have hcondZ : ¬ Int.tdiv (li : Int) 2 < Int.tdiv (ri : Int) 2 := by
        rw [hdl, hdr]
        exact_mod_cast hcond
      have e : li + 1 = ri := by omega
      refine ⟨ri * w, by rw [← e]; exact hl2, hr1, ?_⟩
      simp only [get_transition_loop, if_neg hcondZ, hlval, hrval, e]

theorem back_tree_of (Var : Variant DatTp TrnTp RetTp Args) (a : List RetTp) :
    back (tree_of Var a).data = some (a.map Var.update_val) := by
  simp only [tree_of]
  rw [levels_eq_dropLast_append, back_append_singleton]

theorem get_transition_tree_of (Var : Variant DatTp TrnTp RetTp Args) (args : Args)
    (Ok : List RetTp → Prop) (R : DatTp → List RetTp → Prop) (sem : List RetTp → TrnTp)
    (hs : Sound Var args Ok R sem)
    (a : List RetTp) (li ri : Nat) (hle : li ≤ ri) (hri : ri < a.length)
    (hok : Ok (slice a li (ri + 1))) :
    get_transition Var (tree_of Var a) (li : Int) (ri : Int) args =
      some (sem (slice a li (ri + 1))) := by
  have hli : li < a.length := by omega
  have hoks : ∀ s e, li ≤ s → e ≤ ri + 1 → Ok (slice a s e) :=
    fun s e h1 h2 => ok_slice Ok hs.ok_part a li (ri + 1) s e hok h1 h2
  have hokl : Ok [a[li]] := by
    rw [← slice_singleton a li hli]
    exact hoks _ _ (le_refl _) (by omega)
  have hokr : Ok [a[ri]] := by
    rw [← slice_singleton a ri hri]
    exact hoks _ _ hle (le_refl _)
  have hdl : vec_at (a.map Var.update_val) (li : Int) = some (Var.update_val a[li]) := by
    rw [vec_at_natCast, List.getElem?_map, List.getElem?_eq_getElem hli]
    rfl
  have hdr : vec_at (a.map Var.update_val) (ri : Int) = some (Var.update_val a[ri]) := by
    rw [vec_at_natCast, List.getElem?_map, List.getElem?_eq_getElem hri]
    rfl
  simp only [get_transition, back_tree_of, Option.bind_eq_bind, Option.some_bind]
  by_cases heq : li = ri
  · subst heq
    simp only [if_true, hdl, Option.some_bind, hs.dat _ hokl, slice_singleton a li hli]
  · have hne : ¬ ((li : Int) = (ri : Int)) := by omega
    have hH := height_of_pos a.length
    have hh : ((tree_of Var a).height - 1) = ((height_of a.length - 1 : Nat) : Int) := by
      simp only [tree_of]
      omega
    obtain ⟨m, hm1, hm2, hm3⟩ := get_transition_loop_eq Var args Ok R sem hs a
      (height_of a.length - 1) 1 (a.map Var.update_val) []
      (spans_leaves R Var.update_val a hs.leaf)
      (by simpa using le_two_pow_height_of a.length) li ri (by omega) (by simpa using hri)
      li ri (by omega) (by omega) (by omega) (by omega) hri hoks
      ((ri : Int).toNat + 1) (by simp)
      (Var.get_transition_dat (Var.update_val a[li]) args)
      (Var.get_transition_dat (Var.update_val a[ri]) args)
      (by rw [hs.dat _ hokl, Nat.mul_one, slice_singleton a li hli])
      (by rw [hs.dat _ hokr, Nat.mul_one, slice_singleton a ri hri])
    rw [List.append_nil] at hm3
    have hdata : (tree_of Var a).data =
        levels Var.update (height_of a.length - 1) (a.map Var.update_val) := rfl
    rw [if_neg hne, hdl, hdr]
    simp only [Option.some_bind, hh, hdata, hm3]
    have hokm : Ok (slice a li m ++ slice a m (ri + 1)) := by
      rw [slice_append a li m (ri + 1) (by omega) (by omega)]
      exact hok
    rw [hs.trn_trn _ _ (slice_ne_nil _ _ _ hm1 (by omega))
      (slice_ne_nil _ _ _ (by omega) (by omega)) hokm,
      slice_append a li m (ri + 1) (by omega) (by omega)]

theorem get_tree_of (Var : Variant DatTp TrnTp RetTp Args) (args : Args)
    (Ok : List RetTp → Prop) (R : DatTp → List RetTp → Prop) (sem : List RetTp → TrnTp)
    (hs : Sound Var args Ok R sem)
    (a : List RetTp) (li ri : Nat) (hle : li ≤ ri) (hri : ri < a.length)
    (hok : Ok (slice a li (ri + 1))) :
    get Var (tree_of Var a) (li : Int) (ri : Int) args =
      some (Var.get (sem (slice a li (ri + 1)))) := by
  rw [get, get_transition_tree_of Var args Ok R sem hs a li ri hle hri hok]
  rfl

/-- The constructor followed by `get`, for a policy that is sound for `R` and `sem` on the
runs that are `Ok`. -/
theorem get_construct (Var : Variant DatTp TrnTp RetTp Args) [Inhabited DatTp] (args : Args)
    (Ok : List RetTp → Prop) (R : DatTp → List RetTp → Prop) (sem : List RetTp → TrnTp)
    (hs : Sound Var args Ok R sem)
    (a : List RetTp) (li ri : Nat) (hn : a.length < 2 ^ 31 - 1) (hle : li ≤ ri)
    (hri : ri < a.length) (hok : Ok (slice a li (ri + 1))) :
    (construct Var a).bind (fun t => get Var t (li : Int) (ri : Int) args) =
      some (Var.get (sem (slice a li (ri + 1)))) := by
  rw [construct_eq Var a hn, Option.some_bind]
  exact get_tree_of Var args Ok R sem hs a li ri hle hri hok

theorem slice_cons {α : Type} (a : List α) (li ri : Nat) (hle : li ≤ ri) (hli : li < a.length) :
    slice a li (ri + 1) = a[li] :: slice a (li + 1) (ri + 1) := by
  rw [← slice_append a li (li + 1) (ri + 1) (by omega) (by omega), slice_singleton a li hli]
  rfl

/-! ## Policies meeting the contract -/

theorem dat_foldl_update (Var : Variant DatTp TrnTp RetTp Args) (args : Args)
    (hc : Contract Var args) (xs : List RetTp) (d : DatTp) :
    Var.get_transition_dat (xs.foldl (fun acc v => Var.update acc (Var.update_val v)) d) args =
      xs.foldl (fun acc v =>
        Var.get_transition_trn_trn acc (Var.get_transition_dat (Var.update_val v) args) args)
        (Var.get_transition_dat d args) := by
  induction xs generalizing d with
  | nil => rfl
  | cons v r ih => simp only [List.foldl_cons, ih, hc.dat_update]

theorem dat_fold_update (Var : Variant DatTp TrnTp RetTp Args) (args : Args)
    (hc : Contract Var args) (x : RetTp) (xs : List RetTp) :
    Var.get_transition_dat (fold_update Var x xs) args = fold_merge Var args x xs :=
  dat_foldl_update Var args hc xs _

theorem update_foldl_update (Var : Variant DatTp TrnTp RetTp Args) (args : Args)
    (hc : Contract Var args) (ys : List RetTp) (d e : DatTp) :
    Var.update d (ys.foldl (fun acc v => Var.update acc (Var.update_val v)) e) =
      ys.foldl (fun acc v => Var.update acc (Var.update_val v)) (Var.update d e) := by
  induction ys generalizing e with
  | nil => rfl
  | cons v r ih => simp only [List.foldl_cons, ih, hc.update_assoc]

theorem update_fold_update (Var : Variant DatTp TrnTp RetTp Args) (args : Args)
    (hc : Contract Var args) (x y : RetTp) (xs ys : List RetTp) :
    Var.update (fold_update Var x xs) (fold_update Var y ys) =
      fold_update Var x (xs ++ y :: ys) := by
  unfold fold_update
  rw [update_foldl_update Var args hc, List.foldl_append, List.foldl_cons]

/-- A policy meeting the contract is sound: a datum stands for a run when it is the
left-to-right combine of the run's leaves, and the transitional value of a run is the
brute-force fold. -/
theorem contract_sound (Var : Variant DatTp TrnTp RetTp Args) (args : Args)
    (hc : Contract Var args) (t0 : TrnTp) :
    Sound Var args (fun _ => True) (fun d xs => ∃ x r, xs = x :: r ∧ d = fold_update Var x r)
      (fun xs => match xs with
        | [] => t0
        | x :: r => fold_merge Var args x r) := by
  have key : ∀ (x y : RetTp) (r s : List RetTp),
      Var.get_transition_trn_trn (fold_merge Var args x r) (fold_merge Var args y s) args =
        fold_merge Var args x (r ++ y :: s) := by
    intro x y r s
    rw [← dat_fold_update Var args hc, ← dat_fold_update Var args hc, ← hc.dat_update,
      update_fold_update Var args hc, dat_fold_update Var args hc]
  constructor
  · intro _ _ _ _
    trivial
  · intro v
    exact ⟨v, [], rfl, rfl⟩
  · rintro d1 d2 xs ys ⟨x, r, rfl, rfl⟩ ⟨y, s, rfl, rfl⟩
    exact ⟨x, r ++ y :: s, rfl, update_fold_update Var args hc x y r s⟩
  · intro v _
    rfl
  · rintro xs d ys hne ⟨y, s, rfl, rfl⟩ -
    cases xs with
    | nil => exact absurd rfl hne
    | cons x r =>
      simp only [List.cons_append]
      rw [hc.trn_dat, dat_fold_update Var args hc, key]
  · rintro d ys xs hne ⟨y, s, rfl, rfl⟩ -
    cases xs with
    | nil => exact absurd rfl hne
    | cons x r =>
      simp only [List.cons_append]
      rw [hc.dat_trn, dat_fold_update Var args hc, key]
  · intro xs ys hx hy _
    cases xs with
    | nil => exact absurd rfl hx
    | cons x r =>
      cases ys with
      | nil => exact absurd rfl hy
      | cons y s =>
        simp only [List.cons_append]
        exact key x y r s

theorem sum_contract : Contract sum () := by
  constructor
  · intro x y z
    simp only [sum]
    ring
  · intro x y
    simp only [sum]
    ring
  · intro t d
    simp only [sum]
    ring
  · intro d t
    simp only [sum]
    ring

/-! ## Arithmetic of a `w`-bit element type -/

theorem wrap_of_fits (w : Nat) (x : Int) (h : fits w x) : wrap w x = x := by
  unfold fits at h
  unfold wrap
  have h2 : (2 : Int) ^ w / 2 * 2 ≤ 2 ^ w := Int.ediv_mul_le _ (by norm_num)
  generalize (2 : Int) ^ w = M at h h2 ⊢
  generalize M / 2 = H at h h2 ⊢
  rw [Int.emod_eq_of_lt (by omega) (by omega)]
  omega

theorem wrap_add_left (w : Nat) (x y : Int) : wrap w (wrap w x + y) = wrap w (x + y) := by
  unfold wrap
  have e : (x + 2 ^ w / 2) % 2 ^ w - 2 ^ w / 2 + y + 2 ^ w / 2 =
      (x + 2 ^ w / 2) % 2 ^ w + y := by ring
  rw [e, Int.emod_add_emod]
  congr 2
  ring

theorem wrap_add_right (w : Nat) (x y : Int) : wrap w (x + wrap w y) = wrap w (x + y) := by
  rw [add_comm, wrap_add_left, add_comm]

theorem wrap_wrap (w : Nat) (x : Int) : wrap w (wrap w x) = wrap w x := by
  have := wrap_add_left w x 0
  simpa using this

theorem sum_tp_contract (w : Nat) : Contract (sum_tp w) () := by
  constructor
  · intro x y z
    simp only [sum_tp, wrap_add_left, wrap_add_right, add_assoc]
  · intro x y
    simp only [sum_tp, wrap_add_left, wrap_add_right, add_zero, wrap_wrap]
  · intro t d
    simp only [sum_tp, wrap_add_left, wrap_add_right, add_zero]
  · intro d t
    simp only [sum_tp, wrap_add_left, wrap_add_right, add_zero]

theorem sum_tp_sound (w : Nat) :
    Sound (sum_tp w) () (fun _ => True) (fun d xs => d = wrap w xs.sum)
      (fun xs => wrap w xs.sum) := by
  constructor
  · intro _ _ _ _
    trivial
  · intro v
    simp [sum_tp]
  · rintro d1 d2 xs ys rfl rfl
    simp only [sum_tp, wrap_add_left, wrap_add_right, List.sum_append]
  · intro v _
    simp [sum_tp, wrap_wrap]
  · rintro xs d ys _ rfl -
    simp only [sum_tp, wrap_add_left, wrap_add_right, List.sum_append]
  · rintro d ys xs _ rfl -
    simp only [sum_tp, wrap_add_left, wrap_add_right, List.sum_append]
  · intro xs ys _ _ _
    simp only [sum_tp, wrap_add_left, wrap_add_right, List.sum_append]

/-! ## The max-subarray-sum policy -/

theorem max_subarray_sum_update_assoc (l m r : List Int) :
    max_subarray_sum_update (max_subarray_sum_update l m) r =
      max_subarray_sum_update l (max_subarray_sum_update m r) := by
  simp only [max_subarray_sum_update, List.getD_cons_zero, List.getD_cons_succ]
  generalize l.getD 0 0 = l0
  generalize l.getD 1 0 = l1
  generalize l.getD 2 0 = l2
  generalize l.getD 3 0 = l3
  generalize m.getD 0 0 = m0
  generalize m.getD 1 0 = m1
  generalize m.getD 2 0 = m2
  generalize m.getD 3 0 = m3
  generalize r.getD 0 0 = r0
  generalize r.getD 1 0 = r1
  generalize r.getD 2 0 = r2
  generalize r.getD 3 0 = r3
  have e0 : max (max (max (max l0 m0) (l1 + m2)) r0) (max m1 (l1 + m3) + r2) =
      max (max l0 (max (max m0 r0) (m1 + r2))) (l1 + max m2 (m3 + r2)) := by omega
  have e1 : max r1 (max m1 (l1 + m3) + r3) = max (max r1 (m1 + r3)) (l1 + (m3 + r3)) := by
    omega
  have e2 : max (max l2 (l3 + m2)) (l3 + m3 + r2) = max l2 (l3 + max m2 (m3 + r2)) := by omega
  have e3 : l3 + m3 + r3 = l3 + (m3 + r3) := by omega
  rw [e0, e1, e2, e3]

theorem max_subarray_sum_contract : Contract max_subarray_sum () := by
  constructor
  · exact max_subarray_sum_update_assoc
  · intro x y
    rfl
  · intro t d
    rfl
  · intro d t
    rfl

theorem summary_leaf (v : Int) : Summary [v] (max_subarray_sum_update_val v) := by
  have hone : ∀ (s m t : List Int), m ≠ [] → s ++ m ++ t = [v] → m = [v] := by
    intro s m t hm h
    have hl := congrArg List.length h
    simp only [List.length_append, List.length_singleton] at hl
    have hm1 : 0 < m.length := List.length_pos.mpr hm
    have hs : s = [] := List.length_eq_zero.mp (by omega)
    have ht : t = [] := List.length_eq_zero.mp (by omega)
    subst hs ht
    simpa using h
  refine ⟨v, v, v, by simp [max_subarray_sum_update_val, List.replicate], ?_, ?_, ?_⟩
  · refine ⟨⟨[v], by simp, ⟨[], [], rfl⟩, by simp⟩, ?_⟩
    rintro x ⟨m, hm, ⟨s, t, h⟩, rfl⟩
    rw [hone s m t hm h]
    simp
  · refine ⟨⟨[v], by simp, ⟨[], rfl⟩, by simp⟩, ?_⟩
    rintro x ⟨m, hm, ⟨s, h⟩, rfl⟩
    rw [hone s m [] hm (by simpa using h)]
    simp
  · refine ⟨⟨[v], by simp, ⟨[], rfl⟩, by simp⟩, ?_⟩
    rintro x ⟨m, hm, ⟨t, h⟩, rfl⟩
    rw [hone [] m t hm (by simpa using h)]
    simp

theorem summary_update (xs ys d1 d2 : List Int) (hx : Summary xs d1) (hy : Summary ys d2) :
    Summary (xs ++ ys) (max_subarray_sum_update d1 d2) := by
  obtain ⟨b1, s1, p1, rfl, hb1, hs1, hp1⟩ := hx
  obtain ⟨b2, s2, p2, rfl, hb2, hs2, hp2⟩ := hy
  obtain ⟨⟨mb1, hmb1, ⟨ub1, wb1, eb1⟩, rfl⟩, ubb1⟩ := hb1
  obtain ⟨⟨mb2, hmb2, ⟨ub2, wb2, eb2⟩, rfl⟩, ubb2⟩ := hb2
  obtain ⟨⟨ms1, hms1, ⟨us1, es1⟩, rfl⟩, ubs1⟩ := hs1
  obtain ⟨⟨ms2, hms2, ⟨us2, es2⟩, rfl⟩, ubs2⟩ := hs2
  obtain ⟨⟨mp1, hmp1, ⟨wp1, ep1⟩, rfl⟩, ubp1⟩ := hp1
  obtain ⟨⟨mp2, hmp2, ⟨wp2, ep2⟩, rfl⟩, ubp2⟩ := hp2
  have hinx : ∀ m : List Int, m ≠ [] → m <:+: xs → m.sum ≤ mb1.sum :=
    fun m hm h => ubb1 ⟨m, hm, h, rfl⟩
  have hiny : ∀ m : List Int, m ≠ [] → m <:+: ys → m.sum ≤ mb2.sum :=
    fun m hm h => ubb2 ⟨m, hm, h, rfl⟩
  have hsux : ∀ m : List Int, m ≠ [] → m <:+ xs → m.sum ≤ ms1.sum :=
    fun m hm h => ubs1 ⟨m, hm, h, rfl⟩
  have hsuy : ∀ m : List Int, m ≠ [] → m <:+ ys → m.sum ≤ ms2.sum :=
    fun m hm h => ubs2 ⟨m, hm, h, rfl⟩
  have hprx : ∀ m : List Int, m ≠ [] → m <+: xs → m.sum ≤ mp1.sum :=
    fun m hm h => ubp1 ⟨m, hm, h, rfl⟩
  have hpry : ∀ m : List Int, m ≠ [] → m <+: ys → m.sum ≤ mp2.sum :=
    fun m hm h => ubp2 ⟨m, hm, h, rfl⟩
  refine ⟨max (max mb1.sum mb2.sum) (ms1.sum + mp2.sum), max ms2.sum (ms1.sum + ys.sum),
    max mp1.sum (xs.sum + mp2.sum), by simp [max_subarray_sum_update], ⟨?_, ?_⟩, ⟨?_, ?_⟩,
    ⟨?_, ?_⟩⟩
  · have c1 : mb1.sum ∈ {x | ∃ m, m ≠ [] ∧ m <:+: xs ++ ys ∧ x = m.sum} :=
      ⟨mb1, hmb1, ⟨ub1, wb1 ++ ys, by rw [← eb1]; simp⟩, rfl⟩
    have c2 : mb2.sum ∈ {x | ∃ m, m ≠ [] ∧ m <:+: xs ++ ys ∧ x = m.sum} :=
      ⟨mb2, hmb2, ⟨xs ++ ub2, wb2, by rw [← eb2]; simp⟩, rfl⟩
    have c3 : ms1.sum + mp2.sum ∈ {x | ∃ m, m ≠ [] ∧ m <:+: xs ++ ys ∧ x = m.sum} :=
      ⟨ms1 ++ mp2, by simp [hms1], ⟨us1, wp2, by rw [← es1, ← ep2]; simp⟩, by simp⟩
    rcases max_choice (max mb1.sum mb2.sum) (ms1.sum + mp2.sum) with h | h
    · rw [h]
      rcases max_choice mb1.sum mb2.sum with h2 | h2
      · rw [h2]; exact c1
      · rw [h2]; exact c2
    · rw [h]; exact c3
  · rintro x ⟨m, hm, ⟨u, w, h⟩, rfl⟩
    rcases List.append_eq_append_iff.mp h with ⟨a1, h1, h2⟩ | ⟨c1, h1, h2⟩
    · have := hinx m hm ⟨u, a1, h1.symm⟩
      omega
    · rcases List.append_eq_append_iff.mp h1 with ⟨a2, h3, h4⟩ | ⟨c2, h3, h4⟩
      · by_cases ha : a2 = []
        · subst ha
          have := hiny m hm ⟨[], w, by rw [h2, h4]; simp⟩
          omega
        · by_cases hc : c1 = []
          · subst hc
            have := hinx m hm ⟨u, [], by rw [h3, h4]; simp⟩
            omega
          · have q1 := hsux a2 ha ⟨u, h3.symm⟩
            have q2 := hpry c1 hc ⟨w, h2.symm⟩
            have q3 : m.sum = a2.sum + c1.sum := by rw [h4]; simp
            omega
      · have := hiny m hm ⟨c2, w, by rw [h2, h4]⟩
        omega
  · have c1 : ms2.sum ∈ {x | ∃ m, m ≠ [] ∧ m <:+ xs ++ ys ∧ x = m.sum} :=
      ⟨ms2, hms2, ⟨xs ++ us2, by rw [← es2]; simp⟩, rfl⟩
    have c2 : ms1.sum + ys.sum ∈ {x | ∃ m, m ≠ [] ∧ m <:+ xs ++ ys ∧ x = m.sum} :=
      ⟨ms1 ++ ys, by simp [hms1], ⟨us1, by rw [← es1]; simp⟩, by simp⟩
    rcases max_choice ms2.sum (ms1.sum + ys.sum) with h | h
    · rw [h]; exact c1
    · rw [h]; exact c2
  · rintro x ⟨m, hm, ⟨u, h⟩, rfl⟩
    rcases List.append_eq_append_iff.mp h with ⟨a1, h1, h2⟩ | ⟨c1, h1, h2⟩
    · by_cases ha : a1 = []
      · subst ha
        have := hsuy m hm ⟨[], by rw [h2]; simp⟩
        omega
      · have q1 := hsux a1 ha ⟨u, h1.symm⟩
        have q3 : m.sum = a1.sum + ys.sum := by rw [h2]; simp
        omega
    · have := hsuy m hm ⟨c1, h2.symm⟩
      omega
  · have c1 : mp1.sum ∈ {x | ∃ m, m ≠ [] ∧ m <+: xs ++ ys ∧ x = m.sum} :=
      ⟨mp1, hmp1, ⟨wp1 ++ ys, by rw [← ep1]; simp⟩, rfl⟩
    have c2 : xs.sum + mp2.sum ∈ {x | ∃ m, m ≠ [] ∧ m <+: xs ++ ys ∧ x = m.sum} :=
      ⟨xs ++ mp2, by simp [hmp2], ⟨wp2, by rw [← ep2]; simp⟩, by simp⟩
    rcases max_choice mp1.sum (xs.sum + mp2.sum) with h | h
    · rw [h]; exact c1
    · rw [h]; exact c2
  · rintro x ⟨m, hm, ⟨w, h⟩, rfl⟩
    rcases List.append_eq_append_iff.mp h with ⟨a1, h1, h2⟩ | ⟨c1, h1, h2⟩
    · have := hprx m hm ⟨a1, h1.symm⟩
      omega
    · by_cases hc : c1 = []
      · subst hc
        have := hprx m hm ⟨[], by rw [h1]; simp⟩
        omega
      · have q2 := hpry c1 hc ⟨w, h2.symm⟩
        have q3 : m.sum = xs.sum + c1.sum := by rw [h1]; simp
        omega

theorem summary_fold_update (x : Int) (xs : List Int) :
    Summary (x :: xs) (fold_update max_subarray_sum x xs) := by
  have gen : ∀ (ys xs0 d : List Int), Summary xs0 d →
      Summary (xs0 ++ ys)
        (ys.foldl (fun acc v => max_subarray_sum.update acc (max_subarray_sum.update_val v))
          d) := by
    intro ys
    induction ys with
    | nil =>
      intro xs0 d h
      simpa using h
    | cons v r ih =>
      intro xs0 d h
      have h2 := ih (xs0 ++ [v]) _ (summary_update xs0 [v] d _ h (summary_leaf v))
      simpa using h2
  exact gen xs [x] _ (summary_leaf x)

theorem summary_get (xs d : List Int) (h : Summary xs d) :
    ∃ b s p : Int, d = [b, s, p, xs.sum] ∧ max_subarray_sum_get d = b ∧
      IsGreatest {x | ∃ m, m ≠ [] ∧ m <:+: xs ∧ x = m.sum} b := by
  obtain ⟨b, s, p, rfl, hb, hs, hp⟩ := h
  refine ⟨b, s, p, rfl, ?_, hb⟩
  obtain ⟨⟨ms, hms, ⟨us, es⟩, rfl⟩, -⟩ := hs
  obtain ⟨⟨mp, hmp, ⟨wp, ep⟩, rfl⟩, -⟩ := hp
  have hne : xs ≠ [] := by
    intro h0
    subst h0
    simp at es
    exact hms es.2
  have q1 : ms.sum ≤ b := hb.2 ⟨ms, hms, ⟨us, [], by rw [← es]; simp⟩, rfl⟩
  have q2 : mp.sum ≤ b := hb.2 ⟨mp, hmp, ⟨[], wp, by rw [← ep]; simp⟩, rfl⟩
  have q3 : xs.sum ≤ b := hb.2 ⟨xs, hne, ⟨[], [], by simp⟩, rfl⟩
  simp only [max_subarray_sum_get, max_element, List.foldl_cons, List.foldl_nil,
    Option.getD_some]
  omega

theorem sum_nonpos_of_neg (l : List Int) (h : ∀ v ∈ l, v < 0) : l.sum ≤ 0 := by
  induction l with
  | nil => simp
  | cons y r ih =>
    have h1 := h y (by simp)
    have h2 := ih (fun v hv => h v (by simp [hv]))
    simp only [List.sum_cons]
    omega

theorem best_of_all_negative (l : List Int) (b : Int)
    (hb : IsGreatest {x | ∃ m, m ≠ [] ∧ m <:+: l ∧ x = m.sum} b) (hneg : ∀ v ∈ l, v < 0) :
    IsGreatest {x | x ∈ l} b ∧ b < 0 := by
  obtain ⟨⟨m, hm, ⟨u, w, e⟩, rfl⟩, ub⟩ := hb
  have hub : ∀ v ∈ l, v ≤ m.sum := by
    intro v hv
    obtain ⟨s, t, rfl⟩ := List.append_of_mem hv
    exact ub ⟨[v], by simp, ⟨s, t, by simp⟩, by simp⟩
  cases m with
  | nil => exact absurd rfl hm
  | cons y r =>
    have hy : y ∈ l := by rw [← e]; simp
    have hr : r.sum ≤ 0 :=
      sum_nonpos_of_neg r (fun v hv => hneg v (by rw [← e]; simp [hv]))
    have h1 := hub y hy
    have h2 := hneg y hy
    simp only [List.sum_cons] at h1 hub ⊢
    have e2 : y + r.sum = y := by omega
    rw [e2] at hub ⊢
    exact ⟨⟨hy, fun v hv => hub v hv⟩, h2⟩

/-! ## The max-subarray-sum policy at a `w`-bit element type -/

theorem summary_unique (xs d d2 : List Int) (h : Summary xs d) (h2 : Summary xs d2) :
    d = d2 := by
  obtain ⟨b, s, p, rfl, hb, hs, hp⟩ := h
  obtain ⟨b2, s2, p2, rfl, hb2, hs2, hp2⟩ := h2
  rw [hb.unique hb2, hs.unique hs2, hp.unique hp2]

theorem summary_run (xs : List Int) (h : xs ≠ []) : Summary xs (max_subarray_sum_run xs) := by
  cases xs with
  | nil => exact absurd rfl h
  | cons x r => exact summary_fold_update x r

theorem no_overflow_part (w : Nat) (p m q : List Int) (h : no_overflow w (p ++ m ++ q)) :
    no_overflow w m :=
  fun x hx hin => h x hx (hin.trans ⟨p, q, rfl⟩)

/-- Without overflow the combine of a `w`-bit element type is the combine over the
integers. -/
theorem max_subarray_sum_tp_update_eq (w : Nat) (xs ys d1 d2 : List Int) (hx : Summary xs d1)
    (hy : Summary ys d2) (hov : no_overflow w (xs ++ ys)) :
    max_subarray_sum_tp_update w d1 d2 = max_subarray_sum_update d1 d2 := by
  obtain ⟨b1, s1, p1, rfl, -, hs1, -⟩ := hx
  obtain ⟨b2, s2, p2, rfl, -, -, hp2⟩ := hy
  obtain ⟨⟨ms1, hms1, ⟨us1, es1⟩, rfl⟩, -⟩ := hs1
  obtain ⟨⟨mp2, hmp2, ⟨wp2, ep2⟩, rfl⟩, -⟩ := hp2
  have hxs : xs ≠ [] := by
    intro h0
    subst h0
    simp at es1
    exact hms1 es1.2
  have f1 : fits w (ms1.sum + mp2.sum) := by
    have := hov (ms1 ++ mp2) (by simp [hms1]) ⟨us1, wp2, by rw [← es1, ← ep2]; simp⟩
    simpa using this
  have f2 : fits w (ms1.sum + ys.sum) := by
    have := hov (ms1 ++ ys) (by simp [hms1]) ⟨us1, [], by rw [← es1]; simp⟩
    simpa using this
  have f3 : fits w (xs.sum + mp2.sum) := by
    have := hov (xs ++ mp2) (by simp [hxs]) ⟨[], wp2, by rw [← ep2]; simp⟩
    simpa using this
  have f4 : fits w (xs.sum + ys.sum) := by
    have := hov (xs ++ ys) (by simp [hxs]) ⟨[], [], by simp⟩
    simpa using this
  simp only [max_subarray_sum_tp_update, max_subarray_sum_update, List.getD_cons_zero,
    List.getD_cons_succ, wrap_of_fits _ _ f1, wrap_of_fits _ _ f2, wrap_of_fits _ _ f3,
    wrap_of_fits _ _ f4]

/-- The max-subarray-sum policy at a `w`-bit element type answers queries on the runs none
of whose contiguous sums overflows. -/
theorem max_subarray_sum_tp_sound (w : Nat) :
    Sound (max_subarray_sum_tp w) () (no_overflow w)
      (fun d xs => no_overflow w xs → Summary xs d) max_subarray_sum_run := by
  have key : ∀ (xs ys d1 d2 : List Int), Summary xs d1 → Summary ys d2 →
      no_overflow w (xs ++ ys) →
      max_subarray_sum_tp_update w d1 d2 = max_subarray_sum_run (xs ++ ys) := by
    intro xs ys d1 d2 hx hy hov
    have hne : xs ++ ys ≠ [] := by
      obtain ⟨b, s, p, -, ⟨⟨m, hm, hin, -⟩, -⟩, -, -⟩ := hx
      intro h0
      have : xs = [] := (List.append_eq_nil.mp h0).1
      subst this
      exact hm (List.eq_nil_of_infix_nil hin)
    rw [max_subarray_sum_tp_update_eq w xs ys d1 d2 hx hy hov]
    exact summary_unique _ _ _ (summary_update xs ys d1 d2 hx hy) (summary_run _ hne)
  constructor
  · exact no_overflow_part w
  · intro v _
    exact summary_leaf v
  · intro d1 d2 xs ys h1 h2 hov
    have hx := h1 (no_overflow_part w [] xs ys (by simpa using hov))
    have hy := h2 (no_overflow_part w xs ys [] (by simpa using hov))
    show Summary (xs ++ ys) (max_subarray_sum_tp_update w d1 d2)
    rw [max_subarray_sum_tp_update_eq w xs ys d1 d2 hx hy hov]
    exact summary_update xs ys d1 d2 hx hy
  · intro v _
    rfl
  · intro xs d ys hne hR hov
    exact key xs ys _ d (summary_run xs hne)
      (hR (no_overflow_part w xs ys [] (by simpa using hov))) hov
  · intro d ys xs hne hR hov
    exact key ys xs d _ (hR (no_overflow_part w [] ys xs (by simpa using hov)))
      (summary_run xs hne) hov
  · intro xs ys hx hy hov
    exact key xs ys _ _ (summary_run xs hx) (summary_run ys hy) hov

theorem sum_bounds (m : List Int) (B : Int) (h : ∀ x ∈ m, -B ≤ x ∧ x ≤ B) :
    -((m.length : Int) * B) ≤ m.sum ∧ m.sum ≤ (m.length : Int) * B := by
  induction m with
  | nil => simp
  | cons y r ih =>
    have h1 := h y (by simp)
    have h2 := ih (fun x hx => h x (by simp [hx]))
    simp only [List.sum_cons, List.length_cons, Nat.cast_add, Nat.cast_one, add_mul, one_mul]
    omega

/-- A run of `n` elements within `[-B, B]` has no overflow when `n * B < 2^(w-1)`. -/
theorem no_overflow_of_bounds (w : Nat) (xs : List Int) (B : Nat)
    (h : ∀ x ∈ xs, -(B : Int) ≤ x ∧ x ≤ (B : Int)) (hB : xs.length * B < 2 ^ w / 2) :
    no_overflow w xs := by
  intro m _ hin
  have hb := sum_bounds m B (fun x hx => h x (hin.subset hx))
  have hl : m.length * B ≤ xs.length * B := Nat.mul_le_mul_right _ hin.length_le
  have hB2 : ((xs.length * B : Nat) : Int) < (2 : Int) ^ w / 2 := by
    have : (((2 ^ w / 2 : Nat)) : Int) = (2 : Int) ^ w / 2 := by push_cast; rfl
    rw [← this]
    exact_mod_cast hB
  have hl2 : (m.length : Int) * (B : Int) ≤ ((xs.length * B : Nat) : Int) := by
    exact_mod_cast hl
  unfold fits
  constructor <;> omega

/-- The constructor followed by `get` for the max-subarray-sum policy at a `w`-bit element
type, on a range none of whose contiguous sums overflows. -/
theorem max_subarray_sum_get_construct (w : Nat) (a : List Int) (li ri : Nat)
    (hn : a.length < 2 ^ 31 - 1) (hle : li ≤ ri) (hri : ri < a.length)
    (hov : no_overflow w (slice a li (ri + 1))) :
    ∃ m : Int,
      (construct (max_subarray_sum_tp w) a).bind
          (fun t => get (max_subarray_sum_tp w) t (li : Int) (ri : Int) ()) = some m ∧
        IsGreatest {x | ∃ sub, sub ≠ [] ∧ sub <:+: slice a li (ri + 1) ∧ x = sub.sum} m := by
  have hli : li < a.length := by omega
  have hne : slice a li (ri + 1) ≠ [] := by
    rw [slice_cons a li ri hle hli]
    simp
  obtain ⟨b, s, p, -, hget, hb⟩ := summary_get _ _ (summary_run _ hne)
  refine ⟨b, ?_, hb⟩
  rw [get_construct (max_subarray_sum_tp w) () _ _ _ (max_subarray_sum_tp_sound w) a li ri hn
    hle hri hov]
  exact congrArg some hget

/-! ## The in-range-count policy -/

theorem drop_eq_getD_cons (l : List Int) (i : Nat) (h : i < l.length) :
    l.drop i = l.getD i 0 :: l.drop (i + 1) := by
  rw [List.getD_eq_getElem l 0 h]
  exact List.drop_eq_getElem_cons h

theorem in_range_count_update_stop (lval rval : List Int) (i j : Nat) (result : List Int)
    (hl : List.Pairwise (· ≤ ·) (lval.drop i)) (hr : List.Pairwise (· ≤ ·) (rval.drop j))
    (hres : List.Pairwise (· ≤ ·) result)
    (hle : ∀ x ∈ result, ∀ y ∈ lval.drop i ++ rval.drop j, x ≤ y)
    (hc : ¬ (i < lval.length ∧ j < rval.length)) :
    List.Pairwise (· ≤ ·) (result ++ lval.drop i ++ rval.drop j) := by
  rw [List.append_assoc, List.pairwise_append]
  refine ⟨hres, ?_, hle⟩
  by_cases h1 : i < lval.length
  · have h2 : rval.drop j = [] := List.drop_eq_nil_of_le (by omega)
    rw [h2, List.append_nil]
    exact hl
  · have h2 : lval.drop i = [] := List.drop_eq_nil_of_le (by omega)
    rw [h2, List.nil_append]
    exact hr

theorem in_range_count_update_loop_spec (lval rval : List Int) (fuel i j : Nat)
    (result : List Int) (hfuel : (lval.length - i) + (rval.length - j) ≤ fuel)
    (hl : List.Pairwise (· ≤ ·) (lval.drop i)) (hr : List.Pairwise (· ≤ ·) (rval.drop j))
    (hres : List.Pairwise (· ≤ ·) result)
    (hle : ∀ x ∈ result, ∀ y ∈ lval.drop i ++ rval.drop j, x ≤ y) :
    List.Pairwise (· ≤ ·)
        ((in_range_count_update_loop lval rval fuel i j result).2.2 ++
          lval.drop (in_range_count_update_loop lval rval fuel i j result).1 ++
          rval.drop (in_range_count_update_loop lval rval fuel i j result).2.1) ∧
      List.Perm
        ((in_range_count_update_loop lval rval fuel i j result).2.2 ++
          lval.drop (in_range_count_update_loop lval rval fuel i j result).1 ++
          rval.drop (in_range_count_update_loop lval rval fuel i j result).2.1)
        (result ++ lval.drop i ++ rval.drop j) := by
  induction fuel generalizing i j result with
  | zero =>
    simp only [in_range_count_update_loop]
    exact ⟨in_range_count_update_stop lval rval i j result hl hr hres hle (by omega),
      List.Perm.refl _⟩
  | succ fuel ih =>
    by_cases hc : i < lval.length ∧ j < rval.length
    · have el := drop_eq_getD_cons lval i hc.1
      have er := drop_eq_getD_cons rval j hc.2
      rw [el] at hl
      rw [er] at hr
      rw [el, er] at hle
      obtain ⟨hl1, hl2⟩ := List.pairwise_cons.mp hl
      obtain ⟨hr1, hr2⟩ := List.pairwise_cons.mp hr
      by_cases hlt : lval.getD i 0 < rval.getD j 0
      · have key := ih (i + 1) j (result ++ [lval.getD i 0]) (by omega) hl2
          (by rw [er]; exact hr)
          (by
            rw [List.pairwise_append]
            refine ⟨hres, by simp, ?_⟩
            intro x hx y hy
            simp only [List.mem_singleton] at hy
            subst hy
            exact hle x hx _ (by simp))
          (by
            intro x hx y hy
            rw [er] at hy
            rcases List.mem_append.mp hx with hx | hx
            · apply hle x hx
              rcases List.mem_append.mp hy with hy | hy
              · simp [hy]
              · exact List.mem_append.mpr (Or.inr hy)
            · simp only [List.mem_singleton] at hx
              subst hx
              rcases List.mem_append.mp hy with hy | hy
              · exact hl1 y hy
              · rcases List.mem_cons.mp hy with hy | hy
                · subst hy
                  omega
                · have := hr1 y hy
                  omega)
        simp only [in_range_count_update_loop, if_pos hc, if_pos hlt]
        refine ⟨key.1, key.2.trans ?_⟩
        rw [el]
        simp
      · have key := ih i (j + 1) (result ++ [rval.getD j 0]) (by omega)
          (by rw [el]; exact hl) hr2
          (by
            rw [List.pairwise_append]
            refine ⟨hres, by simp, ?_⟩
            intro x hx y hy
            simp only [List.mem_singleton] at hy
            subst hy
            exact hle x hx _ (by simp))
          (by
            intro x hx y hy
            rw [el] at hy
            rcases List.mem_append.mp hx with hx | hx
            · apply hle x hx
              rcases List.mem_append.mp hy with hy | hy
              · exact List.mem_append.mpr (Or.inl hy)
              · simp [hy]
            · simp only [List.mem_singleton] at hx
              subst hx
              rcases List.mem_append.mp hy with hy | hy
              · rcases List.mem_cons.mp hy with hy | hy
                · subst hy
                  omega
                · have := hl1 y hy
                  omega
              · exact hr1 y hy)
        simp only [in_range_count_update_loop, if_pos hc, if_neg hlt]
        refine ⟨key.1, key.2.trans ?_⟩
        rw [er]
        simp only [List.append_assoc, List.singleton_append]
        exact List.Perm.append_left _ List.perm_middle.symm
    · simp only [in_range_count_update_loop, if_neg hc]
      exact ⟨in_range_count_update_stop lval rval i j result hl hr hres hle hc,
        List.Perm.refl _⟩

theorem in_range_count_update_sorted_perm (lval rval : List Int)
    (hl : List.Sorted (· ≤ ·) lval) (hr : List.Sorted (· ≤ ·) rval) :
    List.Sorted (· ≤ ·) (in_range_count_update lval rval) ∧
      List.Perm (in_range_count_update lval rval) (lval ++ rval) := by
  have h := in_range_count_update_loop_spec lval rval (lval.length + rval.length) 0 0 []
    (by omega) (by simpa using hl) (by simpa using hr) List.Pairwise.nil (by simp)
  simp only [List.drop_zero, List.nil_append] at h
  exact h

theorem length_takeWhile_of_sorted (d : List Int) (p : Int → Bool)
    (hs : List.Pairwise (· ≤ ·) d) (hp : ∀ x y, x ≤ y → p y = true → p x = true) :
    (d.takeWhile p).length = d.countP p := by
  induction d with
  | nil => rfl
  | cons x r ih =>
    obtain ⟨h1, h2⟩ := List.pairwise_cons.mp hs
    by_cases hx : p x = true
    · rw [List.takeWhile_cons_of_pos hx, List.countP_cons, if_pos hx, List.length_cons, ih h2]
    · have hz : r.countP p = 0 := by
        rw [List.countP_eq_zero]
        intro y hy hpy
        exact hx (hp x y (h1 y hy) hpy)
      rw [List.takeWhile_cons_of_neg hx, List.countP_cons, if_neg hx, hz]
      rfl

theorem countP_range_split (d : List Int) (l r : Int) (hlr : l ≤ r) :
    d.countP (fun x => decide (l ≤ x ∧ x ≤ r)) + d.countP (fun e => decide (e < l)) =
      d.countP (fun e => !decide (r < e)) := by
  induction d with
  | nil => rfl
  | cons x t ih =>
    simp only [List.countP_cons]
    by_cases h1 : x < l
    · have h2 : ¬ (l ≤ x ∧ x ≤ r) := by omega
      have h3 : ¬ r < x := by omega
      simp only [h1, h2, h3, decide_True, decide_False, Bool.not_false, if_true, if_false,
        Bool.false_eq_true]
      omega
    · by_cases h3 : r < x
      · have h2 : ¬ (l ≤ x ∧ x ≤ r) := by omega
        simp only [h1, h2, h3, decide_True, decide_False, Bool.not_true, if_true, if_false,
          Bool.false_eq_true]
        omega
      · have h2 : l ≤ x ∧ x ≤ r := by omega
        simp only [h1, h2, h3, decide_True, decide_False, Bool.not_false, if_true, if_false,
          Bool.false_eq_true, and_self]
        omega

theorem bounds_count (d : List Int) (l r : Int) (hs : List.Pairwise (· ≤ ·) d) (hlr : l ≤ r) :
    (upper_bound d r : Int) - (lower_bound d l : Int) =
      (d.countP (fun x => decide (l ≤ x ∧ x ≤ r)) : Int) := by
  have h1 : lower_bound d l = d.countP (fun e => decide (e < l)) :=
    length_takeWhile_of_sorted d _ hs (by
      intro x y hxy hy
      simp only [decide_eq_true_eq] at hy ⊢
      omega)
  have h2 : upper_bound d r = d.countP (fun e => !decide (r < e)) :=
    length_takeWhile_of_sorted d _ hs (by
      intro x y hxy hy
      simp only [Bool.not_eq_true', decide_eq_false_iff_not] at hy ⊢
      omega)
  have h3 := countP_range_split d l r hlr
  rw [h1, h2]
  omega

theorem count_empty_range (d : List Int) (l r : Int) (hlr : r < l) :
    d.countP (fun x => decide (l ≤ x ∧ x ≤ r)) = 0 := by
  rw [List.countP_eq_zero]
  intro x _
  simp only [decide_eq_true_eq]
  omega

theorem in_range_count_trn_dat (c : Int) (d ys : List Int) (l r : Int)
    (hs : List.Sorted (· ≤ ·) d) (hperm : List.Perm d ys) :
    in_range_count_get_transition_trn_dat c d l r =
      c + (ys.countP (fun x => decide (l ≤ x ∧ x ≤ r)) : Int) := by
  rw [← hperm.countP_eq]
  unfold in_range_count_get_transition_trn_dat
  by_cases hlr : l > r
  · rw [if_pos hlr, count_empty_range d l r hlr]
    simp
  · rw [if_neg hlr]
    have := bounds_count d l r hs (by omega)
    omega

theorem in_range_count_sound (l r : Int) :
    Sound in_range_count (l, r) (fun _ => True)
      (fun d xs => List.Sorted (· ≤ ·) d ∧ List.Perm d xs)
      (fun xs => (xs.countP (fun x => decide (l ≤ x ∧ x ≤ r)) : Int)) := by
  constructor
  · intro _ _ _ _
    trivial
  · intro v
    exact ⟨List.sorted_singleton v, List.Perm.refl _⟩
  · rintro d1 d2 xs ys ⟨h1, h2⟩ ⟨h3, h4⟩
    obtain ⟨h5, h6⟩ := in_range_count_update_sorted_perm d1 d2 h1 h3
    exact ⟨h5, h6.trans (h2.append h4)⟩
  · intro v _
    simp only [in_range_count, in_range_count_get_transition_dat, List.getD_cons_zero,
      List.countP_cons, List.countP_nil]
    by_cases h : l ≤ v ∧ v ≤ r
    · simp [h]
    · simp [h]
  · rintro xs d ys _ ⟨h1, h2⟩ -
    simp only [in_range_count, List.countP_append, Nat.cast_add]
    exact in_range_count_trn_dat _ d ys l r h1 h2
  · rintro d ys xs _ ⟨h1, h2⟩ -
    simp only [in_range_count, List.countP_append, Nat.cast_add]
    rw [in_range_count_trn_dat _ d ys l r h1 h2]
    ring
  · intro xs ys _ _ _
    simp only [in_range_count, List.countP_append, Nat.cast_add]

theorem max_subarray_sum_tp_datum_get (w : Nat) (d : List Int)
    (h : max_subarray_sum_tp_datum w d) :
    ∃ b s p t : Int, d = [b, s, p, t] ∧ s ≤ b ∧ p ≤ b ∧ t ≤ s ∧ t ≤ p ∧
      max_subarray_sum_get d = b := by
  induction h with
  | leaf val =>
    refine ⟨val, val, val, val, rfl, le_refl _, le_refl _, le_refl _, le_refl _, ?_⟩
    simp [max_subarray_sum_get, max_subarray_sum_update_val, max_element]
  | node lval rval _ _ f1 f2 f3 f4 ihl ihr =>
    obtain ⟨b1, s1, p1, t1, rfl, h1, h2, h3, h4, -⟩ := ihl
    obtain ⟨b2, s2, p2, t2, rfl, h5, h6, h7, h8, -⟩ := ihr
    simp only [List.getD_cons_zero, List.getD_cons_succ] at f1 f2 f3 f4
    have e : max_subarray_sum_tp_update w [b1, s1, p1, t1] [b2, s2, p2, t2] =
        [max (max b1 b2) (s1 + p2), max s2 (s1 + t2), max p1 (t1 + p2), t1 + t2] := by
      simp only [max_subarray_sum_tp_update, List.getD_cons_zero, List.getD_cons_succ,
        wrap_of_fits _ _ f1, wrap_of_fits _ _ f2, wrap_of_fits _ _ f3, wrap_of_fits _ _ f4]
    refine ⟨max (max b1 b2) (s1 + p2), max s2 (s1 + t2), max p1 (t1 + p2), t1 + t2,
      e, by omega, by omega, by omega, by omega, ?_⟩
    rw [e]
    simp only [max_subarray_sum_get, max_element, List.foldl_cons, List.foldl_nil,
      Option.getD_some]
    omega

/-- Every node of the reference model stands for its block of the input. -/
theorem node_tree_of (Var : Variant DatTp TrnTp RetTp Args) (R : DatTp → List RetTp → Prop)
    (hleaf : ∀ v, R (Var.update_val v) [v])
    (hnode : ∀ d1 d2 xs ys, R d1 xs → R d2 ys → R (Var.update d1 d2) (xs ++ ys))
    (a : List RetTp) (h i : Nat) (d : DatTp)
    (hd : mat_at (tree_of Var a).data (h : Int) (i : Int) = some d) :
    R d (slice a (i * 2 ^ ((tree_of Var a).height.toNat - 1 - h))
      ((i + 1) * 2 ^ ((tree_of Var a).height.toNat - 1 - h))) := by
  rw [mat_at_natCast] at hd
  cases hrow : (tree_of Var a).data[h]? with
  | none => simp [hrow] at hd
  | some X =>
    simp only [hrow, Option.some_bind] at hd
    have hsp := spans_levels R Var.update a hnode (height_of a.length - 1)
      (a.map Var.update_val) 1 (spans_leaves R Var.update_val a hleaf) h X hrow
    obtain ⟨hi, hx⟩ := List.getElem?_eq_some.mp hd
    have := (hsp.2 i hi).2
    rw [hx] at this
    simpa [tree_of] using this

/-! ## Reachable trees are the trees of the reference model -/

theorem update_tree_of_none (Var : Variant DatTp TrnTp RetTp Args) (a : List RetTp) (i : Int)
    (v : RetTp) (hi : i < 0 ∨ (a.length : Int) ≤ i) : update Var (tree_of Var a) i v = none := by
  have hput : vec_put (a.map Var.update_val) i (Var.update_val v) = none := by
    rcases hi with h | h
    · exact vec_put_neg _ _ _ h
    · exact vec_put_ge _ _ _ (by simpa using h)
  simp only [update, back_tree_of, Option.bind_eq_bind, Option.some_bind, hput, Option.none_bind]

theorem reachable_eq_tree_of (Var : Variant DatTp TrnTp RetTp Args) [Inhabited DatTp]
    (t : segment_tree DatTp) (ht : Reachable Var t) :
    ∃ a : List RetTp, a.length < 2 ^ 31 ∧ t = tree_of Var a := by
  induction ht with
  | built a t hn hc =>
    have hn2 : a.length < 2 ^ 31 - 1 := by
      by_contra hge
      rw [construct_none_max Var a (by omega)] at hc
      exact absurd hc (by simp)
    rw [construct_eq Var a hn2] at hc
    exact ⟨a, hn, (Option.some.inj hc).symm⟩
  | updated t t2 i v _ hu ih =>
    obtain ⟨a, hn, rfl⟩ := ih
    by_cases hi : i < 0 ∨ (a.length : Int) ≤ i
    · rw [update_tree_of_none Var a i v hi] at hu
      exact absurd hu (by simp)
    · obtain ⟨k, rfl⟩ : ∃ k : Nat, i = (k : Int) := ⟨i.toNat, by omega⟩
      have hk : k < a.length := by omega
      rw [update_tree_of Var a k v hk hn] at hu
      exact ⟨a.set k v, by simpa using hn, (Option.some.inj hu).symm⟩

theorem tree_of_reachable (Var : Variant DatTp TrnTp RetTp Args) [Inhabited DatTp]
    (a : List RetTp) (hn : a.length < 2 ^ 31 - 1) : Reachable Var (tree_of Var a) :=
  Reachable.built a _ (by omega) (construct_eq Var a hn)

/-! ## Queries that need no walk -/

theorem get_point_tree_of (Var : Variant DatTp TrnTp RetTp Args) (args : Args)
    (a : List RetTp) (k : Nat) (d : DatTp) (hd : (a.map Var.update_val)[k]? = some d) :
    get Var (tree_of Var a) (k : Int) (k : Int) args =
      some (Var.get (Var.get_transition_dat d args)) := by
  simp only [get, get_transition, back_tree_of, Option.bind_eq_bind, Option.some_bind, if_true,
    vec_at_natCast, hd, Option.map_some']

theorem get_reversed_tree_of (Var : Variant DatTp TrnTp RetTp Args) (args : Args)
    (a : List RetTp) (li ri : Nat) (hlr : ri < li) (dl dr : DatTp)
    (hdl : (a.map Var.update_val)[li]? = some dl) (hdr : (a.map Var.update_val)[ri]? = some dr) :
    get Var (tree_of Var a) (li : Int) (ri : Int) args =
      some (Var.get (Var.get_transition_trn_trn (Var.get_transition_dat dl args)
        (Var.get_transition_dat dr args) args)) := by
  have hne : ¬ ((li : Int) = (ri : Int)) := by omega
  have hcond : ¬ (Int.tdiv (li : Int) 2 < Int.tdiv (ri : Int) 2) := by
    have e1 : Int.tdiv (li : Int) 2 = ((li / 2 : Nat) : Int) := by norm_cast
    have e2 : Int.tdiv (ri : Int) 2 = ((ri / 2 : Nat) : Int) := by norm_cast
    rw [e1, e2]
    omega
  simp only [get, get_transition, back_tree_of, Option.bind_eq_bind, Option.some_bind,
    if_neg hne, vec_at_natCast, hdl, hdr, get_transition_loop, if_neg hcond, Option.map_some']

/-- The loop of `get_transition` reads existing nodes only, whatever the policy. -/
theorem get_transition_loop_some (Var : Variant DatTp TrnTp RetTp Args) (args : Args)
    (h : Nat) (X : List DatTp) (rest : List (List DatTp)) (hXlen : X.length ≤ 2 ^ h)
    (li ri : Nat) (hlr : li < ri) (hri : ri < X.length) (fuel : Nat) (hfuel : ri < fuel)
    (lval rval : TrnTp) :
    ∃ res, get_transition_loop Var (levels Var.update h X ++ rest) args fuel (h : Int)
      (li : Int) (ri : Int) lval rval = some res := by
  induction h generalizing X rest li ri fuel lval rval with
  | zero =>
    simp at hXlen
    omega
  | succ h ih =>
    obtain ⟨fuel, rfl⟩ : ∃ k, fuel = k + 1 := ⟨fuel - 1, by omega⟩
    have hdl : Int.tdiv (li : Int) 2 = ((li / 2 : Nat) : Int) := by norm_cast
    have hdr : Int.tdiv (ri : Int) 2 = ((ri / 2 : Nat) : Int) := by norm_cast
    by_cases hcond : ((li / 2 : Nat) : Int) < ((ri / 2 : Nat) : Int)
    · have hrow : vec_at (levels Var.update (h + 1) X ++ rest) ((h + 1 : Nat) : Int) =
          some X := by
        rw [vec_at_natCast, getElem?_levels_append]
      have hli1 : li + 1 < X.length := by omega
      have hleft : mat_at (levels Var.update (h + 1) X ++ rest) ((h + 1 : Nat) : Int)
          ((li : Int) + 1) = some X[li + 1] := by
        have e1 : (li : Int) + 1 = ((li + 1 : Nat) : Int) := by push_cast; ring
        simp only [mat_at, hrow, Option.bind_eq_bind, Option.some_bind]
        rw [e1, vec_at_natCast, List.getElem?_eq_getElem hli1]
      have hright : (ri : Int) % 2 = 1 → ∃ d,
          mat_at (levels Var.update (h + 1) X ++ rest) ((h + 1 : Nat) : Int)
            ((ri : Int) - 1) = some d := by
        intro hp
        have e1 : (ri : Int) - 1 = ((ri - 1 : Nat) : Int) := by omega
        have hri1 : ri - 1 < X.length := by omega
        refine ⟨X[ri - 1], ?_⟩
        simp only [mat_at, hrow, Option.bind_eq_bind, Option.some_bind]
        rw [e1, vec_at_natCast, List.getElem?_eq_getElem hri1]
      have hh : ((h + 1 : Nat) : Int) - 1 = (h : Int) := by push_cast; ring
      have key : ∀ lv rv, ∃ res,
          get_transition_loop Var (levels Var.update (h + 1) X ++ rest) args fuel (h : Int)
            ((li / 2 : Nat) : Int) ((ri / 2 : Nat) : Int) lv rv = some res := by
        intro lv rv
        rw [levels_succ_append]
        exact ih (pair_up Var.update X) (X :: rest)
          (by rw [length_pair_up]; rw [pow_succ] at hXlen; omega)
          (li / 2) (ri / 2) (by omega) (by rw [length_pair_up]; omega) fuel (by omega) lv rv
      by_cases hp : (li : Int) % 2 = 0
      · by_cases hq : (ri : Int) % 2 = 1
        · obtain ⟨dr, hdr1⟩ := hright hq
          obtain ⟨res, hres⟩ := key (Var.get_transition_trn_dat lval X[li + 1] args)
            (Var.get_transition_dat_trn dr rval args)
          refine ⟨res, ?_⟩
          simp only [get_transition_loop, hdl, hdr, if_pos hcond, if_pos hp, if_pos hq, hleft,
            hdr1, Option.bind_eq_bind, Option.some_bind, hh]
          exact hres
        · obtain ⟨res, hres⟩ := key (Var.get_transition_trn_dat lval X[li + 1] args) rval
          refine ⟨res, ?_⟩
          simp only [get_transition_loop, hdl, hdr, if_pos hcond, if_pos hp, if_neg hq, hleft,
            Option.bind_eq_bind, Option.some_bind, hh]
          exact hres
      · by_cases hq : (ri : Int) % 2 = 1
        · obtain ⟨dr, hdr1⟩ := hright hq
          obtain ⟨res, hres⟩ := key lval (Var.get_transition_dat_trn dr rval args)
          refine ⟨res, ?_⟩
          simp only [get_transition_loop, hdl, hdr, if_pos hcond, if_neg hp, if_pos hq,
            hdr1, Option.bind_eq_bind, Option.some_bind, hh]
          exact hres
        · obtain ⟨res, hres⟩ := key lval rval
          refine ⟨res, ?_⟩
          simp only [get_transition_loop, hdl, hdr, if_pos hcond, if_neg hp, if_neg hq,
            Option.bind_eq_bind, Option.some_bind, hh]
          exact hres
    · exact ⟨(lval, rval), by simp only [get_transition_loop, hdl, hdr, if_neg hcond]⟩

theorem get_tree_of_some (Var : Variant DatTp TrnTp RetTp Args) (args : Args)
    (a : List RetTp) (li ri : Nat) (hle : li ≤ ri) (hri : ri < a.length) :
    ∃ r, get Var (tree_of Var a) (li : Int) (ri : Int) args = some r := by
  have hli : li < a.length := by omega
  have hdl : vec_at (a.map Var.update_val) (li : Int) = some (Var.update_val a[li]) := by
    rw [vec_at_natCast, List.getElem?_map, List.getElem?_eq_getElem hli]
    rfl
  have hdr : vec_at (a.map Var.update_val) (ri : Int) = some (Var.update_val a[ri]) := by
    rw [vec_at_natCast, List.getElem?_map, List.getElem?_eq_getElem hri]
    rfl
  by_cases heq : li = ri
  · subst heq
    refine ⟨_, get_point_tree_of Var args a li (Var.update_val a[li]) ?_⟩
    rw [List.getElem?_map, List.getElem?_eq_getElem hli]
    rfl
  · have hne : ¬ ((li : Int) = (ri : Int)) := by omega
    have hH := height_of_pos a.length
    have hh : ((tree_of Var a).height - 1) = ((height_of a.length - 1 : Nat) : Int) := by
      simp only [tree_of]
      omega
    obtain ⟨res, hres⟩ := get_transition_loop_some Var args (height_of a.length - 1)
      (a.map Var.update_val) [] (by simpa using le_two_pow_height_of a.length) li ri
      (by omega) (by simpa using hri) ((ri : Int).toNat + 1) (by simp)
      (Var.get_transition_dat (Var.update_val a[li]) args)
      (Var.get_transition_dat (Var.update_val a[ri]) args)
    rw [List.append_nil] at hres
    have hdata : (tree_of Var a).data =
        levels Var.update (height_of a.length - 1) (a.map Var.update_val) := rfl
    refine ⟨Var.get (Var.get_transition_trn_trn res.1 res.2 args), ?_⟩
    simp only [get, get_transition, back_tree_of, Option.bind_eq_bind, Option.some_bind]
    rw [if_neg hne, hdl, hdr]
    simp only [Option.some_bind, hh, hdata, hres, Option.map_some']

/-- The traced loop computes what the loop of `get_transition` computes, for all arguments:
it only adds the record of the level indices. -/
theorem get_transition_loop_traced_fst (Var : Variant DatTp TrnTp RetTp Args)
    (data : List (List DatTp)) (args : Args) (fuel : Nat) (h li ri : Int) (lval rval : TrnTp) :
    (get_transition_loop_traced Var data args fuel h li ri lval rval).map Prod.fst =
      get_transition_loop Var data args fuel h li ri lval rval := by
  induction fuel generalizing h li ri lval rval with
  | zero => rfl
  | succ fuel ih =>
    have step : ∀ lv rv,
        ((get_transition_loop_traced Var data args fuel (h - 1) (Int.tdiv li 2)
          (Int.tdiv ri 2) lv rv).bind (fun res => some (res.1, h :: res.2))).map Prod.fst =
        get_transition_loop Var data args fuel (h - 1) (Int.tdiv li 2) (Int.tdiv ri 2)
          lv rv := by
      intro lv rv
      rw [← ih]
      cases get_transition_loop_traced Var data args fuel (h - 1) (Int.tdiv li 2)
        (Int.tdiv ri 2) lv rv <;> rfl
    by_cases hc : Int.tdiv li 2 < Int.tdiv ri 2
    · by_cases hp : li % 2 = 0
      · by_cases hq : ri % 2 = 1
        · cases hl : mat_at data h (li + 1) with
          | none =>
            simp only [get_transition_loop_traced, get_transition_loop, if_pos hc, if_pos hp,
              if_pos hq, hl, Option.bind_eq_bind, Option.none_bind, Option.map_none']
          | some dl =>
            cases hr : mat_at data h (ri - 1) with
            | none =>
              simp only [get_transition_loop_traced, get_transition_loop, if_pos hc, if_pos hp,
                if_pos hq, hl, hr, Option.bind_eq_bind, Option.some_bind, Option.none_bind,
                Option.map_none']
            | some dr =>
              simp only [get_transition_loop_traced, get_transition_loop, if_pos hc, if_pos hp,
                if_pos hq, hl, hr, Option.bind_eq_bind, Option.some_bind]
              exact step _ _
        · cases hl : mat_at data h (li + 1) with
          | none =>
            simp only [get_transition_loop_traced, get_transition_loop, if_pos hc, if_pos hp,
              if_neg hq, hl, Option.bind_eq_bind, Option.none_bind, Option.map_none']
          | some dl =>
            simp only [get_transition_loop_traced, get_transition_loop, if_pos hc, if_pos hp,
              if_neg hq, hl, Option.bind_eq_bind, Option.some_bind]
            exact step _ _
      · by_cases hq : ri % 2 = 1
        · cases hr : mat_at data h (ri - 1) with
          | none =>
            simp only [get_transition_loop_traced, get_transition_loop, if_pos hc, if_neg hp,
              if_pos hq, hr, Option.bind_eq_bind, Option.some_bind, Option.none_bind,
              Option.map_none']
          | some dr =>
            simp only [get_transition_loop_traced, get_transition_loop, if_pos hc, if_neg hp,
              if_pos hq, hr, Option.bind_eq_bind, Option.some_bind]
            exact step _ _
        · simp only [get_transition_loop_traced, get_transition_loop, if_pos hc, if_neg hp,
            if_neg hq, Option.bind_eq_bind, Option.some_bind]
          exact step _ _
    · simp only [get_transition_loop_traced, get_transition_loop, if_neg hc, Option.map_some']

/-- On the reference model the traced loop returns, and its body runs with `h >= 1`
only. -/
theorem get_transition_loop_traced_some (Var : Variant DatTp TrnTp RetTp Args) (args : Args)
    (h : Nat) (X : List DatTp) (rest : List (List DatTp)) (hXlen : X.length ≤ 2 ^ h)
    (li ri : Nat) (hlr : li < ri) (hri : ri < X.length) (fuel : Nat) (hfuel : ri < fuel)
    (lval rval : TrnTp) :
    ∃ res, get_transition_loop_traced Var (levels Var.update h X ++ rest) args fuel (h : Int)
        (li : Int) (ri : Int) lval rval = some res ∧ ∀ x ∈ res.2, 1 ≤ x := by
  induction h generalizing X rest li ri fuel lval rval with
  | zero =>
    simp at hXlen
    omega
  | succ h ih =>
    obtain ⟨fuel, rfl⟩ : ∃ k, fuel = k + 1 := ⟨fuel - 1, by omega⟩
    have hdl : Int.tdiv (li : Int) 2 = ((li / 2 : Nat) : Int) := by norm_cast
    have hdr : Int.tdiv (ri : Int) 2 = ((ri / 2 : Nat) : Int) := by norm_cast
    by_cases hcond : ((li / 2 : Nat) : Int) < ((ri / 2 : Nat) : Int)
    · have hrow : vec_at (levels Var.update (h + 1) X ++ rest) ((h + 1 : Nat) : Int) =
          some X := by
        rw [vec_at_natCast, getElem?_levels_append]
      have hli1 : li + 1 < X.length := by omega
      have hleft : mat_at (levels Var.update (h + 1) X ++ rest) ((h + 1 : Nat) : Int)
          ((li : Int) + 1) = some X[li + 1] := by
        have e1 : (li : Int) + 1 = ((li + 1 : Nat) : Int) := by push_cast; ring
        simp only [mat_at, hrow, Option.bind_eq_bind, Option.some_bind]
        rw [e1, vec_at_natCast, List.getElem?_eq_getElem hli1]
      have hright : (ri : Int) % 2 = 1 → ∃ d,
          mat_at (levels Var.update (h + 1) X ++ rest) ((h + 1 : Nat) : Int)
            ((ri : Int) - 1) = some d := by
        intro hp
        have e1 : (ri : Int) - 1 = ((ri - 1 : Nat) : Int) := by omega
        have hri1 : ri - 1 < X.length := by omega
        refine ⟨X[ri - 1], ?_⟩
        simp only [mat_at, hrow, Option.bind_eq_bind, Option.some_bind]
        rw [e1, vec_at_natCast, List.getElem?_eq_getElem hri1]
      have hh : ((h + 1 : Nat) : Int) - 1 = (h : Int) := by push_cast; ring
      have hpos : (1 : Int) ≤ ((h + 1 : Nat) : Int) := by push_cast; omega
      have key : ∀ lv rv, ∃ res,
          (get_transition_loop_traced Var (levels Var.update (h + 1) X ++ rest) args fuel
            (h : Int) ((li / 2 : Nat) : Int) ((ri / 2 : Nat) : Int) lv rv).bind
              (fun res => some (res.1, ((h + 1 : Nat) : Int) :: res.2)) = some res ∧
            ∀ x ∈ res.2, 1 ≤ x := by
        intro lv rv
        rw [levels_succ_append]
        obtain ⟨res, h1, h2⟩ := ih (pair_up Var.update X) (X :: rest)
          (by rw [length_pair_up]; rw [pow_succ] at hXlen; omega)
          (li / 2) (ri / 2) (by omega) (by rw [length_pair_up]; omega) fuel (by omega) lv rv
        refine ⟨(res.1, ((h + 1 : Nat) : Int) :: res.2), by rw [h1]; rfl, ?_⟩
        intro x hx
        rcases List.mem_cons.mp hx with hx | hx
        · rw [hx]
          exact hpos
        · exact h2 x hx
      by_cases hp : (li : Int) % 2 = 0
      · by_cases hq : (ri : Int) % 2 = 1
        · obtain ⟨dr, hdr1⟩ := hright hq
          obtain ⟨res, hres, hb⟩ := key (Var.get_transition_trn_dat lval X[li + 1] args)
            (Var.get_transition_dat_trn dr rval args)
          refine ⟨res, ?_, hb⟩
          simp only [get_transition_loop_traced, hdl, hdr, if_pos hcond, if_pos hp, if_pos hq,
            hleft, hdr1, Option.bind_eq_bind, Option.some_bind, hh]
          exact hres
        · obtain ⟨res, hres, hb⟩ := key (Var.get_transition_trn_dat lval X[li + 1] args) rval
          refine ⟨res, ?_, hb⟩
          simp only [get_transition_loop_traced, hdl, hdr, if_pos hcond, if_pos hp, if_neg hq,
            hleft, Option.bind_eq_bind, Option.some_bind, hh]
          exact hres
      · by_cases hq : (ri : Int) % 2 = 1
        · obtain ⟨dr, hdr1⟩ := hright hq
          obtain ⟨res, hres, hb⟩ := key lval (Var.get_transition_dat_trn dr rval args)
          refine ⟨res, ?_, hb⟩
          simp only [get_transition_loop_traced, hdl, hdr, if_pos hcond, if_neg hp, if_pos hq,
            hdr1, Option.bind_eq_bind, Option.some_bind, hh]
          exact hres
        · obtain ⟨res, hres, hb⟩ := key lval rval
          refine ⟨res, ?_, hb⟩
          simp only [get_transition_loop_traced, hdl, hdr, if_pos hcond, if_neg hp, if_neg hq,
            Option.bind_eq_bind, Option.some_bind, hh]
          exact hres
    · exact ⟨((lval, rval), []), by
        simp only [get_transition_loop_traced, hdl, hdr, if_neg hcond], by simp⟩

/-- On the tree of the reference model the loop of `get_transition` returns from the call
that `get(li, ri)` makes, and its body runs with `h >= 1` only. -/
theorem get_transition_loop_traced_tree_of (Var : Variant DatTp TrnTp RetTp Args)
    (args : Args) (a : List RetTp) (li ri : Nat) (hle : li ≤ ri) (hri : ri < a.length)
    (lval rval : TrnTp) :
    ∃ res, get_transition_loop_traced Var (tree_of Var a).data args ((ri : Int).toNat + 1)
        ((tree_of Var a).height - 1) (li : Int) (ri : Int) lval rval = some res ∧
      get_transition_loop Var (tree_of Var a).data args ((ri : Int).toNat + 1)
        ((tree_of Var a).height - 1) (li : Int) (ri : Int) lval rval = some res.1 ∧
      ∀ x ∈ res.2, 1 ≤ x := by
  have main : ∃ res, get_transition_loop_traced Var (tree_of Var a).data args
      ((ri : Int).toNat + 1) ((tree_of Var a).height - 1) (li : Int) (ri : Int) lval rval =
        some res ∧ ∀ x ∈ res.2, 1 ≤ x := by
    by_cases heq : li = ri
    · subst heq
      refine ⟨((lval, rval), []), ?_, by simp⟩
      simp only [get_transition_loop_traced, lt_irrefl, if_false]
    · have hH := height_of_pos a.length
      have hh : ((tree_of Var a).height - 1) = ((height_of a.length - 1 : Nat) : Int) := by
        simp only [tree_of]
        omega
      have hdata : (tree_of Var a).data =
          levels Var.update (height_of a.length - 1) (a.map Var.update_val) := rfl
      have := get_transition_loop_traced_some Var args (height_of a.length - 1)
        (a.map Var.update_val) [] (by simpa using le_two_pow_height_of a.length) li ri
        (by omega) (by simpa using hri) ((ri : Int).toNat + 1) (by simp) lval rval
      rw [List.append_nil] at this
      rw [hh, hdata]
      exact this
  obtain ⟨res, h1, h2⟩ := main
  refine ⟨res, h1, ?_, h2⟩
  rw [← get_transition_loop_traced_fst, h1]
  rfl

end engine_lemmas

/-! ## The claims -/

section claims

variable {DatTp TrnTp RetTp Args : Type}

/-- C1: for every policy meeting the policy contract (combine associative, extract and the
mixed merges agreeing with combine), every sequence `a` of fewer than `INT_MAX = 2^31 - 1`
elements (the lengths on which the constructor builds a tree) and every
`0 <= li <= ri < size`, `get(li, ri)` on the tree constructed from `a` returns `Var::get`
(finalize) of the left-to-right fold, by merge in index order, of `extract(leaf(a[k]))` for
`k = li..ri`. -/
theorem C1_get_eq_fold (Var : Variant DatTp TrnTp RetTp Args) [Inhabited DatTp] (args : Args)
    (hc : Contract Var args) (a : List RetTp) (li ri : Nat) (hn : a.length < 2 ^ 31 - 1)
    (hle : li ≤ ri) (hri : ri < a.length) :
    (construct Var a).bind (fun t => get Var t (li : Int) (ri : Int) args) =
      some (Var.get (fold_merge Var args (a.get ⟨li, lt_of_le_of_lt hle hri⟩)
        (slice a (li + 1) (ri + 1)))) := by
  rw [get_construct Var args _ _ _
    (contract_sound Var args hc
      (Var.get_transition_dat (Var.update_val (a.get ⟨li, lt_of_le_of_lt hle hri⟩)) args))
    a li ri hn hle hri trivial, slice_cons a li ri hle (lt_of_le_of_lt hle hri)]
  rfl

/-- Witness of C1: the sum policy (over the integers and at every `w`-bit element type) and
the max-subarray-sum policy (over the integers) meet the contract; `[2, -1, 3, -4, 5]`,
`get(0, 4)`. -/
theorem C1_get_eq_fold_witness :
    Contract sum () ∧ (∀ w, Contract (sum_tp w) ()) ∧ Contract max_subarray_sum () ∧
      (construct sum [2, -1, 3, -4, 5]).bind
          (fun t => get sum t ((0 : Nat) : Int) ((4 : Nat) : Int) ()) =
        some (sum.get (fold_merge sum () (([2, -1, 3, -4, 5] : List Int).get ⟨0, by decide⟩)
          (slice [2, -1, 3, -4, 5] (0 + 1) (4 + 1)))) ∧
      (construct max_subarray_sum [2, -1, 3, -4, 5]).bind
          (fun t => get max_subarray_sum t ((0 : Nat) : Int) ((4 : Nat) : Int) ()) =
        some (max_subarray_sum.get (fold_merge max_subarray_sum ()
          (([2, -1, 3, -4, 5] : List Int).get ⟨0, by decide⟩)
          (slice [2, -1, 3, -4, 5] (0 + 1) (4 + 1)))) :=
  ⟨sum_contract, sum_tp_contract, max_subarray_sum_contract,
    C1_get_eq_fold sum () sum_contract [2, -1, 3, -4, 5] 0 4 (by decide) (by decide)
      (by decide),
    C1_get_eq_fold max_subarray_sum () max_subarray_sum_contract [2, -1, 3, -4, 5] 0 4
      (by decide) (by decide) (by decide)⟩

/-- C2: for the sum policy at a signed integer type `Tp` of `w` bits, every sequence `a` of
fewer than `INT_MAX` elements and every `0 <= li <= ri < size`, `get(li, ri)` on the tree
constructed from `a` returns `a[li] + a[li+1] + ... + a[ri]` as `Tp` computes it, that is
the sum brought into the range of `Tp` modulo `2^w`; it is the sum itself whenever the sum
is a value of `Tp`. -/
theorem C2_sum_get_eq_range_sum (w : Nat) (a : List Int) (li ri : Nat)
    (hn : a.length < 2 ^ 31 - 1) (hle : li ≤ ri) (hri : ri < a.length) :
    (construct (sum_tp w) a).bind (fun t => get (sum_tp w) t (li : Int) (ri : Int) ()) =
        some (wrap w (slice a li (ri + 1)).sum) ∧
      (fits w (slice a li (ri + 1)).sum →
        (construct (sum_tp w) a).bind (fun t => get (sum_tp w) t (li : Int) (ri : Int) ()) =
          some (slice a li (ri + 1)).sum) := by
  have h := get_construct (sum_tp w) () _ _ _ (sum_tp_sound w) a li ri hn hle hri trivial
  refine ⟨h, fun hf => ?_⟩
  rw [h]
  exact congrArg some (wrap_of_fits w _ hf)

/-- Witness of C2, with `Tp = long long`: on `[2, -1, 3, -4, 5]`, `get(1, 3)` is
`-1 + 3 + -4 = -2`; on `[9223372036854775807, 1]` the sum `2^63` is no value of `Tp` and
`get(0, 1)` is `-2^63`. -/
theorem C2_sum_get_eq_range_sum_witness :
    ((construct (sum_tp 64) [2, -1, 3, -4, 5]).bind
          (fun t => get (sum_tp 64) t ((1 : Nat) : Int) ((3 : Nat) : Int) ()) =
        some (wrap 64 (slice [2, -1, 3, -4, 5] 1 (3 + 1)).sum) ∧
      (fits 64 (slice [2, -1, 3, -4, 5] 1 (3 + 1)).sum →
        (construct (sum_tp 64) [2, -1, 3, -4, 5]).bind
            (fun t => get (sum_tp 64) t ((1 : Nat) : Int) ((3 : Nat) : Int) ()) =
          some (slice [2, -1, 3, -4, 5] 1 (3 + 1)).sum)) ∧
      (construct (sum_tp 64) [2, -1, 3, -4, 5]).bind
          (fun t => get (sum_tp 64) t 1 3 ()) = some (-2) ∧
      (construct (sum_tp 64) [9223372036854775807, 1]).bind
          (fun t => get (sum_tp 64) t 0 1 ()) = some (-9223372036854775808) :=
  ⟨C2_sum_get_eq_range_sum 64 [2, -1, 3, -4, 5] 1 3 (by decide) (by decide) (by decide),
    by decide, by decide⟩

/-- C3: for the max-subarray-sum policy at a signed integer type `Tp` of `w` bits, every
sequence `a` of fewer than `INT_MAX` elements and every `0 <= li <= ri < size` such that no
sum of a contiguous part of `a[li..ri]` overflows `Tp`, `get(li, ri)` on the tree
constructed from `a` returns the maximum, over all non-empty contiguous subarrays of
`a[li..ri]`, of the subarray's sum; when every element of `a[li..ri]` is negative this is
the largest single element (a negative number, not zero). -/
theorem C3_max_subarray_sum_get (w : Nat) (a : List Int) (li ri : Nat)
    (hn : a.length < 2 ^ 31 - 1) (hle : li ≤ ri) (hri : ri < a.length)
    (hov : no_overflow w (slice a li (ri + 1))) :
    ∃ m : Int,
      (construct (max_subarray_sum_tp w) a).bind
          (fun t => get (max_subarray_sum_tp w) t (li : Int) (ri : Int) ()) = some m ∧
        IsGreatest {x | ∃ sub, sub ≠ [] ∧ sub <:+: slice a li (ri + 1) ∧ x = sub.sum} m ∧
        ((∀ v ∈ slice a li (ri + 1), v < 0) →
          IsGreatest {x | x ∈ slice a li (ri + 1)} m ∧ m < 0) := by
  obtain ⟨m, h1, h2⟩ := max_subarray_sum_get_construct w a li ri hn hle hri hov
  exact ⟨m, h1, h2, fun hneg => best_of_all_negative _ m h2 hneg⟩

/-- Witness of C3, with `Tp = int`: on `[2, -1, 3, -4, 5]`, `get(0, 4) = 5` and
`get(0, 2) = 4`; on the all-negative `[-3, -1, -2]`, `get(0, 2) = -1`. -/
theorem C3_max_subarray_sum_get_witness :
    (∃ m : Int,
      (construct (max_subarray_sum_tp 32) [2, -1, 3, -4, 5]).bind
          (fun t => get (max_subarray_sum_tp 32) t ((0 : Nat) : Int) ((4 : Nat) : Int) ()) =
        some m ∧
        IsGreatest {x | ∃ sub, sub ≠ [] ∧ sub <:+: slice [2, -1, 3, -4, 5] 0 (4 + 1) ∧
          x = sub.sum} m ∧
        ((∀ v ∈ slice ([2, -1, 3, -4, 5] : List Int) 0 (4 + 1), v < 0) →
          IsGreatest {x | x ∈ slice ([2, -1, 3, -4, 5] : List Int) 0 (4 + 1)} m ∧ m < 0)) ∧
      (construct (max_subarray_sum_tp 32) [2, -1, 3, -4, 5]).bind
          (fun t => get (max_subarray_sum_tp 32) t 0 4 ()) = some 5 ∧
      (construct (max_subarray_sum_tp 32) [2, -1, 3, -4, 5]).bind
          (fun t => get (max_subarray_sum_tp 32) t 0 2 ()) = some 4 ∧
      (construct (max_subarray_sum_tp 32) [-3, -1, -2]).bind
          (fun t => get (max_subarray_sum_tp 32) t 0 2 ()) = some (-1) :=
  ⟨C3_max_subarray_sum_get 32 [2, -1, 3, -4, 5] 0 4 (by decide) (by decide) (by decide)
      (no_overflow_of_bounds 32 _ 5 (by decide) (by decide)),
    by decide, by decide, by decide⟩

/-- C4: for the in-range-count policy, every integer sequence `a` of fewer than `INT_MAX`
elements, every `0 <= li <= ri < size` and all bounds `l`, `r`, `get(li, ri, l, r)` on the
tree constructed from `a` returns the number of indices `k` in `[li, ri]` with
`l <= a[k] <= r`; with `l > r` this count is `0`. -/
theorem C4_in_range_count_get (a : List Int) (li ri : Nat) (l r : Int)
    (hn : a.length < 2 ^ 31 - 1) (hle : li ≤ ri) (hri : ri < a.length) :
    (construct in_range_count a).bind
          (fun t => get in_range_count t (li : Int) (ri : Int) (l, r)) =
        some (((slice a li (ri + 1)).countP (fun x => decide (l ≤ x ∧ x ≤ r)) : Nat) : Int) ∧
      (r < l → (construct in_range_count a).bind
          (fun t => get in_range_count t (li : Int) (ri : Int) (l, r)) = some 0) := by
  have h := get_construct in_range_count (l, r) _ _ _ (in_range_count_sound l r) a li ri hn
    hle hri trivial
  refine ⟨h, fun hlr => ?_⟩
  rw [h, count_empty_range _ l r hlr]
  rfl

/-- Witness of C4: on `[2, -1, 3, -4, 5, 7, 1]`, `get(1, 5, -1, 5)` counts `-1, 3, 5`. -/
theorem C4_in_range_count_get_witness :
    ((construct in_range_count [2, -1, 3, -4, 5, 7, 1]).bind
          (fun t => get in_range_count t ((1 : Nat) : Int) ((5 : Nat) : Int) (-1, 5)) =
        some (((slice [2, -1, 3, -4, 5, 7, 1] 1 (5 + 1)).countP
          (fun x => decide ((-1 : Int) ≤ x ∧ x ≤ 5)) : Nat) : Int) ∧
      ((5 : Int) < -1 → (construct in_range_count [2, -1, 3, -4, 5, 7, 1]).bind
          (fun t => get in_range_count t ((1 : Nat) : Int) ((5 : Nat) : Int) (-1, 5)) =
        some 0)) ∧
      (construct in_range_count [2, -1, 3, -4, 5, 7, 1]).bind
          (fun t => get in_range_count t 1 5 (-1, 5)) = some 3 :=
  ⟨C4_in_range_count_get [2, -1, 3, -4, 5, 7, 1] 1 5 (-1) 5 (by decide) (by decide)
    (by decide), by decide⟩

/-- C5: for a sequence `a` of fewer than `INT_MAX` elements, a valid index `i` and any value
`v`, `update(i, v)` on the tree constructed from `a` returns the very tree (size, height and all level arrays) that the constructor builds
from `a` with element `i` replaced by `v`; hence every later query, the full-range query
included, answers as on the tree recomputed from scratch. -/
theorem C5_update_eq_reconstruction (Var : Variant DatTp TrnTp RetTp Args) [Inhabited DatTp]
    (a : List RetTp) (i : Nat) (v : RetTp) (hn : a.length < 2 ^ 31 - 1) (hi : i < a.length) :
    ∃ t2 : segment_tree DatTp,
      (construct Var a).bind (fun t => update Var t (i : Int) v) = some t2 ∧
      construct Var (a.set i v) = some t2 ∧
      ∀ (li ri : Int) (args : Args),
        ((construct Var a).bind (fun t => update Var t (i : Int) v)).bind
            (fun t => get Var t li ri args) =
          (construct Var (a.set i v)).bind (fun t => get Var t li ri args) := by
  have h1 : (construct Var a).bind (fun t => update Var t (i : Int) v) =
      some (tree_of Var (a.set i v)) := by
    rw [construct_eq Var a hn, Option.some_bind, update_tree_of Var a i v hi (by omega)]
  have h2 : construct Var (a.set i v) = some (tree_of Var (a.set i v)) :=
    construct_eq Var _ (by simpa using hn)
  exact ⟨_, h1, h2, fun li ri args => by rw [h1, h2]⟩

/-- Witness of C5: the sum tree of `[2, -1, 3, -4, 5]`, `update(1, 10)`. -/
theorem C5_update_eq_reconstruction_witness :
    ∃ t2 : segment_tree Int,
      (construct sum [2, -1, 3, -4, 5]).bind (fun t => update sum t ((1 : Nat) : Int) 10) =
        some t2 ∧
      construct sum (([2, -1, 3, -4, 5] : List Int).set 1 10) = some t2 ∧
      ∀ (li ri : Int) (args : Unit),
        ((construct sum [2, -1, 3, -4, 5]).bind
            (fun t => update sum t ((1 : Nat) : Int) 10)).bind
            (fun t => get sum t li ri args) =
          (construct sum (([2, -1, 3, -4, 5] : List Int).set 1 10)).bind
            (fun t => get sum t li ri args) :=
  C5_update_eq_reconstruction sum [2, -1, 3, -4, 5] 1 10 (by decide) (by decide)

/-- C6: on every tree the engine can produce and for every index `0 <= i < size`,
`update(i, v)` followed by `get(i, i)` returns
`Var::get(Var::get_transition(Var::update(v)))`, that is finalize of extract of the leaf
of `v`; for the sum policy this value is `v`. -/
theorem C6_update_then_get_single (Var : Variant DatTp TrnTp RetTp Args) [Inhabited DatTp]
    (args : Args) (t : segment_tree DatTp) (ht : Reachable Var t) (i : Int) (v : RetTp)
    (h0 : 0 ≤ i) (h1 : i < t.size) :
    (update Var t i v).bind (fun t2 => get Var t2 i i args) =
        some (Var.get (Var.get_transition_dat (Var.update_val v) args)) ∧
      ∀ w : Int, sum.get (sum.get_transition_dat (sum.update_val w) ()) = w := by
  obtain ⟨a, hn, rfl⟩ := reachable_eq_tree_of Var t ht
  obtain ⟨k, rfl⟩ : ∃ k : Nat, i = (k : Int) := ⟨i.toNat, by omega⟩
  have hk : k < a.length := by
    have : ((k : Nat) : Int) < (a.length : Int) := h1
    omega
  constructor
  · rw [update_tree_of Var a k v hk hn, Option.some_bind]
    apply get_point_tree_of
    rw [List.getElem?_map, List.getElem?_set_self hk]
    rfl
  · intro w
    simp [sum]

/-- Witness of C6: the sum tree of `[2, -1, 3, -4, 5]`, `update(1, 10)` then `get(1, 1)`. -/
theorem C6_update_then_get_single_witness :
    ((update sum ⟨5, 4, [[5], [0, 5], [1, -1, 5], [2, -1, 3, -4, 5]]⟩ 1 10).bind
          (fun t2 => get sum t2 1 1 ()) =
        some (sum.get (sum.get_transition_dat (sum.update_val 10) ())) ∧
      ∀ w : Int, sum.get (sum.get_transition_dat (sum.update_val w) ()) = w) ∧
    (update sum ⟨5, 4, [[5], [0, 5], [1, -1, 5], [2, -1, 3, -4, 5]]⟩ 1 10).bind
      (fun t2 => get sum t2 1 1 ()) = some 10 :=
  ⟨C6_update_then_get_single sum () ⟨5, 4, [[5], [0, 5], [1, -1, 5], [2, -1, 3, -4, 5]]⟩
    (Reachable.built [2, -1, 3, -4, 5] _ (by decide) (by decide)) 1 10 (by decide) (by decide),
    by decide⟩

/-- C7: after construction from any sequence `a` of fewer than `INT_MAX` elements, the last
level holds the leaf datum of `a[k]` at index `k`, and every node `(h, i)` above the leaf
level has its child `2i` one level below and obeys the level invariant: when both children
`2i` and `2i + 1` exist it is their combine `Var::update(left, right)`, and when only `2i`
exists it is a copy of that child. -/
theorem C7_level_invariant (Var : Variant DatTp TrnTp RetTp Args) [Inhabited DatTp]
    (a : List RetTp) (hn : a.length < 2 ^ 31 - 1) :
    ∃ t : segment_tree DatTp, construct Var a = some t ∧
      vec_at t.data (t.height - 1) = some (a.map Var.update_val) ∧
      (∀ (h i : Nat) (x y : DatTp), (h : Int) + 1 < t.height →
        mat_at t.data ((h : Int) + 1) ((2 * i : Nat) : Int) = some x →
        mat_at t.data ((h : Int) + 1) ((2 * i + 1 : Nat) : Int) = some y →
        mat_at t.data h i = some (Var.update x y)) ∧
      (∀ (h i : Nat) (x : DatTp), (h : Int) + 1 < t.height →
        mat_at t.data ((h : Int) + 1) ((2 * i : Nat) : Int) = some x →
        mat_at t.data ((h : Int) + 1) ((2 * i + 1 : Nat) : Int) = none →
        mat_at t.data h i = some x) ∧
      (∀ (h i : Nat) (d : DatTp), (h : Int) + 1 < t.height →
        mat_at t.data h i = some d →
        ∃ x, mat_at t.data ((h : Int) + 1) ((2 * i : Nat) : Int) = some x) := by
  have hH := height_of_pos a.length
  have hlev : ∀ h : Nat, (h : Int) + 1 < (tree_of Var a).height →
      ∃ Y, (∀ j : Nat, mat_at (tree_of Var a).data ((h : Int) + 1) (j : Int) = Y[j]?) ∧
        ∀ j : Nat, mat_at (tree_of Var a).data (h : Int) (j : Int) =
          (pair_up Var.update Y)[j]? := by
    intro h hh
    have hh2 : h < height_of a.length - 1 := by
      simp only [tree_of] at hh
      omega
    obtain ⟨Y, h1, h2⟩ := getElem?_levels_succ Var.update (height_of a.length - 1)
      (a.map Var.update_val) h hh2
    have e : (h : Int) + 1 = ((h + 1 : Nat) : Int) := by push_cast; ring
    refine ⟨Y, ?_, ?_⟩
    · intro j
      rw [e, mat_at_natCast]
      simp only [tree_of, h1, Option.some_bind]
    · intro j
      rw [mat_at_natCast]
      simp only [tree_of, h2, Option.some_bind]
  refine ⟨tree_of Var a, construct_eq Var a hn, ?_, ?_, ?_, ?_⟩
  · have e : (tree_of Var a).height - 1 = ((height_of a.length - 1 : Nat) : Int) := by
      simp only [tree_of]
      omega
    rw [e, vec_at_natCast]
    simpa [tree_of] using
      getElem?_levels_append Var.update (height_of a.length - 1) (a.map Var.update_val) []
  · intro h i x y hh hx hy
    obtain ⟨Y, h1, h2⟩ := hlev h hh
    rw [h1] at hx hy
    rw [h2, getElem?_pair_up, hx, hy]
  · intro h i x hh hx hy
    obtain ⟨Y, h1, h2⟩ := hlev h hh
    rw [h1] at hx hy
    rw [h2, getElem?_pair_up, hx, hy]
  · intro h i d hh hd
    obtain ⟨Y, h1, h2⟩ := hlev h hh
    rw [h2, getElem?_pair_up] at hd
    rw [h1]
    cases hx : Y[2 * i]? with
    | none => simp [hx] at hd
    | some x => exact ⟨x, rfl⟩

/-- Witness of C7: the sum tree of `[2, -1, 3, -4, 5]`. -/
theorem C7_level_invariant_witness :
    ∃ t : segment_tree Int, construct sum [2, -1, 3, -4, 5] = some t ∧
      vec_at t.data (t.height - 1) = some (([2, -1, 3, -4, 5] : List Int).map sum.update_val) ∧
      (∀ (h i : Nat) (x y : Int), (h : Int) + 1 < t.height →
        mat_at t.data ((h : Int) + 1) ((2 * i : Nat) : Int) = some x →
        mat_at t.data ((h : Int) + 1) ((2 * i + 1 : Nat) : Int) = some y →
        mat_at t.data h i = some (sum.update x y)) ∧
      (∀ (h i : Nat) (x : Int), (h : Int) + 1 < t.height →
        mat_at t.data ((h : Int) + 1) ((2 * i : Nat) : Int) = some x →
        mat_at t.data ((h : Int) + 1) ((2 * i + 1 : Nat) : Int) = none →
        mat_at t.data h i = some x) ∧
      (∀ (h i : Nat) (d : Int), (h : Int) + 1 < t.height →
        mat_at t.data h i = some d →
        ∃ x, mat_at t.data ((h : Int) + 1) ((2 * i : Nat) : Int) = some x) :=
  C7_level_invariant sum [2, -1, 3, -4, 5] (by decide)

/-- C8, as stated, fails at `n = 2^31 - 1`, a length below `2^31`: `size` is `INT_MAX`,
`height` is `33 - clz(2^31 - 2) = 32`, and the first pass of the level loop evaluates
`mask + 1` at `mask = INT_MAX`, a signed overflow; the constructor has no defined outcome
and builds no tree. -/
theorem C8_counterexample :
    (List.replicate (2 ^ 31 - 1) (0 : Int)).length < 2 ^ 31 ∧
      int_succ (List.replicate (2 ^ 31 - 1) (0 : Int)).length = none ∧
      construct sum (List.replicate (2 ^ 31 - 1) (0 : Int)) = none := by
  have hl : (List.replicate (2 ^ 31 - 1) (0 : Int)).length = 2 ^ 31 - 1 :=
    List.length_replicate _ _
  refine ⟨?_, ?_, construct_none_max sum _ hl⟩
  · rw [hl]
    decide
  · rw [hl]
    decide

/-- C8, amended: for an input of length `n < 2^31 - 1` the constructor returns a tree of that
size whose height is `1` when `n <= 1` and `ceil(log2 n) + 1` otherwise, the value
`33 - clz(n - 1)` of the source; it has `height` levels, level `h` holds exactly
`ceil(n / 2^(height - 1 - h))` data, the top level of a tree over more than one element
is a single node, and a single-element sequence gives height `1`. -/
theorem C8_height_and_level_sizes (Var : Variant DatTp TrnTp RetTp Args) [Inhabited DatTp]
    (a : List RetTp) (hn : a.length < 2 ^ 31 - 1) :
    ∃ t : segment_tree DatTp, construct Var a = some t ∧
      t.size = (a.length : Int) ∧
      t.height = ((if a.length ≤ 1 then 1 else Nat.clog 2 a.length + 1 : Nat) : Int) ∧
      (1 < a.length → t.height = 33 - (builtin_clz (a.length - 1) : Int)) ∧
      (t.data.length : Int) = t.height ∧
      (∀ h : Nat, (h : Int) < t.height → ∃ row, vec_at t.data h = some row ∧
        row.length = ⌈(a.length : ℚ) / 2 ^ (t.height.toNat - 1 - h)⌉₊) ∧
      (1 < a.length → ∃ top, vec_at t.data 0 = some [top]) ∧
      (a.length = 1 → t.height = 1) := by
  have hH := height_of_pos a.length
  have hrows : ∀ h : Nat, h < height_of a.length → ∃ row,
      vec_at (tree_of Var a).data h = some row ∧
        row.length = (a.length + 2 ^ (height_of a.length - 1 - h) - 1) /
          2 ^ (height_of a.length - 1 - h) := by
    intro h hh
    have hlt : h < (levels Var.update (height_of a.length - 1) (a.map Var.update_val)).length := by
      rw [length_levels]
      omega
    refine ⟨(levels Var.update (height_of a.length - 1) (a.map Var.update_val))[h], ?_, ?_⟩
    · rw [vec_at_natCast]
      exact List.getElem?_eq_getElem hlt
    · have := length_getElem?_levels Var.update _ _ h _ (List.getElem?_eq_getElem hlt)
      simpa using this
  refine ⟨tree_of Var a, construct_eq Var a hn, rfl, ?_, ?_, ?_, ?_, ?_, ?_⟩
  · simp only [tree_of, height_of]
    by_cases h1 : 1 < a.length
    · rw [if_pos h1, if_neg (by omega), size_pred_eq_clog _ h1]
    · rw [if_neg h1, if_pos (by omega)]
  · intro h1
    have hc := builtin_clz_eq (a.length - 1) (by omega)
    simp only [tree_of, height_of, if_pos h1]
    omega
  · simp only [tree_of, length_levels]
    omega
  · intro h hh
    have hh2 : h < height_of a.length := by
      simp only [tree_of] at hh
      omega
    obtain ⟨row, h1, h2⟩ := hrows h hh2
    refine ⟨row, h1, ?_⟩
    have e : (tree_of Var a).height.toNat = height_of a.length := by simp [tree_of]
    have hc := ceil_div_eq a.length (2 ^ (height_of a.length - 1 - h)) (by positivity)
    rw [e, h2, ← hc]
    push_cast
    rfl
  · intro h1
    obtain ⟨row, hr1, hr2⟩ := hrows 0 (by omega)
    have hle := le_two_pow_height_of a.length
    have hlen : row.length = 1 := by
      rw [hr2, Nat.sub_zero]
      generalize 2 ^ (height_of a.length - 1) = p at hle ⊢
      have hp : 0 < p := by omega
      apply Nat.div_eq_of_lt_le
      · omega
      · omega
    obtain ⟨top, rfl⟩ := List.length_eq_one.mp hlen
    exact ⟨top, hr1⟩
  · intro h1
    simp [tree_of, height_of, h1]

/-- Witness of C8 amended: the sum tree of `[2, -1, 3, -4, 5]`. -/
theorem C8_height_and_level_sizes_witness :
    ∃ t : segment_tree Int, construct sum [2, -1, 3, -4, 5] = some t ∧
      t.size = (([2, -1, 3, -4, 5] : List Int).length : Int) ∧
      t.height = ((if ([2, -1, 3, -4, 5] : List Int).length ≤ 1 then 1
        else Nat.clog 2 ([2, -1, 3, -4, 5] : List Int).length + 1 : Nat) : Int) ∧
      (1 < ([2, -1, 3, -4, 5] : List Int).length →
        t.height = 33 - (builtin_clz (([2, -1, 3, -4, 5] : List Int).length - 1) : Int)) ∧
      (t.data.length : Int) = t.height ∧
      (∀ h : Nat, (h : Int) < t.height → ∃ row, vec_at t.data h = some row ∧
        row.length =
          ⌈(([2, -1, 3, -4, 5] : List Int).length : ℚ) / 2 ^ (t.height.toNat - 1 - h)⌉₊) ∧
      (1 < ([2, -1, 3, -4, 5] : List Int).length → ∃ top, vec_at t.data 0 = some [top]) ∧
      (([2, -1, 3, -4, 5] : List Int).length = 1 → t.height = 1) :=
  C8_height_and_level_sizes sum [2, -1, 3, -4, 5] (by decide)

/-- C9, as stated, fails: on the sum tree of `[1, 2, 3]` the call `get(2, 0)` (both indices
inside `[0, 3)`, `li > ri`) returns the value `4 = a[2] + a[0]`; it does not fail. -/
theorem C9_counterexample :
    (construct sum [1, 2, 3]).bind (fun t => get sum t 2 0 ()) = some 4 ∧
      (construct sum [1, 2, 3]).bind (fun t => get sum t 2 0 ()) ≠ none := by
  decide

/-- C9, amended: `get` has no range check.  On every tree the engine can produce and for
indices `0 <= ri < li < size`, the `for` loop of `get_transition` is not entered and
`get(li, ri)` returns `Var::get` of the transition-combine of the two end leaves, taken in
the order `(li, ri)`. -/
theorem C9_get_reversed_returns (Var : Variant DatTp TrnTp RetTp Args) [Inhabited DatTp]
    (args : Args) (t : segment_tree DatTp) (ht : Reachable Var t) (li ri : Int)
    (h0 : 0 ≤ ri) (h1 : ri < li) (h2 : li < t.size) :
    ∃ leaves dl dr, back t.data = some leaves ∧ vec_at leaves li = some dl ∧
      vec_at leaves ri = some dr ∧
      get Var t li ri args =
        some (Var.get (Var.get_transition_trn_trn (Var.get_transition_dat dl args)
          (Var.get_transition_dat dr args) args)) := by
  obtain ⟨a, hn, rfl⟩ := reachable_eq_tree_of Var t ht
  obtain ⟨l, rfl⟩ : ∃ k : Nat, li = (k : Int) := ⟨li.toNat, by omega⟩
  obtain ⟨r, rfl⟩ : ∃ k : Nat, ri = (k : Int) := ⟨ri.toNat, by omega⟩
  have hl : l < (a.map Var.update_val).length := by
    have : ((l : Nat) : Int) < (a.length : Int) := h2
    simp only [List.length_map]
    omega
  have hr : r < (a.map Var.update_val).length := by omega
  refine ⟨_, (a.map Var.update_val)[l], (a.map Var.update_val)[r], back_tree_of Var a,
    ?_, ?_, ?_⟩
  · rw [vec_at_natCast]
    exact List.getElem?_eq_getElem hl
  · rw [vec_at_natCast]
    exact List.getElem?_eq_getElem hr
  · exact get_reversed_tree_of Var args a l r (by omega) _ _ (List.getElem?_eq_getElem hl)
      (List.getElem?_eq_getElem hr)

/-- Witness of C9 amended: the sum tree of `[1, 2, 3]`, `get(2, 0)`. -/
theorem C9_get_reversed_returns_witness :
    ∃ leaves dl dr, back (segment_tree.mk 3 3 [[6], [3, 3], [1, 2, 3]]).data = some leaves ∧
      vec_at leaves 2 = some dl ∧ vec_at leaves 0 = some dr ∧
      get sum (segment_tree.mk 3 3 [[6], [3, 3], [1, 2, 3]]) 2 0 () =
        some (sum.get (sum.get_transition_trn_trn (sum.get_transition_dat dl ())
          (sum.get_transition_dat dr ()) ())) :=
  C9_get_reversed_returns sum () (segment_tree.mk 3 3 [[6], [3, 3], [1, 2, 3]])
    (Reachable.built [1, 2, 3] _ (by decide) (by decide)) 2 0 (by decide) (by decide)
    (by decide)

/-- C10, as stated, fails: on the sum tree of `[1, 2, 3]` (level arrays `[[6], [3, 3],
[1, 2, 3]]`) the call `update(3, 10)` is not rejected.  Its first statement writes
`data.back()[3]`, outside the leaf array of size 3, so the call has no defined outcome; and
the loop that the code runs next on the level arrays overwrites `data[1][1]` (3 becomes 13)
and `data[0][0]` (6 becomes 16). -/
theorem C10_counterexample :
    construct sum [1, 2, 3] = some (segment_tree.mk 3 3 [[6], [3, 3], [1, 2, 3]]) ∧
      update sum (segment_tree.mk 3 3 [[6], [3, 3], [1, 2, 3]]) 3 10 = none ∧
      update_loop sum 2 3 (sum.update_val 10) [[6], [3, 3], [1, 2, 3]] =
        some [[16], [3, 13], [1, 2, 3]] := by
  decide

/-- C10, amended: `update` has no bounds check and no `OutOfRange` error.  On every tree the
engine can produce and for every index `i` outside `[0, size)`, the first statement
`data.back()[i] = cval` is a write outside the leaf array, so the call has no defined
outcome (`none`); `0 <= i < size` is a precondition left to the caller. -/
theorem C10_update_outside_unchecked (Var : Variant DatTp TrnTp RetTp Args) [Inhabited DatTp]
    (t : segment_tree DatTp) (ht : Reachable Var t) (i : Int) (v : RetTp)
    (hi : i < 0 ∨ t.size ≤ i) :
    ∃ leaves, back t.data = some leaves ∧ vec_put leaves i (Var.update_val v) = none ∧
      update Var t i v = none := by
  obtain ⟨a, hn, rfl⟩ := reachable_eq_tree_of Var t ht
  refine ⟨_, back_tree_of Var a, ?_, update_tree_of_none Var a i v hi⟩
  rcases hi with h | h
  · exact vec_put_neg _ _ _ h
  · exact vec_put_ge _ _ _ (by simpa [tree_of] using h)

/-- Witness of C10 amended: the sum tree of `[1, 2, 3]`, `update(3, 10)`. -/
theorem C10_update_outside_unchecked_witness :
    ∃ leaves, back (segment_tree.mk 3 3 [[6], [3, 3], [1, 2, 3]]).data = some leaves ∧
      vec_put leaves 3 (sum.update_val 10) = none ∧
      update sum (segment_tree.mk 3 3 [[6], [3, 3], [1, 2, 3]]) 3 10 = none :=
  C10_update_outside_unchecked sum (segment_tree.mk 3 3 [[6], [3, 3], [1, 2, 3]])
    (Reachable.built [1, 2, 3] _ (by decide) (by decide)) 3 10 (Or.inr (by decide))

/-- C11, as stated, fails: on the sum tree of `[2, -1, 3, -4, 5]`, after `update(1, 10)` the
query `get(0, 4)` does not return `19`. -/
theorem C11_counterexample :
    (construct sum [2, -1, 3, -4, 5]).bind
        (fun t => (update sum t 1 10).bind (fun t2 => get sum t2 0 4 ())) ≠ some 19 := by
  decide

/-- C11, amended: on the sum tree of `[2, -1, 3, -4, 5]` the query `get(0, 4)` returns `5`,
and after `update(1, 10)` it returns `16 = 2 + 10 + 3 - 4 + 5`. -/
theorem C11_update_then_full_range :
    (construct sum [2, -1, 3, -4, 5]).bind (fun t => get sum t 0 4 ()) = some 5 ∧
      (construct sum [2, -1, 3, -4, 5]).bind
        (fun t => (update sum t 1 10).bind (fun t2 => get sum t2 0 4 ())) = some 16 := by
  decide

/-- C12: for the in-range-count policy, every tree constructed from a sequence of fewer than
`INT_MAX` elements, every `0 <= li <= ri < size` and all bounds with `l2 <= l` and `r <= r2`, both queries return
and `get(li, ri, l2, r2) >= get(li, ri, l, r)`: the result does not decrease as the value
range widens. -/
theorem C12_in_range_count_monotone (a : List Int) (li ri : Nat) (l r l2 r2 : Int)
    (hn : a.length < 2 ^ 31 - 1) (hle : li ≤ ri) (hri : ri < a.length) (hl : l2 ≤ l)
    (hr : r ≤ r2) :
    ∃ c c2 : Int,
      (construct in_range_count a).bind
          (fun t => get in_range_count t (li : Int) (ri : Int) (l, r)) = some c ∧
        (construct in_range_count a).bind
          (fun t => get in_range_count t (li : Int) (ri : Int) (l2, r2)) = some c2 ∧
        c ≤ c2 := by
  refine ⟨_, _, get_construct in_range_count (l, r) _ _ _ (in_range_count_sound l r) a li ri
    hn hle hri trivial, get_construct in_range_count (l2, r2) _ _ _
    (in_range_count_sound l2 r2) a li ri hn hle hri trivial, ?_⟩
  simp only [in_range_count]
  have : (slice a li (ri + 1)).countP (fun x => decide (l ≤ x ∧ x ≤ r)) ≤
      (slice a li (ri + 1)).countP (fun x => decide (l2 ≤ x ∧ x ≤ r2)) := by
    apply List.countP_mono_left
    intro x _ hx
    simp only [decide_eq_true_eq] at hx ⊢
    omega
  exact_mod_cast this

/-- Witness of C12: on `[2, -1, 3, -4, 5, 7, 1]`, `get(1, 5, 0, 3) = 1` and
`get(1, 5, -1, 5) = 3`. -/
theorem C12_in_range_count_monotone_witness :
    (∃ c c2 : Int,
      (construct in_range_count [2, -1, 3, -4, 5, 7, 1]).bind
          (fun t => get in_range_count t ((1 : Nat) : Int) ((5 : Nat) : Int) (0, 3)) =
        some c ∧
        (construct in_range_count [2, -1, 3, -4, 5, 7, 1]).bind
          (fun t => get in_range_count t ((1 : Nat) : Int) ((5 : Nat) : Int) (-1, 5)) =
        some c2 ∧
        c ≤ c2) ∧
      (construct in_range_count [2, -1, 3, -4, 5, 7, 1]).bind
          (fun t => get in_range_count t 1 5 (0, 3)) = some 1 ∧
      (construct in_range_count [2, -1, 3, -4, 5, 7, 1]).bind
          (fun t => get in_range_count t 1 5 (-1, 5)) = some 3 :=
  ⟨C12_in_range_count_monotone [2, -1, 3, -4, 5, 7, 1] 1 5 0 3 (-1) 5 (by decide) (by decide)
    (by decide) (by decide) (by decide), by decide, by decide⟩

/-- C13 fails on the code: the engine cannot be instantiated with `bitwise_xor`,
`bitwise_and` or `bitwise_or`.  The constructor calls `Var::update(*it)` with one argument
and `get` calls `Var::get_transition` with two, but these policies declare only
`update(lval, rval)` and `get_transition(val)`; so no tree can be constructed and no query
answered, whereas the sibling policy `sum` resolves every call. -/
theorem C13_bitwise_policies_do_not_instantiate :
    (bitwise_xor.for_constructor.isNone = true ∧ bitwise_xor.for_get.isNone = true ∧
        bitwise_xor.resolve.isNone = true) ∧
      (bitwise_and.for_constructor.isNone = true ∧ bitwise_and.for_get.isNone = true ∧
        bitwise_and.resolve.isNone = true) ∧
      (bitwise_or.for_constructor.isNone = true ∧ bitwise_or.for_get.isNone = true ∧
        bitwise_or.resolve.isNone = true) ∧
      sum_overloads.resolve = some sum := by
  refine ⟨⟨rfl, rfl, rfl⟩, ⟨rfl, rfl, rfl⟩, ⟨rfl, rfl, rfl⟩, rfl⟩

/-- C14: on every tree the engine can produce and for every valid index `i`, `update(i, v)`
returns with `size`, `height` and the shape of the level arrays unchanged, and at every
level `h` every node other than `data[h][i >> (height-1-h)]`, the ancestor of leaf `i`,
keeps its datum: only the one leaf-to-root path of `i` is modified. -/
theorem C14_update_frame (Var : Variant DatTp TrnTp RetTp Args) [Inhabited DatTp]
    (t : segment_tree DatTp) (ht : Reachable Var t) (i : Int) (v : RetTp) (h0 : 0 ≤ i)
    (h1 : i < t.size) :
    ∃ t2 : segment_tree DatTp, update Var t i v = some t2 ∧ t2.size = t.size ∧
      t2.height = t.height ∧ t2.data.length = t.data.length ∧
      ∀ (h : Nat) (row : List DatTp), vec_at t.data (h : Int) = some row →
        ∃ row2, vec_at t2.data (h : Int) = some row2 ∧ row2.length = row.length ∧
          ∀ j : Nat, j ≠ i.toNat / 2 ^ (t.height.toNat - 1 - h) → row2[j]? = row[j]? := by
  obtain ⟨a, hn, rfl⟩ := reachable_eq_tree_of Var t ht
  obtain ⟨k, rfl⟩ : ∃ k : Nat, i = (k : Int) := ⟨i.toNat, by omega⟩
  have hk : k < a.length := by
    have : ((k : Nat) : Int) < (a.length : Int) := h1
    omega
  refine ⟨tree_of Var (a.set k v), update_tree_of Var a k v hk hn, by simp [tree_of],
    by simp [tree_of], by simp [tree_of, length_levels], ?_⟩
  intro h row hrow
  rw [vec_at_natCast] at hrow
  obtain ⟨row2, r1, r2, r3⟩ := levels_set_getElem? Var.update (height_of a.length - 1)
    (a.map Var.update_val) k (Var.update_val v) (by simpa using hk) h row hrow
  refine ⟨row2, ?_, r2, ?_⟩
  · rw [vec_at_natCast]
    simpa [tree_of, List.map_set] using r1
  · intro j hj
    apply r3
    simpa [tree_of] using hj

/-- Witness of C14: the sum tree of `[1, 2, 3]`, `update(2, 10)`. -/
theorem C14_update_frame_witness :
    ∃ t2 : segment_tree Int,
      update sum (segment_tree.mk 3 3 [[6], [3, 3], [1, 2, 3]]) 2 10 = some t2 ∧
      t2.size = (segment_tree.mk 3 3 [[6], [3, 3], [1, 2, 3]]).size ∧
      t2.height = (segment_tree.mk 3 3 [[6], [3, 3], [1, 2, 3]]).height ∧
      t2.data.length = (segment_tree.mk 3 3 [[6], [3, 3], [1, 2, 3]]).data.length ∧
      ∀ (h : Nat) (row : List Int),
        vec_at (segment_tree.mk 3 3 [[6], [3, 3], [1, 2, 3]]).data (h : Int) = some row →
        ∃ row2, vec_at t2.data (h : Int) = some row2 ∧ row2.length = row.length ∧
          ∀ j : Nat, j ≠ (2 : Int).toNat /
              2 ^ ((segment_tree.mk 3 3 [[6], [3, 3], [1, 2, 3]]).height.toNat - 1 - h) →
            row2[j]? = row[j]? :=
  C14_update_frame sum (segment_tree.mk 3 3 [[6], [3, 3], [1, 2, 3]])
    (Reachable.built [1, 2, 3] _ (by decide) (by decide)) 2 10 (by decide) (by decide)

/-- C15: the combine of the max-subarray-sum policy is associative on 4-component data over
the integers: `update(update(l, m), r) = update(l, update(m, r))`. -/
theorem C15_max_subarray_sum_update_assoc
    (l0 l1 l2 l3 m0 m1 m2 m3 r0 r1 r2 r3 : Int) :
    max_subarray_sum.update (max_subarray_sum.update [l0, l1, l2, l3] [m0, m1, m2, m3])
        [r0, r1, r2, r3] =
      max_subarray_sum.update [l0, l1, l2, l3]
        (max_subarray_sum.update [m0, m1, m2, m3] [r0, r1, r2, r3]) :=
  max_subarray_sum_update_assoc _ _ _

/-- C16: for the max-subarray-sum policy at a signed integer type `Tp` of `w` bits, every
datum obtained from leaf construction and combine without a signed overflow has four
components and `get` (finalize, the largest component) returns its first component, the
best one. -/
theorem C16_max_subarray_sum_get_is_first (w : Nat) (d : List Int)
    (h : max_subarray_sum_tp_datum w d) :
    ∃ b s p t : Int, d = [b, s, p, t] ∧ (max_subarray_sum_tp w).get d = b := by
  obtain ⟨b, s, p, t, hd, -, -, -, -, hg⟩ := max_subarray_sum_tp_datum_get w d h
  exact ⟨b, s, p, t, hd, hg⟩

/-- Witness of C16, with `Tp = int`: the combine of the leaves of `2` and `-1` is
`[2, 1, 2, 1]`. -/
theorem C16_max_subarray_sum_get_is_first_witness :
    (∃ b s p t : Int,
      max_subarray_sum_tp_update 32 (max_subarray_sum_update_val 2)
          (max_subarray_sum_update_val (-1)) = [b, s, p, t] ∧
        (max_subarray_sum_tp 32).get (max_subarray_sum_tp_update 32
          (max_subarray_sum_update_val 2) (max_subarray_sum_update_val (-1))) = b) ∧
      max_subarray_sum_tp_update 32 (max_subarray_sum_update_val 2)
          (max_subarray_sum_update_val (-1)) = [2, 1, 2, 1] :=
  ⟨C16_max_subarray_sum_get_is_first 32 _
    (max_subarray_sum_tp_datum.node _ _ (max_subarray_sum_tp_datum.leaf 2)
      (max_subarray_sum_tp_datum.leaf (-1)) (by unfold fits; decide) (by unfold fits; decide)
      (by unfold fits; decide) (by unfold fits; decide)), by decide⟩

/-- C17, as stated, fails: the root of the max-subarray-sum tree of `[1, -2]` is
`[1, -1, 1, -1]` (over the integers, and with `Tp = int`); its second component `-1` is the
largest suffix sum, whereas the largest sum of an initial segment of `[1, -2]` is `1`. -/
theorem C17_counterexample :
    construct max_subarray_sum [1, -2] =
        some (segment_tree.mk 2 2 [[[1, -1, 1, -1]], [[1, 1, 1, 1], [-2, -2, -2, -2]]]) ∧
      construct (max_subarray_sum_tp 32) [1, -2] =
        some (segment_tree.mk 2 2 [[[1, -1, 1, -1]], [[1, 1, 1, 1], [-2, -2, -2, -2]]]) ∧
      ¬ Summary_as_claimed [1, -2] [1, -1, 1, -1] := by
  refine ⟨by decide, by decide, ?_⟩
  rintro ⟨b, p, s, hd, -, hp, -⟩
  have hp1 : p = -1 := by
    simp only [List.cons.injEq] at hd
    omega
  have h1 : (1 : Int) ≤ p := hp.2 ⟨[1], by simp, ⟨[-2], rfl⟩, by simp⟩
  omega

/-- C17, amended: at a signed integer type `Tp` of `w` bits and on a sequence of fewer than
`INT_MAX` elements, every node datum of the constructed max-subarray-sum tree whose span
`a[i * 2^(height-1-h)], ..., a[(i+1) * 2^(height-1-h) - 1]` has no contiguous sum that
overflows `Tp` is the vector whose components are, in this order, (best, suffix-max,
prefix-max, total) of the elements in the span: the maximum non-empty contiguous-subarray
sum, the maximum non-empty suffix sum, the maximum non-empty initial-segment sum, and the
sum of all elements. -/
theorem C17_node_summary (w : Nat) (a : List Int) (hn : a.length < 2 ^ 31 - 1) :
    ∃ t : segment_tree (List Int), construct (max_subarray_sum_tp w) a = some t ∧
      ∀ (h i : Nat) (d : List Int), mat_at t.data (h : Int) (i : Int) = some d →
        no_overflow w (slice a (i * 2 ^ (t.height.toNat - 1 - h))
          ((i + 1) * 2 ^ (t.height.toNat - 1 - h))) →
        Summary (slice a (i * 2 ^ (t.height.toNat - 1 - h))
          ((i + 1) * 2 ^ (t.height.toNat - 1 - h))) d :=
  ⟨tree_of (max_subarray_sum_tp w) a, construct_eq (max_subarray_sum_tp w) a hn,
    fun h i d hd =>
      node_tree_of (max_subarray_sum_tp w) (fun d xs => no_overflow w xs → Summary xs d)
        (max_subarray_sum_tp_sound w).leaf (max_subarray_sum_tp_sound w).node a h i d hd⟩

/-- Witness of C17 amended, with `Tp = int`: the tree of `[1, -2]`, none of whose sums
overflows. -/
theorem C17_node_summary_witness :
    (∃ t : segment_tree (List Int), construct (max_subarray_sum_tp 32) [1, -2] = some t ∧
      ∀ (h i : Nat) (d : List Int), mat_at t.data (h : Int) (i : Int) = some d →
        no_overflow 32 (slice [1, -2] (i * 2 ^ (t.height.toNat - 1 - h))
          ((i + 1) * 2 ^ (t.height.toNat - 1 - h))) →
        Summary (slice [1, -2] (i * 2 ^ (t.height.toNat - 1 - h))
          ((i + 1) * 2 ^ (t.height.toNat - 1 - h))) d) ∧
      no_overflow 32 [1, -2] :=
  ⟨C17_node_summary 32 [1, -2] (by decide),
    no_overflow_of_bounds 32 _ 2 (by decide) (by decide)⟩

/-- C18, as stated, fails: on the sorted datum `[1, 2]` with `l = 1`, `r = 2` the
three-argument `get_transition` returns `1`, while two entries lie within `[1, 2]`. -/
theorem C18_counterexample :
    in_range_count.get_transition_dat [1, 2] (1, 2) = 1 ∧
      ([1, 2] : List Int).countP (fun x => decide ((1 : Int) ≤ x ∧ x ≤ 2)) = 2 ∧
      List.Sorted (· ≤ ·) ([1, 2] : List Int) := by
  refine ⟨by decide, by decide, by simp⟩

/-- C18, amended: the three-argument `get_transition(datum, l, r)` looks at the first entry
only: it returns `1` when `l <= datum[0] <= r` and `0` otherwise, which is the number of
entries within `[l, r]` for the single-entry data (the leaves) the engine passes to it.
The entries of a longer sorted datum are counted by the four-argument overload, which adds
`upper_bound - lower_bound` to its count when `l <= r` and nothing when `l > r`. -/
theorem C18_get_transition_counts_singletons (x : Int) (rest : List Int) (c l r : Int)
    (d : List Int) (hd : List.Sorted (· ≤ ·) d) :
    in_range_count.get_transition_dat (x :: rest) (l, r) = (if l ≤ x ∧ x ≤ r then 1 else 0) ∧
      in_range_count.get_transition_dat [x] (l, r) =
        (([x].countP (fun e => decide (l ≤ e ∧ e ≤ r)) : Nat) : Int) ∧
      in_range_count.get_transition_trn_dat c d (l, r) =
        c + ((d.countP (fun e => decide (l ≤ e ∧ e ≤ r)) : Nat) : Int) := by
  refine ⟨rfl, ?_, in_range_count_trn_dat c d d l r hd (List.Perm.refl _)⟩
  simp only [in_range_count, in_range_count_get_transition_dat, List.getD_cons_zero,
    List.countP_cons, List.countP_nil]
  by_cases h : l ≤ x ∧ x ≤ r
  · simp [h]
  · simp [h]

/-- Witness of C18 amended: the leaf `[3]`, and the sorted datum `[1, 2, 4]`, with bounds
`2` and `4`. -/
theorem C18_get_transition_counts_singletons_witness :
    in_range_count.get_transition_dat (3 :: []) (2, 4) =
        (if (2 : Int) ≤ 3 ∧ (3 : Int) ≤ 4 then 1 else 0) ∧
      in_range_count.get_transition_dat [3] (2, 4) =
        (([3].countP (fun e => decide ((2 : Int) ≤ e ∧ e ≤ 4)) : Nat) : Int) ∧
      in_range_count.get_transition_trn_dat 0 [1, 2, 4] (2, 4) =
        0 + (([1, 2, 4].countP (fun e => decide ((2 : Int) ≤ e ∧ e ≤ 4)) : Nat) : Int) :=
  C18_get_transition_counts_singletons 3 [] 0 2 4 [1, 2, 4] (by simp)

/-- C19: in every in-range-count tree reachable by construction followed by any sequence of
valid updates, with `a` the current values of the leaves, each node datum is sorted in
non-decreasing order and is a permutation of the leaf values in the node's span
`a[i * 2^(height-1-h)], ..., a[(i+1) * 2^(height-1-h) - 1]`, so that its length is the span
size; and the combine of two sorted sequences is sorted and a permutation of their
concatenation. -/
theorem C19_in_range_count_nodes_sorted (t : segment_tree (List Int))
    (ht : Reachable in_range_count t) :
    (∃ a : List Int, back t.data = some (a.map (fun v => [v])) ∧
      ∀ (h i : Nat) (d : List Int), mat_at t.data (h : Int) (i : Int) = some d →
        List.Sorted (· ≤ ·) d ∧
        List.Perm d (slice a (i * 2 ^ (t.height.toNat - 1 - h))
          ((i + 1) * 2 ^ (t.height.toNat - 1 - h))) ∧
        d.length = (slice a (i * 2 ^ (t.height.toNat - 1 - h))
          ((i + 1) * 2 ^ (t.height.toNat - 1 - h))).length) ∧
      ∀ lval rval : List Int, List.Sorted (· ≤ ·) lval → List.Sorted (· ≤ ·) rval →
        List.Sorted (· ≤ ·) (in_range_count.update lval rval) ∧
          List.Perm (in_range_count.update lval rval) (lval ++ rval) := by
  obtain ⟨a, hn, rfl⟩ := reachable_eq_tree_of in_range_count t ht
  refine ⟨⟨a, back_tree_of in_range_count a, fun h i d hd => ?_⟩,
    fun lval rval hl hr => in_range_count_update_sorted_perm lval rval hl hr⟩
  have key := node_tree_of in_range_count
    (fun d xs => List.Sorted (· ≤ ·) d ∧ List.Perm d xs) (in_range_count_sound 0 0).leaf
    (in_range_count_sound 0 0).node a h i d hd
  exact ⟨key.1, key.2, key.2.length_eq⟩

/-- Witness of C19: the tree of `[2, -1, 3]` after `update(0, 5)`. -/
theorem C19_in_range_count_nodes_sorted_witness :
    (∃ a : List Int,
      back (segment_tree.mk 3 3 [[[-1, 3, 5]], [[-1, 5], [3]], [[5], [-1], [3]]]).data =
        some (a.map (fun v => [v])) ∧
      ∀ (h i : Nat) (d : List Int),
        mat_at (segment_tree.mk 3 3 [[[-1, 3, 5]], [[-1, 5], [3]], [[5], [-1], [3]]]).data
          (h : Int) (i : Int) = some d →
        List.Sorted (· ≤ ·) d ∧
        List.Perm d (slice a (i * 2 ^ ((3 : Int).toNat - 1 - h))
          ((i + 1) * 2 ^ ((3 : Int).toNat - 1 - h))) ∧
        d.length = (slice a (i * 2 ^ ((3 : Int).toNat - 1 - h))
          ((i + 1) * 2 ^ ((3 : Int).toNat - 1 - h))).length) ∧
      ∀ lval rval : List Int, List.Sorted (· ≤ ·) lval → List.Sorted (· ≤ ·) rval →
        List.Sorted (· ≤ ·) (in_range_count.update lval rval) ∧
          List.Perm (in_range_count.update lval rval) (lval ++ rval) :=
  C19_in_range_count_nodes_sorted
    (segment_tree.mk 3 3 [[[-1, 3, 5]], [[-1, 5], [3]], [[5], [-1], [3]]])
    (Reachable.updated (segment_tree.mk 3 3 [[[-1, 2, 3]], [[-1, 2], [3]], [[2], [-1], [3]]])
      _ 0 5 (Reachable.built [2, -1, 3] _ (by decide) (by decide)) (by decide))

/-- C20: on the tree constructed from a sequence of length `1 <= n < INT_MAX`, with
`0 <= li <= ri < n` every read of `get(li, ri)` hits an existing node (the call returns);
the `for` loop of `get_transition`, started as `get` starts it, returns and the level index
`h` is at least `1` whenever its body runs; with `0 <= i < n` every read and write of
`update(i, v)` hits an existing node (the call returns). -/
theorem C20_accesses_in_bounds (Var : Variant DatTp TrnTp RetTp Args) [Inhabited DatTp]
    (args : Args) (a : List RetTp) (v : RetTp) (li ri i : Nat) (hn : a.length < 2 ^ 31 - 1)
    (hle : li ≤ ri) (hri : ri < a.length) (hi : i < a.length) :
    ∃ t : segment_tree DatTp, construct Var a = some t ∧
      (get Var t (li : Int) (ri : Int) args).isSome = true ∧
      (∀ lval rval : TrnTp, ∃ res,
        get_transition_loop_traced Var t.data args ((ri : Int).toNat + 1) (t.height - 1)
            (li : Int) (ri : Int) lval rval = some res ∧
          get_transition_loop Var t.data args ((ri : Int).toNat + 1) (t.height - 1)
            (li : Int) (ri : Int) lval rval = some res.1 ∧
          ∀ x ∈ res.2, 1 ≤ x) ∧
      (update Var t (i : Int) v).isSome = true := by
  refine ⟨tree_of Var a, construct_eq Var a hn, ?_, ?_, ?_⟩
  · obtain ⟨r, hr⟩ := get_tree_of_some Var args a li ri hle hri
    rw [hr]
    rfl
  · intro lval rval
    exact get_transition_loop_traced_tree_of Var args a li ri hle hri lval rval
  · rw [update_tree_of Var a i v hi (by omega)]
    rfl

/-- Witness of C20: the in-range-count tree of `[2, -1, 3, -4, 5, 7, 1]`, `get(1, 5, -1, 5)`
and `update(6, 0)`; the loop of `get(1, 5, -1, 5)` runs its body at the levels `3` and
`2`. -/
theorem C20_accesses_in_bounds_witness :
    (∃ t : segment_tree (List Int),
      construct in_range_count [2, -1, 3, -4, 5, 7, 1] = some t ∧
      (get in_range_count t ((1 : Nat) : Int) ((5 : Nat) : Int) (-1, 5)).isSome = true ∧
      (∀ lval rval : Int, ∃ res,
        get_transition_loop_traced in_range_count t.data (-1, 5)
            ((((5 : Nat) : Int)).toNat + 1) (t.height - 1) ((1 : Nat) : Int) ((5 : Nat) : Int)
            lval rval = some res ∧
          get_transition_loop in_range_count t.data (-1, 5)
            ((((5 : Nat) : Int)).toNat + 1) (t.height - 1) ((1 : Nat) : Int) ((5 : Nat) : Int)
            lval rval = some res.1 ∧
          ∀ x ∈ res.2, 1 ≤ x) ∧
      (update in_range_count t ((6 : Nat) : Int) 0).isSome = true) ∧
    (construct in_range_count [2, -1, 3, -4, 5, 7, 1]).bind
        (fun t => (get_transition_loop_traced in_range_count t.data (-1, 5) 6 (t.height - 1)
          1 5 1 1).map Prod.snd) = some [3, 2] :=
  ⟨C20_accesses_in_bounds in_range_count (-1, 5) [2, -1, 3, -4, 5, 7, 1] 0 1 5 6 (by decide)
    (by decide) (by decide) (by decide), by decide⟩

end claims

end SegmentTree
